import Mathlib

/-!
Verification of `python/helpers/file_tree.py`: a bounded, filter-aware
directory-tree scanner with three output modes.

The filesystem is modelled as an inductive tree of named nodes carrying UTC
timestamps (as naturals) and two race flags per node: `statOk = false` means
the entry vanishes between being listed and being stat-ed (so `entry.stat()`
raises `FileNotFoundError`), and `listOk = false` on a directory means
`os.scandir` on it raises `FileNotFoundError`.  A real directory listing
yields each name at most once, and the model enforces this by taking the
first occurrence of each name (`dedupByName`).  Absolute paths are
represented by the scan-root-relative POSIX path (the two are in bijection
for a fixed root).  The gitignore pattern matcher (`pathspec.PathSpec`) is
kept abstract as a predicate `String → Bool` over relative POSIX paths, and
`PathSpec.from_lines` is an abstract parameter `fromLines`; reading a
referenced ignore file is an abstract parameter `readFile`.
-/

namespace FileTreePy

/-! ### Python string primitives -/

/-- Python whitespace characters as stripped by `str.strip()` (the common
ones; the full Unicode space set is not needed by any claim). -/
def isPyWS (c : Char) : Bool :=
  c.toNat = 32 || c.toNat = 9 || c.toNat = 10 || c.toNat = 13 ||
  c.toNat = 11 || c.toNat = 12 || c.toNat = 28 || c.toNat = 29 ||
  c.toNat = 30 || c.toNat = 31 || c.toNat = 133 || c.toNat = 160

/-- `str.strip()`. -/
def pyStrip (s : String) : String :=
  ⟨(((s.data.dropWhile isPyWS).reverse.dropWhile isPyWS).reverse)⟩

/-- `str.startswith(pre)`. -/
def pyStartsWith (s pre : String) : Bool :=
  pre.data.isPrefixOf s.data

/-- `str.endswith(suf)`. -/
def pyEndsWith (s suf : String) : Bool :=
  suf.data.isSuffixOf s.data

/-- Line-break characters recognised by `str.splitlines()`. -/
def isLineBreak (c : Char) : Bool :=
  c.toNat = 10 || c.toNat = 13 || c.toNat = 11 || c.toNat = 12 ||
  c.toNat = 28 || c.toNat = 29 || c.toNat = 30 || c.toNat = 133 ||
  c.toNat = 0x2028 || c.toNat = 0x2029

/-- Worker for `str.splitlines()`: `cur` is the reversed current line
(`"\r\n"` counts as a single break; a lone `'\r'` falls to the generic
line-break case). -/
def splitlinesGo : List Char → List Char → List (List Char)
  | [], cur => if cur.isEmpty then [] else [cur.reverse]
  | '\r' :: '\n' :: cs, cur => cur.reverse :: splitlinesGo cs []
  | c :: cs, cur =>
    if isLineBreak c then cur.reverse :: splitlinesGo cs []
    else splitlinesGo cs (c :: cur)

/-- `str.splitlines()`. -/
def pySplitlines (s : String) : List String :=
  (splitlinesGo s.data []).map (fun l => ⟨l⟩)

/-- Strict lexicographic comparison of code-point lists (Python `<` on `str`). -/
def charsLt : List Char → List Char → Bool
  | [], [] => false
  | [], _ :: _ => true
  | _ :: _, [] => false
  | a :: as, b :: bs =>
    if a.toNat < b.toNat then true
    else if b.toNat < a.toNat then false
    else charsLt as bs

/-- `a <= b` on Python strings (total order on code points). -/
def pyStrLe (a b : String) : Bool := !(charsLt b.data a.data)

/-- ASCII lower-casing, standing in for `str.casefold()` (the scanner only
uses it as a sort key). -/
def pyLower (s : String) : String :=
  ⟨s.data.map (fun c => if 'A' ≤ c && c ≤ 'Z' then Char.ofNat (c.toNat + 32) else c)⟩

/-- `str.rstrip(os.sep)` with `os.sep = '/'`. -/
def rstripSlash (s : String) : String :=
  ⟨(s.data.reverse.dropWhile (· = '/')).reverse⟩

/-- `os.path.join` for POSIX paths as used on the ignore-file reference. -/
def pyJoin (a b : String) : String :=
  if pyStartsWith b "/" then b
  else if a = "" then b
  else if pyEndsWith a "/" then a ++ b
  else a ++ "/" ++ b

/-- Building `rel_posix` from a parent relative path and an entry name
(`f"{parent}/{name}"`, or just the name at the root). -/
def relJoin (base : String) (name : String) : String :=
  if base = "" then name else base ++ "/" ++ name

/-! ### Filesystem model -/

/-- A filesystem entry.  `statOk = false`: the entry vanishes between being
listed by `os.scandir` and being stat-ed, so `entry.stat()` raises
`FileNotFoundError`.  `listOk = false` on a directory: `os.scandir` of that
directory raises `FileNotFoundError` (directory vanished before listing). -/
inductive FSNode where
  | file (name : String) (created modified : Nat) (statOk : Bool)
  | dir (name : String) (created modified : Nat) (statOk listOk : Bool)
        (children : List FSNode)

def FSNode.name : FSNode → String
  | .file n _ _ _ => n
  | .dir n _ _ _ _ _ => n

def FSNode.created : FSNode → Nat
  | .file _ c _ _ => c
  | .dir _ c _ _ _ _ => c

def FSNode.modified : FSNode → Nat
  | .file _ _ m _ => m
  | .dir _ _ m _ _ _ => m

def FSNode.statOk : FSNode → Bool
  | .file _ _ _ s => s
  | .dir _ _ _ s _ _ => s

def FSNode.isDir : FSNode → Bool
  | .file _ _ _ _ => false
  | .dir _ _ _ _ _ _ => true

/-- The part of a directory visible to `os.scandir`: its race flag and its
entries. -/
structure FSDir where
  listOk : Bool
  children : List FSNode

def FSNode.dirData : FSNode → FSDir
  | .file _ _ _ _ => ⟨false, []⟩
  | .dir _ _ _ _ lOk cs => ⟨lOk, cs⟩

mutual
def fsSize : FSNode → Nat
  | .file _ _ _ _ => 1
  | .dir _ _ _ _ _ cs => 1 + fsSizeL cs
def fsSizeL : List FSNode → Nat
  | [] => 0
  | c :: cs => fsSize c + fsSizeL cs
end

/-- First occurrence of each name, tracking the names already seen. -/
def dedupSeen (seen : List String) : List FSNode → List FSNode
  | [] => []
  | c :: cs =>
    if c.name ∈ seen then dedupSeen seen cs
    else c :: dedupSeen (c.name :: seen) cs

/-- A real directory listing contains each name once; the model reads a
directory's entry list through this first-occurrence filter. -/
def dedupByName (l : List FSNode) : List FSNode := dedupSeen [] l

theorem fsSize_pos (e : FSNode) : 1 ≤ fsSize e := by
  cases e <;> simp [fsSize]

theorem fsSizeL_cons (e : FSNode) (l : List FSNode) :
    fsSizeL (e :: l) = fsSize e + fsSizeL l := rfl

theorem fsSizeL_sublist_le {l₁ l₂ : List FSNode} (h : List.Sublist l₁ l₂) :
    fsSizeL l₁ ≤ fsSizeL l₂ := by
  induction h with
  | slnil => exact Nat.le_refl _
  | cons e _ ih =>
    refine Nat.le_trans ih ?_
    simp only [fsSizeL_cons]
    have := fsSize_pos e
    omega
  | cons₂ e _ ih => simp [fsSizeL_cons]; omega

theorem dedupSeen_sublist (l : List FSNode) :
    ∀ seen, List.Sublist (dedupSeen seen l) l := by
  induction l with
  | nil => intro seen; simp [dedupSeen]
  | cons c cs ih =>
    intro seen
    rw [dedupSeen]
    by_cases h : c.name ∈ seen
    · simp only [if_pos h]
      exact (ih seen).cons c
    · simp only [if_neg h]
      exact (ih (c.name :: seen)).cons₂ c

theorem dedupByName_sublist (l : List FSNode) : List.Sublist (dedupByName l) l :=
  dedupSeen_sublist l []

theorem fsSizeL_dedup_le (l : List FSNode) :
    fsSizeL (dedupByName l) ≤ fsSizeL l :=
  fsSizeL_sublist_le (dedupByName_sublist l)

/-- Resolving `os.path.join(current_dir, child.name)` followed by a later
`os.scandir`: look the name up in the (deduplicated) listing; a name that no
longer denotes a directory behaves as a vanished directory (scandir raises
`FileNotFoundError`, i.e. `listOk = false`). -/
def getChildDir (d : FSDir) (n : String) : FSDir :=
  match (dedupByName d.children).find? (fun c => c.isDir && c.name = n) with
  | some c => c.dirData
  | none => ⟨false, []⟩

/-! ### Parameters, validation, errors -/

def SORT_BY_NAME : String := "name"
def SORT_BY_CREATED : String := "created"
def SORT_BY_MODIFIED : String := "modified"
def SORT_ASC : String := "asc"
def SORT_DESC : String := "desc"
def OUTPUT_MODE_STRING : String := "string"
def OUTPUT_MODE_FLAT : String := "flat"
def OUTPUT_MODE_NESTED : String := "nested"

/-- Exceptions raised by `file_tree`. -/
inductive Err where
  | fileNotFound
  | notADirectory
  | valueError (msg : String)
deriving DecidableEq, Repr

/-- Keyword arguments of `file_tree` (the root path and `ignore` are passed
separately, as in the source). -/
structure Params where
  maxDepth : Int := 0
  maxLines : Int := 0
  foldersFirst : Bool := true
  maxFolders : Int := 0
  maxFiles : Int := 0
  sortKey : String := "modified"
  sortDir : String := "desc"
  outputMode : String := "string"
deriving DecidableEq, Repr

/-- Lines 91–101 of the source: parameter validation, in source order.
Note that in the source this runs only after the existence and `isdir`
checks on the root path. -/
def validateParams (p : Params) : Except Err Unit :=
  if p.sortKey ≠ SORT_BY_NAME ∧ p.sortKey ≠ SORT_BY_CREATED ∧
      p.sortKey ≠ SORT_BY_MODIFIED then
    .error (.valueError ("Unsupported sort key: " ++ p.sortKey))
  else if p.sortDir ≠ SORT_ASC ∧ p.sortDir ≠ SORT_DESC then
    .error (.valueError ("Unsupported sort direction: " ++ p.sortDir))
  else if p.outputMode ≠ OUTPUT_MODE_STRING ∧ p.outputMode ≠ OUTPUT_MODE_FLAT ∧
      p.outputMode ≠ OUTPUT_MODE_NESTED then
    .error (.valueError ("Unsupported output mode: " ++ p.outputMode))
  else if p.maxDepth < 0 then .error (.valueError "max_depth must be >= 0")
  else if p.maxLines < 0 then .error (.valueError "max_lines must be >= 0")
  else .ok ()

/-! ### Ignore matcher -/

/-- `PathSpec.match_file` abstracted: a predicate on relative POSIX paths. -/
def Matcher : Type := String → Bool

/-- The content-fetch half of `_resolve_ignore_patterns`: inline text, or a
`file:` reference in one of its four addressing forms, read through the
abstract `readFile` (`none` = `FileNotFoundError`). -/
def resolveIgnoreContent (readFile : String → Option String) (ig : String)
    (rootAbs : String) : Except Err String :=
  if pyStartsWith ig "file:" then
    let ref := ig.drop 5
    let refPath :=
      if pyStartsWith ref "///" then ref.drop 2
      else if pyStartsWith ref "//" then pyJoin rootAbs (ref.drop 2)
      else if pyStartsWith ref "/" then ref
      else pyJoin rootAbs ref
    match readFile refPath with
    | some c => .ok c
    | none => .error .fileNotFound
  else .ok ig

/-- The line-filtering half of `_resolve_ignore_patterns`: strip each line,
drop blanks and `#` comments, and compile what remains (or `None`). -/
def compileIgnoreLines (fromLines : List String → Matcher) (content : String) :
    Option Matcher :=
  let lines := (pySplitlines content).filterMap (fun l =>
    let s := pyStrip l
    if s ≠ "" ∧ ¬ pyStartsWith s "#" then some s else none)
  if lines = [] then none else some (fromLines lines)

/-- `_resolve_ignore_patterns`.  `fromLines` abstracts
`PathSpec.from_lines("gitwildmatch", lines)`. -/
def resolveIgnorePatterns (fromLines : List String → Matcher)
    (readFile : String → Option String) (ignore : Option String)
    (rootAbs : String) : Except Err (Option Matcher) :=
  match ignore with
  | none => .ok none
  | some ig =>
    match resolveIgnoreContent readFile ig rootAbs with
    | .error e => .error e
    | .ok content => .ok (compileIgnoreLines fromLines content)

/-! ### Visibility cache and recursive visibility check -/

/-- The per-scan visibility cache: Python keys it by absolute directory
path; the model uses the root-relative path (in bijection with it). -/
def Cache : Type := List (String × Bool)

def cacheLookup (c : Cache) (k : String) : Option Bool :=
  match c.find? (fun e => e.1 = k) with
  | some e => some e.2
  | none => none

def cacheInsert (c : Cache) (k : String) (v : Bool) : Cache := (k, v) :: c

mutual
/-- The `for entry in iterator` loop of `_directory_has_visible_entries`:
scan the entries of a directory with relative path `rel` for a visible one,
scanning at most `d` further levels below it (`d < 0`: unlimited).  `seen`
tracks the names already yielded (a real scandir yields each name once). -/
def hvScan (spec : Matcher) (d : Int) (rel : String) (seen : List String) :
    List FSNode → Cache → Bool × Cache
  | [], cache => (false, cache)
  | e :: rest, cache =>
    if e.name ∈ seen then hvScan spec d rel seen rest cache
    else
      let seen' := e.name :: seen
      let relc := relJoin rel e.name
      match e with
      | .dir _ _ _ _ _ _ =>
        if spec relc || spec (relc ++ "/") then
          let nd : Int := if d > 0 then d - 1 else -1
          if nd = 0 then hvScan spec d rel seen' rest cache
          else
            let fc := hvSub spec nd relc e cache
            if fc.1 then (true, fc.2) else hvScan spec d rel seen' rest fc.2
        else (true, cache)
      | .file _ _ _ _ =>
        if spec relc then hvScan spec d rel seen' rest cache else (true, cache)
/-- The recursive `_directory_has_visible_entries(entry.path, …)` call on an
excluded subdirectory `e` (reached only with a non-zero depth budget `nd`):
consult the cache, treat a vanished directory as invisible, else scan its
entries.  The `file` case is unreachable (callers pass directories). -/
def hvSub (spec : Matcher) (nd : Int) (relc : String) (e : FSNode)
    (cache : Cache) : Bool × Cache :=
  match e with
  | .file _ _ _ _ => (false, cache)
  | .dir _ _ _ _ lOk ch =>
    match cacheLookup cache relc with
    | some b => (b, cache)
    | none =>
      if lOk then
        let (found, c') := hvScan spec nd relc [] ch cache
        (found, cacheInsert c' relc found)
      else (false, cacheInsert cache relc false)
end

/-- `_directory_has_visible_entries` at its entry point: does `dir`
(relative path `rel`) transitively contain a non-excluded entry, scanning
at most `d` levels (`d = 0`: no; `d < 0`: unlimited)?  Results are memoized
in `cache`. -/
def hasVisible (spec : Matcher) (d : Int) (rel : String) (dir : FSDir)
    (cache : Cache) : Bool × Cache :=
  if d = 0 then (false, cache)
  else
    match cacheLookup cache rel with
    | some b => (b, cache)
    | none =>
      if dir.listOk then
        let (found, cache') := hvScan spec d rel [] dir.children cache
        (found, cacheInsert cache' rel found)
      else (false, cacheInsert cache rel false)

/-! ### Listing a directory (`_list_directory_children`) -/

/-- The scandir loop of `_list_directory_children`, over an already
deduplicated entry list.  Returns kept folder entries, kept file entries
(in listing order) and the updated visibility cache. -/
def ldcLoop (spec : Option Matcher) (baseRel : String) (r : Int) :
    List FSNode → Cache → List FSNode × List FSNode × Cache
  | [], cache => ([], [], cache)
  | e :: rest, cache =>
    if e.name = "." ∨ e.name = ".." then ldcLoop spec baseRel r rest cache
    else
      let relc := relJoin baseRel e.name
      match spec, e with
      | some mch, .dir _ _ _ _ lOk ch =>
        if mch relc || mch (relc ++ "/") then
          let (vis, c1) := hasVisible mch (r - 1) relc ⟨lOk, ch⟩ cache
          let (fds, fls, c2) := ldcLoop spec baseRel r rest c1
          (if vis then e :: fds else fds, fls, c2)
        else
          let (fds, fls, c1) := ldcLoop spec baseRel r rest cache
          (e :: fds, fls, c1)
      | some mch, .file _ _ _ _ =>
        if mch relc then ldcLoop spec baseRel r rest cache
        else
          let (fds, fls, c1) := ldcLoop spec baseRel r rest cache
          (fds, e :: fls, c1)
      | none, .dir _ _ _ _ _ _ =>
        let (fds, fls, c1) := ldcLoop spec baseRel r rest cache
        (e :: fds, fls, c1)
      | none, .file _ _ _ _ =>
        let (fds, fls, c1) := ldcLoop spec baseRel r rest cache
        (fds, e :: fls, c1)

/-- `_list_directory_children`: a vanished directory (`listOk = false`, i.e.
`os.scandir` raising `FileNotFoundError`) is treated as empty. -/
def listDirectoryChildren (spec : Option Matcher) (dir : FSDir)
    (baseRel : String) (r : Int) (cache : Cache) :
    List FSNode × List FSNode × Cache :=
  if dir.listOk then ldcLoop spec baseRel r (dedupByName dir.children) cache
  else ([], [], cache)

/-! ### Tree entries -/

inductive ItemType where
  | file
  | folder
  | comment
deriving DecidableEq, Repr

/-- `_TreeEntry`, minus the parent back-reference and the owned `items`
list, which live in the tree structure `TreeN` below.  `uid` models Python
object identity (`id(node)`): every created entry gets a fresh serial. -/
structure TE where
  name : String
  level : Int
  itemType : ItemType
  created : Nat
  modified : Nat
  relPath : String
  isLast : Bool
  text : String
  uid : Nat
deriving DecidableEq, Repr

/-- `make_entry`: stats the listed entry (raising `FileNotFoundError` when
it vanished after listing) and builds a `_TreeEntry`. -/
def makeEntry (e : FSNode) (parentRel : String) (level : Int) (uid : Nat) :
    Except Err TE :=
  if e.statOk then
    .ok { name := e.name, level := level,
          itemType := if e.isDir then .folder else .file,
          created := e.created, modified := e.modified,
          relPath := relJoin parentRel e.name,
          isLast := false, text := "", uid := uid }
  else .error .fileNotFound

/-- The `[make_entry(x, …) for x in xs]` comprehension, threading the
identity counter. -/
def makeEntries : List FSNode → String → Int → Nat → Except Err (List TE × Nat)
  | [], _, _, uid => .ok ([], uid)
  | e :: es, pr, lv, uid =>
    match makeEntry e pr lv uid with
    | .error er => .error er
    | .ok te =>
      match makeEntries es pr lv (uid + 1) with
      | .error er => .error er
      | .ok (tes, uid') => .ok (te :: tes, uid')

/-! ### Summary comments -/

/-- `_create_summary_comment` (per-directory overflow). -/
def createSummaryComment (parent : TE) (noun : String) (count : Nat)
    (uid : Nat) : TE :=
  let label :=
    if count = 1 ∧ pyEndsWith noun "s" then noun.dropRight 1
    else if count > 1 ∧ ¬ pyEndsWith noun "s" then noun ++ "s"
    else noun
  { name := Nat.repr count ++ " more " ++ label,
    level := parent.level + 1, itemType := .comment,
    created := parent.created, modified := parent.modified,
    relPath := parent.relPath ++ "#summary:" ++ noun ++ ":" ++ Nat.repr count,
    isLast := false, text := "", uid := uid }

/-- `_create_global_limit_comment`. -/
def createGlobalLimitComment (parent : TE) (hidden : List TE) (uid : Nat) : TE :=
  let folders := (hidden.filter (fun c => c.itemType = .folder)).length
  let files := (hidden.filter (fun c => c.itemType = .file)).length
  let parts : List String :=
    (if folders ≠ 0 then
      [Nat.repr folders ++ " " ++ (if folders = 1 then "folder" else "folders")]
     else []) ++
    (if files ≠ 0 then
      [Nat.repr files ++ " " ++ (if files = 1 then "file" else "files")]
     else [])
  let parts :=
    if parts = [] then
      [Nat.repr hidden.length ++ " " ++
        (if hidden.length = 1 then "item" else "items")]
    else parts
  { name := "limit reached – hidden: " ++ String.intercalate ", " parts,
    level := parent.level + 1, itemType := .comment,
    created := parent.created, modified := parent.modified,
    relPath := parent.relPath ++ "#summary:limit",
    isLast := false, text := "", uid := uid }

/-! ### Sorting and per-directory caps (`_apply_sorting_and_limits`) -/

/-- `key_fn` folded into a boolean `≤`: compare by the selected key. -/
def sortKeyLe (k : String) (a b : TE) : Bool :=
  if k = SORT_BY_NAME then pyStrLe (pyLower a.name) (pyLower b.name)
  else if k = SORT_BY_CREATED then decide (a.created ≤ b.created)
  else decide (a.modified ≤ b.modified)

/-- The ordering used by `sorted(…, key=key_fn, reverse=…)`: Python's sort
is stable, and `reverse=True` is a stable descending sort, i.e. a stable
sort by the flipped comparison. -/
def sortRel (k d : String) (a b : TE) : Prop :=
  (if d = SORT_DESC then sortKeyLe k b a else sortKeyLe k a b) = true

instance (k d : String) : DecidableRel (sortRel k d) := fun a b => by
  unfold sortRel; infer_instance

/-- `sorted(group, key=key_fn, reverse=…)` as a stable insertion sort. -/
def pySortedTE (k d : String) (l : List TE) : List TE :=
  List.insertionSort (sortRel k d) l

/-- `append_group` inside `_apply_sorting_and_limits`: a cap of `0` means
unlimited, a negative cap is clamped to `0` by `max(limit, 0)`, a positive
cap keeps the first `k` entries and appends one summary comment whenever
anything overflows. -/
def appendGroup (dirNode : TE) (group : List TE) (limit : Int) (noun : String)
    (uid : Nat) : List TE × Nat :=
  let limitOpt : Option Int := if limit = 0 then none else some limit
  if group = [] then ([], uid)
  else
    match limitOpt with
    | none => (group, uid)
    | some lim =>
      let lim2 := (max lim 0).toNat
      let visible := group.take lim2
      let overflow := group.drop lim2
      if overflow = [] then (visible, uid)
      else (visible ++ [createSummaryComment dirNode noun overflow.length uid],
            uid + 1)

/-- `_apply_sorting_and_limits`. -/
def applySortingAndLimits (folders files : List TE) (foldersFirst : Bool)
    (k d : String) (maxFolders maxFiles : Int) (dirNode : TE) (uid : Nat) :
    List TE × Nat :=
  let fsorted := pySortedTE k d folders
  let flsorted := pySortedTE k d files
  if foldersFirst then
    let (g1, u1) := appendGroup dirNode fsorted maxFolders "folder" uid
    let (g2, u2) := appendGroup dirNode flsorted maxFiles "file" u1
    (g1 ++ g2, u2)
  else
    let (g1, u1) := appendGroup dirNode flsorted maxFiles "file" uid
    let (g2, u2) := appendGroup dirNode fsorted maxFolders "folder" u1
    (g1 ++ g2, u2)

/-! ### The global line budget (`for index, child in enumerate(children)`) -/

/-- The `is_global_summary` test of the budget loop. -/
def isGlobalSummary (te : TE) : Bool :=
  te.itemType = .comment && pyEndsWith te.relPath "#summary:limit"

/-- The budget loop: returns the kept prefix, the hidden suffix, the updated
rendered counter and whether the limit was hit.  Global-limit comments do
not increment the counter; everything else (including per-directory overflow
comments) does. -/
def consumeChildren (maxLines : Int) : Nat → List TE →
    List TE × List TE × Nat × Bool
  | rc, [] => ([], [], rc, false)
  | rc, c :: cs =>
    if maxLines ≠ 0 ∧ (rc : Int) ≥ maxLines then ([], c :: cs, rc, true)
    else
      let rc' := if isGlobalSummary c then rc else rc + 1
      let (tr, hid, rc'', lim) := consumeChildren maxLines rc' cs
      (c :: tr, hid, rc'', lim)

/-! ### The owned entry tree

Python mutates a tree of live `_TreeEntry` objects; the model rebuilds the
tree functionally, locating the mutated node by its identity serial `uid`. -/

inductive TreeN where
  | node (te : TE) (items : Option (List TreeN))

def TreeN.te : TreeN → TE
  | .node te _ => te

def TreeN.items : TreeN → Option (List TreeN)
  | .node _ it => it

/-- A freshly created entry as a tree node: `make_entry` gives folders
`items = []` and files `items = None`; synthetic comments carry `None`. -/
def teToLeaf (te : TE) : TreeN :=
  .node te (if te.itemType = .folder then some [] else none)

mutual
/-- `node.items = new_items` on the unique node with identity `uid`. -/
def attachSet (t : TreeN) (uid : Nat) (newItems : Option (List TreeN)) : TreeN :=
  match t with
  | .node te items =>
    if te.uid = uid then .node te newItems
    else
      match items with
      | none => .node te none
      | some ts => .node te (some (attachSetL ts uid newItems))
def attachSetL (ts : List TreeN) (uid : Nat) (newItems : Option (List TreeN)) :
    List TreeN :=
  match ts with
  | [] => []
  | t :: rest => attachSet t uid newItems :: attachSetL rest uid newItems
end

mutual
/-- `node.items = (node.items or []) + extra` on the node with identity
`uid` (used for the deferred unprocessed-folder comments). -/
def attachAppend (t : TreeN) (uid : Nat) (extra : List TreeN) : TreeN :=
  match t with
  | .node te items =>
    if te.uid = uid then .node te (some (items.getD [] ++ extra))
    else
      match items with
      | none => .node te none
      | some ts => .node te (some (attachAppendL ts uid extra))
def attachAppendL (ts : List TreeN) (uid : Nat) (extra : List TreeN) :
    List TreeN :=
  match ts with
  | [] => []
  | t :: rest => attachAppend t uid extra :: attachAppendL rest uid extra
end

mutual
/-- `_prune_to_visible`: keep a child iff `visible_ids` is empty or contains
its identity; an emptied children list becomes `None`. -/
def pruneVis (t : TreeN) (vis : List Nat) : TreeN :=
  match t with
  | .node te none => .node te none
  | .node te (some ts) =>
    match pruneVisL ts vis with
    | [] => .node te none
    | f => .node te (some f)
def pruneVisL (ts : List TreeN) (vis : List Nat) : List TreeN :=
  match ts with
  | [] => []
  | t :: rest =>
    if vis = [] ∨ t.te.uid ∈ vis then pruneVis t vis :: pruneVisL rest vis
    else pruneVisL rest vis
end

mutual
/-- `_mark_last_flags` on a child: set its `is_last` and recurse. -/
def markLast (t : TreeN) (b : Bool) : TreeN :=
  match t with
  | .node te items =>
    let te' := { te with isLast := b }
    match items with
    | none => .node te' none
    | some ts => .node te' (some (markLastL ts))
/-- Mark a sibling group: only the final element gets `is_last = true`. -/
def markLastL : List TreeN → List TreeN
  | [] => []
  | [t] => [markLast t true]
  | t :: rest => markLast t false :: markLastL rest
end

/-- `_mark_last_flags(root_node)`: the root's own flag is untouched. -/
def markLastRoot (t : TreeN) : TreeN :=
  match t with
  | .node te none => .node te none
  | .node te (some ts) => .node te (some (markLastL ts))

/-- `_format_line`: `pref` lists the `is_last` flags of the ancestors
strictly below the root, root side first. -/
def formatLine (pref : List Bool) (te : TE) : String :=
  let segs := pref.map (fun b => if b then "    " else "│   ")
  let connector := if te.isLast then "└── " else "├── "
  let label :=
    if te.itemType = .folder then te.name ++ "/"
    else if te.itemType = .comment then "# " ++ te.name
    else te.name
  String.join segs ++ connector ++ label

mutual
/-- `_refresh_render_metadata`, child side: compute this node's `text` from
the ancestor flags and recurse with its own flag appended. -/
def refreshChild (pref : List Bool) (t : TreeN) : TreeN :=
  match t with
  | .node te items =>
    let te' := { te with text := formatLine pref te }
    match items with
    | none => .node te' none
    | some ts => .node te' (some (refreshChildL (pref ++ [te.isLast]) ts))
def refreshChildL (pref : List Bool) (ts : List TreeN) : List TreeN :=
  match ts with
  | [] => []
  | t :: rest => refreshChild pref t :: refreshChildL pref rest
end

/-- `_refresh_render_metadata(root_node)`: the root's own text stays empty. -/
def refreshRoot (t : TreeN) : TreeN :=
  match t with
  | .node te none => .node te none
  | .node te (some ts) => .node te (some (refreshChildL [] ts))

mutual
/-- `_iter_depth_first` over a subtree, node first. -/
def dfsT : TreeN → List TE
  | .node te none => [te]
  | .node te (some ts) => te :: dfsL ts
def dfsL : List TreeN → List TE
  | [] => []
  | t :: ts => dfsT t ++ dfsL ts
end

/-- `_iter_depth_first(root_node.items or [])`. -/
def dfsItems (t : TreeN) : List TE := dfsL (t.items.getD [])

/-- `iter_visible()`: depth-first entries filtered to the emitted set. -/
def iterVisible (t : TreeN) (vis : List Nat) : List TE :=
  (dfsItems t).filter (fun te => vis = [] ∨ te.uid ∈ vis)

/-! ### Output structures -/

/-- One record of the flat output (its `items` field is always `None`). -/
structure FlatItem where
  name : String
  level : Int
  type : ItemType
  created : Nat
  modified : Nat
  text : String
deriving DecidableEq, Repr

def toFlatItem (te : TE) : FlatItem :=
  ⟨te.name, te.level, te.itemType, te.created, te.modified, te.text⟩

/-- One record of the nested output. -/
inductive NestedItem where
  | mk (name : String) (level : Int) (type : ItemType) (created modified : Nat)
       (text : String) (items : Option (List NestedItem))

mutual
/-- `_to_nested_structure`'s `convert`. -/
def toNestedT : TreeN → NestedItem
  | .node te none =>
    .mk te.name te.level te.itemType te.created te.modified te.text none
  | .node te (some ts) =>
    .mk te.name te.level te.itemType te.created te.modified te.text
      (some (toNestedL ts))
def toNestedL : List TreeN → List NestedItem
  | [] => []
  | t :: ts => toNestedT t :: toNestedL ts
end

mutual
/-- Depth-first flattening of nested records, dropping the children arrays
(the comparison form used to state mode agreement). -/
def flattenN : NestedItem → List FlatItem
  | .mk n l ty c m tx none => [⟨n, l, ty, c, m, tx⟩]
  | .mk n l ty c m tx (some its) => ⟨n, l, ty, c, m, tx⟩ :: flattenNL its
def flattenNL : List NestedItem → List FlatItem
  | [] => []
  | i :: is => flattenN i ++ flattenNL is
end

/-! ### The breadth-first work loop -/

/-- A work-queue element `(node, absolute_path, level)`: the node's entry,
what `os.scandir` of its absolute path sees, and the level of its children. -/
structure Task where
  te : TE
  dir : FSDir
  level : Int

/-- The loop state threaded through the `while queue` loop. -/
structure ScanSt where
  tree : TreeN
  nio : List TE
  rc : Nat
  uidCtr : Nat
  cache : Cache
  limitReached : Bool

/-- The child-folder enqueueing loop at the bottom of the `while` body. -/
def newTasksOf (maxDepth : Int) (t : Task) (trimmed : List TE) : List Task :=
  trimmed.filterMap (fun c =>
    if c.itemType = .folder ∧ ¬ (maxDepth ≠ 0 ∧ t.level ≥ maxDepth) then
      some ⟨c, getChildDir t.dir c.name, t.level + 1⟩
    else none)

/-- One iteration of the `while queue` body for the dequeued task `t`.
Returns the updated state, the tasks to enqueue, and whether the loop
breaks (`limit_reached`). -/
def stepTask (p : Params) (spec : Option Matcher) (t : Task) (st : ScanSt) :
    Except Err (ScanSt × List Task × Bool) :=
  if p.maxDepth ≠ 0 ∧ t.level > p.maxDepth then .ok (st, [], false)
  else
    let (fds, fls, cache1) := listDirectoryChildren spec t.dir t.te.relPath
      (if p.maxDepth ≠ 0 then p.maxDepth - t.level else -1) st.cache
    match makeEntries fds t.te.relPath t.level st.uidCtr with
    | .error e => .error e
    | .ok (folderTEs, c1) =>
      match makeEntries fls t.te.relPath t.level c1 with
      | .error e => .error e
      | .ok (fileTEs, c2) =>
        let (children, c3) := applySortingAndLimits folderTEs fileTEs
          p.foldersFirst p.sortKey p.sortDir p.maxFolders p.maxFiles t.te c2
        if p.maxLines ≠ 0 ∧ (st.rc : Int) ≥ p.maxLines then
          .ok ({ st with tree := attachSet st.tree t.te.uid none,
                         cache := cache1, uidCtr := c3, limitReached := true },
               [], true)
        else
          let (trimmed, hidden, rc', lim) := consumeChildren p.maxLines st.rc children
          let (trimmed', c4) :=
            if lim ∧ hidden ≠ [] then
              (trimmed ++ [createGlobalLimitComment t.te hidden c3], c3 + 1)
            else (trimmed, c3)
          let items : Option (List TreeN) :=
            match trimmed' with
            | [] => none
            | ts => some (ts.map teToLeaf)
          let st' : ScanSt :=
            { tree := attachSet st.tree t.te.uid items,
              nio := st.nio ++ trimmed', rc := rc', uidCtr := c4,
              cache := cache1, limitReached := st.limitReached || lim }
          if lim then .ok (st', [], true)
          else .ok (st', newTasksOf p.maxDepth t trimmed', false)

/-! ### Termination of the work loop

The loop terminates because the total filesystem size carried by the queue
strictly decreases: a dequeued directory enqueues sub-directories resolved
from distinct names of its own (deduplicated) listing. -/

def taskWeight (t : Task) : Nat := 1 + fsSizeL t.dir.children

def queueWeight (q : List Task) : Nat := (q.map taskWeight).sum

theorem queueWeight_append (q₁ q₂ : List Task) :
    queueWeight (q₁ ++ q₂) = queueWeight q₁ + queueWeight q₂ := by
  simp [queueWeight]

theorem fsSizeL_eq_sum (l : List FSNode) : fsSizeL l = (l.map fsSize).sum := by
  induction l with
  | nil => rfl
  | cons e es ih => simp [fsSizeL_cons, ih]

theorem fsSizeL_perm {l₁ l₂ : List FSNode} (h : l₁.Perm l₂) :
    fsSizeL l₁ = fsSizeL l₂ := by
  rw [fsSizeL_eq_sum, fsSizeL_eq_sum]
  exact (h.map fsSize).sum_eq

theorem fsSizeL_subperm_le {l₁ l₂ : List FSNode} (h : l₁.Subperm l₂) :
    fsSizeL l₁ ≤ fsSizeL l₂ := by
  obtain ⟨l, hp, hs⟩ := h
  calc fsSizeL l₁ = fsSizeL l := (fsSizeL_perm hp).symm
    _ ≤ fsSizeL l₂ := fsSizeL_sublist_le hs

theorem dedupSeen_names (l : List FSNode) :
    ∀ seen, ((dedupSeen seen l).map FSNode.name).Nodup ∧
      ∀ n ∈ (dedupSeen seen l).map FSNode.name, n ∉ seen := by
  induction l with
  | nil => intro seen; simp [dedupSeen]
  | cons c cs ih =>
    intro seen
    rw [dedupSeen]
    by_cases h : c.name ∈ seen
    · simp only [if_pos h]
      exact ih seen
    · simp only [if_neg h, List.map_cons, List.nodup_cons]
      obtain ⟨ihn, ihs⟩ := ih (c.name :: seen)
      refine ⟨⟨?_, ihn⟩, ?_⟩
      · intro hmem
        exact (ihs _ hmem) (List.mem_cons_self _ _)
      · intro n hn
        rcases List.mem_cons.mp hn with hh | hh
        · subst hh; exact h
        · intro hns
          exact (ihs _ hh) (List.mem_cons_of_mem _ hns)

theorem dedupByName_names_nodup (l : List FSNode) :
    ((dedupByName l).map FSNode.name).Nodup :=
  (dedupSeen_names l []).1

/-- Name lookup used by `getChildDir`. -/
def resolveDir (cs : List FSNode) (n : String) : Option FSNode :=
  (dedupByName cs).find? (fun c => c.isDir && c.name = n)

theorem getChildDir_children (b : Bool) (cs : List FSNode) (n : String) :
    (getChildDir ⟨b, cs⟩ n).children =
      match resolveDir cs n with
      | some e => e.dirData.children
      | none => [] := by
  simp only [getChildDir, resolveDir]
  cases (dedupByName cs).find? (fun c => c.isDir && c.name = n) <;> rfl

theorem resolveDir_isSome {cs : List FSNode} {n : String}
    (h : ∃ e ∈ dedupByName cs, e.isDir = true ∧ e.name = n) :
    ∃ e, resolveDir cs n = some e ∧ e ∈ dedupByName cs ∧
      e.isDir = true ∧ e.name = n := by
  obtain ⟨e, he, hd, hn⟩ := h
  have hsome : (resolveDir cs n).isSome := by
    rw [resolveDir, List.find?_isSome]
    exact ⟨e, he, by simp [hd, hn]⟩
  obtain ⟨e', he'⟩ := Option.isSome_iff_exists.mp hsome
  have hp := List.find?_some he'
  simp only [Bool.and_eq_true, decide_eq_true_eq] at hp
  exact ⟨e', he', List.mem_of_find?_eq_some he', hp.1, hp.2⟩

theorem weight_of_resolved {cs : List FSNode} {n : String} {e : FSNode}
    (b : Bool) (h : resolveDir cs n = some e) (hd : e.isDir = true) :
    1 + fsSizeL (getChildDir ⟨b, cs⟩ n).children = fsSize e := by
  rw [getChildDir_children, h]
  match e, hd with
  | .dir _ _ _ _ lOk ch, _ => simp [FSNode.dirData, fsSize]

theorem weight_sum_le (b : Bool) (cs : List FSNode) :
    ∀ ns : List String, ns.Nodup →
    (∀ n ∈ ns, ∃ e ∈ dedupByName cs, e.isDir = true ∧ e.name = n) →
    ((ns.map (fun n => 1 + fsSizeL (getChildDir ⟨b, cs⟩ n).children)).sum) ≤
      fsSizeL cs := by
  intro ns hnd hmem
  -- resolve each name to its unique entry of the deduplicated listing
  have hres : ∀ n ∈ ns, ∃ e, resolveDir cs n = some e ∧ e ∈ dedupByName cs ∧
      e.isDir = true ∧ e.name = n := fun n hn => resolveDir_isSome (hmem n hn)
  set rs := ns.filterMap (resolveDir cs) with hrs
  have hsum : ((ns.map (fun n => 1 + fsSizeL (getChildDir ⟨b, cs⟩ n).children)).sum)
      = fsSizeL rs := by
    rw [hrs]
    clear hrs hnd hmem
    induction ns with
    | nil => simp [fsSizeL]
    | cons n ns ih =>
      obtain ⟨e, he, _, hd, _⟩ := hres n (List.mem_cons_self n ns)
      have ih' := ih (fun m hm => hres m (List.mem_cons_of_mem n hm))
      simp only [List.map_cons, List.sum_cons, List.filterMap_cons, he,
        fsSizeL_cons, ih']
      rw [weight_of_resolved b he hd]
  rw [hsum]
  have hsubset : rs ⊆ dedupByName cs := by
    intro e he
    rw [hrs] at he
    obtain ⟨n, _, hr⟩ := List.mem_filterMap.mp he
    exact List.mem_of_find?_eq_some hr
  have hnamesub : ∀ e ∈ rs, ∃ n ∈ ns, e.name = n := by
    intro e he
    rw [hrs] at he
    obtain ⟨n, hn, hr⟩ := List.mem_filterMap.mp he
    have hp := List.find?_some hr
    simp only [Bool.and_eq_true, decide_eq_true_eq] at hp
    exact ⟨n, hn, hp.2⟩
  have hnodup : rs.Nodup := by
    rw [hrs]
    clear hrs hsum hsubset hnamesub hmem
    induction ns with
    | nil => simp
    | cons n ns ih =>
      obtain ⟨e, he, _, _, hname⟩ := hres n (List.mem_cons_self n ns)
      have hres' : ∀ m ∈ ns, ∃ e, resolveDir cs m = some e ∧
          e ∈ dedupByName cs ∧ e.isDir = true ∧ e.name = m :=
        fun m hm => hres m (List.mem_cons_of_mem n hm)
      have ih' := ih (List.Nodup.of_cons hnd) hres'
      simp only [List.filterMap_cons, he, List.nodup_cons]
      refine ⟨?_, ih'⟩
      intro hmem2
      obtain ⟨m, hm, hr⟩ := List.mem_filterMap.mp hmem2
      obtain ⟨e', he', _, _, hname'⟩ := hres' m hm
      rw [he'] at hr
      injection hr with hr
      subst hr
      rw [hname] at hname'
      subst hname'
      exact (List.nodup_cons.mp hnd).1 hm
  calc fsSizeL rs ≤ fsSizeL (dedupByName cs) :=
        fsSizeL_subperm_le (hnodup.subperm hsubset)
    _ ≤ fsSizeL cs := fsSizeL_dedup_le cs

theorem ldcLoop_shape (spec : Option Matcher) (base : String) (r : Int) :
    ∀ (es : List FSNode) (cache : Cache),
    List.Sublist (ldcLoop spec base r es cache).1 es ∧
    (∀ e ∈ (ldcLoop spec base r es cache).1, e.isDir = true) ∧
    List.Sublist (ldcLoop spec base r es cache).2.1 es ∧
    (∀ e ∈ (ldcLoop spec base r es cache).2.1, e.isDir = false) := by
  intro es
  induction es with
  | nil => intro cache; simp [ldcLoop]
  | cons e rest ih =>
    intro cache
    rw [ldcLoop]
    by_cases hdot : e.name = "." ∨ e.name = ".."
    · simp only [if_pos hdot]
      obtain ⟨h1, h2, h3, h4⟩ := ih cache
      exact ⟨h1.cons e, h2, h3.cons e, h4⟩
    · simp only [if_neg hdot]
      cases spec with
      | none =>
        cases e with
        | dir nm cr mo sOk lOk ch =>
          rcases hld : ldcLoop none base r rest cache with ⟨fds, fls, c2⟩
          obtain ⟨h1, h2, h3, h4⟩ := ih cache
          rw [hld] at h1 h2 h3 h4
          simp only [hld]
          refine ⟨h1.cons₂ _, ?_, h3.cons _, h4⟩
          intro x hx
          rcases List.mem_cons.mp hx with h | h
          · subst h; rfl
          · exact h2 x h
        | file nm cr mo sOk =>
          rcases hld : ldcLoop none base r rest cache with ⟨fds, fls, c2⟩
          obtain ⟨h1, h2, h3, h4⟩ := ih cache
          rw [hld] at h1 h2 h3 h4
          simp only [hld]
          refine ⟨h1.cons _, h2, h3.cons₂ _, ?_⟩
          intro x hx
          rcases List.mem_cons.mp hx with h | h
          · subst h; rfl
          · exact h4 x h
      | some mch =>
        cases e with
        | dir nm cr mo sOk lOk ch =>
          simp only [FSNode.name]
          by_cases hm : (mch (relJoin base nm) || mch (relJoin base nm ++ "/")) = true
          · rcases hhv : hasVisible mch (r - 1) (relJoin base nm) ⟨lOk, ch⟩ cache
              with ⟨vis, c1⟩
            obtain ⟨h1, h2, h3, h4⟩ := ih c1
            rcases hld : ldcLoop (some mch) base r rest c1 with ⟨fds, fls, c2⟩
            rw [hld] at h1 h2 h3 h4
            simp only [hm, if_true, hhv, hld]
            cases vis
            · simpa using ⟨h1.cons _, h2, h3.cons _, h4⟩
            · simp only [if_pos rfl]
              refine ⟨h1.cons₂ _, ?_, h3.cons _, h4⟩
              intro x hx
              rcases List.mem_cons.mp hx with h | h
              · subst h; rfl
              · exact h2 x h
          · simp only [Bool.not_eq_true] at hm
            rcases hld : ldcLoop (some mch) base r rest cache with ⟨fds, fls, c2⟩
            obtain ⟨h1, h2, h3, h4⟩ := ih cache
            rw [hld] at h1 h2 h3 h4
            simp only [hm, Bool.false_eq_true, if_false, hld]
            refine ⟨h1.cons₂ _, ?_, h3.cons _, h4⟩
            intro x hx
            rcases List.mem_cons.mp hx with h | h
            · subst h; rfl
            · exact h2 x h
        | file nm cr mo sOk =>
          simp only [FSNode.name]
          by_cases hm : mch (relJoin base nm) = true
          · simp only [hm, if_true]
            obtain ⟨h1, h2, h3, h4⟩ := ih cache
            exact ⟨h1.cons _, h2, h3.cons _, h4⟩
          · simp only [Bool.not_eq_true] at hm
            rcases hld : ldcLoop (some mch) base r rest cache with ⟨fds, fls, c2⟩
            obtain ⟨h1, h2, h3, h4⟩ := ih cache
            rw [hld] at h1 h2 h3 h4
            simp only [hm, Bool.false_eq_true, if_false, hld]
            refine ⟨h1.cons _, h2, h3.cons₂ _, ?_⟩
            intro x hx
            rcases List.mem_cons.mp hx with h | h
            · subst h; rfl
            · exact h4 x h


theorem listDirectoryChildren_shape (spec : Option Matcher) (dir : FSDir)
    (base : String) (r : Int) (cache : Cache) :
    List.Sublist (listDirectoryChildren spec dir base r cache).1
      (dedupByName dir.children) ∧
    (∀ e ∈ (listDirectoryChildren spec dir base r cache).1, e.isDir = true) ∧
    List.Sublist (listDirectoryChildren spec dir base r cache).2.1
      (dedupByName dir.children) ∧
    (∀ e ∈ (listDirectoryChildren spec dir base r cache).2.1, e.isDir = false) := by
  rw [listDirectoryChildren]
  by_cases h : dir.listOk = true
  · simp only [h, if_true]
    exact ldcLoop_shape spec base r (dedupByName dir.children) cache
  · simp only [Bool.not_eq_true] at h
    simp [h]

theorem makeEntries_ok {es : List FSNode} {pr : String} {lv : Int} {u u' : Nat}
    {tes : List TE} (h : makeEntries es pr lv u = .ok (tes, u')) :
    tes.map TE.name = es.map FSNode.name ∧
    ∀ te ∈ tes, ∃ e ∈ es, te.name = e.name ∧
      te.itemType = (if e.isDir then ItemType.folder else ItemType.file) := by
  induction es generalizing u u' tes with
  | nil =>
    rw [makeEntries] at h
    injection h with h
    injection h with h1 h2
    subst h1; simp
  | cons e rest ih =>
    rw [makeEntries] at h
    rcases hme : makeEntry e pr lv u with her | te₀
    · rw [hme] at h; exact absurd h (by simp)
    · rw [hme] at h
      rcases hms : makeEntries rest pr lv (u + 1) with her | ⟨tes₀, u₀⟩
      · rw [hms] at h; exact absurd h (by simp)
      · rw [hms] at h
        injection h with h
        injection h with h1 h2
        subst h1
        obtain ⟨ihn, iht⟩ := ih hms
        have hte : te₀.name = e.name ∧
            te₀.itemType = (if e.isDir then ItemType.folder else ItemType.file) := by
          rw [makeEntry] at hme
          by_cases hs : e.statOk = true
          · rw [if_pos hs] at hme
            injection hme with hme
            subst hme
            exact ⟨rfl, rfl⟩
          · simp only [Bool.not_eq_true] at hs
            rw [hs] at hme
            exact absurd hme (by simp)
        constructor
        · simp [hte.1, ihn]
        · intro te hmem
          rcases List.mem_cons.mp hmem with hh | hh
          · subst hh
            exact ⟨e, List.mem_cons_self _ _, hte.1, hte.2⟩
          · obtain ⟨e', he', hn', ht'⟩ := iht te hh
            exact ⟨e', List.mem_cons_of_mem _ he', hn', ht'⟩

theorem createSummaryComment_type (parent : TE) (noun : String) (count uid : Nat) :
    (createSummaryComment parent noun count uid).itemType = .comment := rfl

theorem appendGroup_fst (dn : TE) (g : List TE) (lim : Int) (noun : String)
    (u : Nat) :
    ∃ k com, (appendGroup dn g lim noun u).1 = g.take k ++ com ∧
      (com = [] ∨ ∃ cte, com = [cte] ∧ cte.itemType = .comment) := by
  rw [appendGroup]
  by_cases hg : g = []
  · exact ⟨0, [], by simp [hg], Or.inl rfl⟩
  · simp only [if_neg hg]
    by_cases hl : lim = 0
    · simp only [hl, if_pos rfl]
      exact ⟨g.length, [], by simp, Or.inl rfl⟩
    · simp only [if_neg hl]
      by_cases ho : g.drop (max lim 0).toNat = []
      · simp only [ho, if_pos rfl]
        exact ⟨(max lim 0).toNat, [], by simp, Or.inl rfl⟩
      · simp only [ho, if_neg ho]
        exact ⟨(max lim 0).toNat, _, rfl,
          Or.inr ⟨_, rfl, createSummaryComment_type _ _ _ _⟩⟩

theorem appendGroup_filter_folder (dn : TE) (g : List TE) (lim : Int)
    (noun : String) (u : Nat) (hg : ∀ te ∈ g, te.itemType = .folder) :
    ∃ k, ((appendGroup dn g lim noun u).1).filter
      (fun c => c.itemType = ItemType.folder) = g.take k := by
  obtain ⟨k, com, heq, hcom⟩ := appendGroup_fst dn g lim noun u
  refine ⟨k, ?_⟩
  rw [heq, List.filter_append]
  have h1 : (g.take k).filter (fun c => c.itemType = ItemType.folder) = g.take k := by
    rw [List.filter_eq_self]
    intro a ha
    simp [hg a (List.mem_of_mem_take ha)]
  have h2 : com.filter (fun c => c.itemType = ItemType.folder) = [] := by
    rcases hcom with h | ⟨cte, hc, ht⟩
    · simp [h]
    · subst hc; simp [ht]
  rw [h1, h2, List.append_nil]

theorem appendGroup_filter_nonfolder (dn : TE) (g : List TE) (lim : Int)
    (noun : String) (u : Nat) (hg : ∀ te ∈ g, te.itemType ≠ .folder) :
    ((appendGroup dn g lim noun u).1).filter
      (fun c => c.itemType = ItemType.folder) = [] := by
  obtain ⟨k, com, heq, hcom⟩ := appendGroup_fst dn g lim noun u
  rw [heq, List.filter_append]
  have h1 : (g.take k).filter (fun c => c.itemType = ItemType.folder) = [] := by
    rw [List.filter_eq_nil_iff]
    intro a ha
    simp [hg a (List.mem_of_mem_take ha)]
  have h2 : com.filter (fun c => c.itemType = ItemType.folder) = [] := by
    rcases hcom with h | ⟨cte, hc, ht⟩
    · simp [h]
    · subst hc; simp [ht]
  rw [h1, h2]
  rfl

theorem applySorting_filter_folder (folders files : List TE) (ff : Bool)
    (sk sd : String) (mfo mfi : Int) (dn : TE) (u : Nat)
    (hfo : ∀ te ∈ folders, te.itemType = .folder)
    (hfi : ∀ te ∈ files, te.itemType ≠ .folder) :
    ∃ k, ((applySortingAndLimits folders files ff sk sd mfo mfi dn u).1).filter
        (fun c => c.itemType = ItemType.folder) =
      (pySortedTE sk sd folders).take k := by
  have hfo' : ∀ te ∈ pySortedTE sk sd folders, te.itemType = .folder := by
    intro te h
    exact hfo te ((List.perm_insertionSort _ folders).mem_iff.mp h)
  have hfi' : ∀ te ∈ pySortedTE sk sd files, te.itemType ≠ .folder := by
    intro te h
    exact hfi te ((List.perm_insertionSort _ files).mem_iff.mp h)
  rw [applySortingAndLimits]
  cases ff
  · simp only [Bool.false_eq_true, if_false]
    obtain ⟨k, hk⟩ := appendGroup_filter_folder dn (pySortedTE sk sd folders) mfo
      "folder" (appendGroup dn (pySortedTE sk sd files) mfi "file" u).2 hfo'
    refine ⟨k, ?_⟩
    simp only [List.filter_append,
      appendGroup_filter_nonfolder dn (pySortedTE sk sd files) mfi "file" u hfi', hk]
    rfl
  · simp only [if_true]
    obtain ⟨k, hk⟩ := appendGroup_filter_folder dn (pySortedTE sk sd folders) mfo
      "folder" u hfo'
    refine ⟨k, ?_⟩
    simp only [List.filter_append, hk,
      appendGroup_filter_nonfolder dn (pySortedTE sk sd files) mfi "file"
        (appendGroup dn (pySortedTE sk sd folders) mfo "folder" u).2 hfi']
    simp

theorem consumeChildren_append (ml : Int) (rc : Nat) (cs : List TE) :
    (consumeChildren ml rc cs).1 ++ (consumeChildren ml rc cs).2.1 = cs := by
  induction cs generalizing rc with
  | nil => simp [consumeChildren]
  | cons c rest ih =>
    rw [consumeChildren]
    by_cases h : ml ≠ 0 ∧ (rc : Int) ≥ ml
    · simp [h]
    · simp only [if_neg h]
      simp [ih]

theorem newTasksOf_eq (md : Int) (t : Task) (tr : List TE) :
    newTasksOf md t tr =
      if md ≠ 0 ∧ t.level ≥ md then []
      else (tr.filter (fun c => c.itemType = ItemType.folder)).map
        (fun c => ⟨c, getChildDir t.dir c.name, t.level + 1⟩) := by
  by_cases hd : md ≠ 0 ∧ t.level ≥ md
  · simp only [if_pos hd, newTasksOf]
    induction tr with
    | nil => simp
    | cons c rest ih =>
      rw [List.filterMap_cons]
      have : ¬ (c.itemType = ItemType.folder ∧ ¬ (md ≠ 0 ∧ t.level ≥ md)) := by
        intro hh; exact hh.2 hd
      simp only [if_neg this]
      exact ih
  · simp only [if_neg hd, newTasksOf]
    induction tr with
    | nil => simp
    | cons c rest ih =>
      rw [List.filterMap_cons, List.filter_cons]
      by_cases hc : c.itemType = ItemType.folder
      · have hthis : c.itemType = ItemType.folder ∧ ¬ (md ≠ 0 ∧ t.level ≥ md) := ⟨hc, hd⟩
        rw [if_pos hthis]
        dsimp only
        rw [if_pos (show (decide (c.itemType = ItemType.folder)) = true by simp [hc])]
        rw [List.map_cons, ih]
      · have : ¬ (c.itemType = ItemType.folder ∧ ¬ (md ≠ 0 ∧ t.level ≥ md)) := by
          intro hh; exact hc hh.1
        simp only [if_neg this]
        rw [if_neg (by simp [hc])]
        exact ih

theorem newTasksOf_weight (md : Int) (t : Task) (tr : List TE)
    (hnd : ((tr.filter (fun c => c.itemType = ItemType.folder)).map TE.name).Nodup)
    (hmem : ∀ c ∈ tr, c.itemType = ItemType.folder →
      ∃ e ∈ dedupByName t.dir.children, e.isDir = true ∧ e.name = c.name) :
    queueWeight (newTasksOf md t tr) ≤ fsSizeL t.dir.children := by
  rw [newTasksOf_eq]
  by_cases hd : md ≠ 0 ∧ t.level ≥ md
  · simp [hd, queueWeight]
  · simp only [if_neg hd]
    have hq : queueWeight ((tr.filter (fun c => c.itemType = ItemType.folder)).map
        (fun c => (⟨c, getChildDir t.dir c.name, t.level + 1⟩ : Task))) =
        (((tr.filter (fun c => c.itemType = ItemType.folder)).map TE.name).map
          (fun n => 1 + fsSizeL (getChildDir ⟨t.dir.listOk, t.dir.children⟩ n).children)).sum := by
      simp only [queueWeight, List.map_map]
      congr 1
    rw [hq]
    refine weight_sum_le t.dir.listOk t.dir.children _ hnd ?_
    intro n hn
    obtain ⟨c, hc, hname⟩ := List.mem_map.mp hn
    have hcm := List.mem_filter.mp hc
    have hcf : c.itemType = ItemType.folder := by
      have := hcm.2; simpa using this
    obtain ⟨e, he, hd', hn'⟩ := hmem c hcm.1 hcf
    exact ⟨e, he, hd', by rw [hn', hname]⟩

theorem stepTask_weight {p : Params} {spec : Option Matcher} {t : Task}
    {st st' : ScanSt} {nts : List Task} {stop : Bool}
    (h : stepTask p spec t st = .ok (st', nts, stop)) :
    queueWeight nts ≤ fsSizeL t.dir.children := by
  rw [stepTask] at h
  by_cases hd : p.maxDepth ≠ 0 ∧ t.level > p.maxDepth
  · rw [if_pos hd] at h
    injection h with h
    injection h with h1 h2
    injection h2 with h2 h3
    subst h2
    simp [queueWeight]
  · rw [if_neg hd] at h
    rcases hld : listDirectoryChildren spec t.dir t.te.relPath
        (if p.maxDepth ≠ 0 then p.maxDepth - t.level else -1) st.cache
      with ⟨fds, fls, cache1⟩
    rw [hld] at h
    dsimp only at h
    rcases hm1 : makeEntries fds t.te.relPath t.level st.uidCtr with e1 | ⟨folderTEs, c1⟩
    · rw [hm1] at h; exact absurd h (by simp)
    rw [hm1] at h
    dsimp only at h
    rcases hm2 : makeEntries fls t.te.relPath t.level c1 with e2 | ⟨fileTEs, c2⟩
    · rw [hm2] at h; exact absurd h (by simp)
    rw [hm2] at h
    dsimp only at h
    rcases hap : applySortingAndLimits folderTEs fileTEs p.foldersFirst p.sortKey
        p.sortDir p.maxFolders p.maxFiles t.te c2 with ⟨children, c3⟩
    rw [hap] at h
    dsimp only at h
    by_cases hpre : p.maxLines ≠ 0 ∧ (st.rc : Int) ≥ p.maxLines
    · rw [if_pos hpre] at h
      injection h with h
      injection h with h1 h2
      injection h2 with h2 h3
      subst h2
      simp [queueWeight]
    · rw [if_neg hpre] at h
      rcases hcon : consumeChildren p.maxLines st.rc children
        with ⟨trimmed, hidden, rc2, lim⟩
      rw [hcon] at h
      dsimp only at h
      by_cases hlim : lim = true
      · subst hlim
        simp only [if_pos rfl] at h
        injection h with h
        injection h with h1 h2
        injection h2 with h2 h3
        subst h2
        simp [queueWeight]
      · have hlim' : lim = false := by
          cases lim; rfl; exact absurd rfl hlim
        subst hlim'
        simp only [Bool.false_eq_true, if_false, false_and] at h
        injection h with h
        injection h with h1 h2
        injection h2 with h2 h3
        subst h2
        -- now nts = newTasksOf p.maxDepth t trimmed
        obtain ⟨hsubf, hdirf, hsubfl, hdirfl⟩ :=
          listDirectoryChildren_shape spec t.dir t.te.relPath
            (if p.maxDepth ≠ 0 then p.maxDepth - t.level else -1) st.cache
        rw [hld] at hsubf hdirf hsubfl hdirfl
        obtain ⟨hn1, ht1⟩ := makeEntries_ok hm1
        obtain ⟨hn2, ht2⟩ := makeEntries_ok hm2
        have hfo : ∀ te ∈ folderTEs, te.itemType = .folder := by
          intro te hte
          obtain ⟨e, he, _, hty⟩ := ht1 te hte
          rw [hty, hdirf e he]
          rfl
        have hfi : ∀ te ∈ fileTEs, te.itemType ≠ .folder := by
          intro te hte
          obtain ⟨e, he, _, hty⟩ := ht2 te hte
          rw [hty, hdirfl e he]
          simp
        obtain ⟨k, hfil⟩ := applySorting_filter_folder folderTEs fileTEs
          p.foldersFirst p.sortKey p.sortDir p.maxFolders p.maxFiles t.te c2 hfo hfi
        rw [hap] at hfil
        simp only at hfil
        -- the kept prefix of the children list
        have htr : List.Sublist trimmed children := by
          have hca := consumeChildren_append p.maxLines st.rc children
          rw [hcon] at hca
          simp only at hca
          exact hca ▸ (List.sublist_append_left trimmed hidden)
        have hfiltr : List.Sublist
            (trimmed.filter (fun c => c.itemType = ItemType.folder))
            ((pySortedTE p.sortKey p.sortDir folderTEs).take k) := by
          rw [← hfil]
          exact htr.filter _
        -- distinct folder names
        have hndsorted :
            (((pySortedTE p.sortKey p.sortDir folderTEs).take k).map TE.name).Nodup := by
          have hperm : (pySortedTE p.sortKey p.sortDir folderTEs).Perm folderTEs :=
            List.perm_insertionSort _ _
          have h0 : ((dedupByName t.dir.children).map FSNode.name).Nodup :=
            dedupByName_names_nodup _
          have h1 : ((fds.map FSNode.name)).Nodup :=
            (hsubf.map FSNode.name).nodup h0
          have h2 : (folderTEs.map TE.name).Nodup := by rw [hn1]; exact h1
          have h3 : ((pySortedTE p.sortKey p.sortDir folderTEs).map TE.name).Nodup :=
            ((hperm.map TE.name).nodup_iff).mpr h2
          exact ((List.take_sublist k _).map TE.name).nodup h3
        have hnd : ((trimmed.filter (fun c => c.itemType = ItemType.folder)).map
            TE.name).Nodup :=
          (hfiltr.map TE.name).nodup hndsorted
        have hmem : ∀ c ∈ trimmed, c.itemType = ItemType.folder →
            ∃ e ∈ dedupByName t.dir.children, e.isDir = true ∧ e.name = c.name := by
          intro c hc hcf
          have hcin : c ∈ trimmed.filter (fun c => c.itemType = ItemType.folder) :=
            List.mem_filter.mpr ⟨hc, by simp [hcf]⟩
          have hcin2 : c ∈ (pySortedTE p.sortKey p.sortDir folderTEs).take k :=
            hfiltr.subset hcin
          have hcin3 : c ∈ pySortedTE p.sortKey p.sortDir folderTEs :=
            (List.take_sublist k _).subset hcin2
          have hcin4 : c ∈ folderTEs :=
            (List.perm_insertionSort _ _).mem_iff.mp hcin3
          obtain ⟨e, he, hname, _⟩ := ht1 c hcin4
          exact ⟨e, hsubf.subset he, hdirf e he, hname.symm⟩
        exact newTasksOf_weight p.maxDepth t trimmed hnd hmem

/-- The `while queue and not limit_reached` loop.  Returns the final state
and the remaining queue at the moment the loop broke (empty if the queue was
exhausted). -/
def bfsLoop (p : Params) (spec : Option Matcher) (q : List Task) (st : ScanSt) :
    Except Err (ScanSt × List Task) :=
  match q with
  | [] => .ok (st, [])
  | t :: rest =>
    match h : stepTask p spec t st with
    | .error e => .error e
    | .ok (st', nts, stop) =>
      if stop then .ok (st', rest)
      else bfsLoop p spec (rest ++ nts) st'
termination_by queueWeight q
decreasing_by
  have hw := stepTask_weight h
  simp only [queueWeight, List.map_cons, List.sum_cons, List.map_append,
    List.sum_append] at *
  simp only [taskWeight] at *
  omega

/-- Executable mirror of `bfsLoop`, structurally recursive on a fuel bound
(`bfsLoopF_eq` shows any fuel above the queue weight gives `bfsLoop`); used
to evaluate the scanner on concrete inputs inside the kernel. -/
def bfsLoopF (p : Params) (spec : Option Matcher) :
    Nat → List Task → ScanSt → Except Err (ScanSt × List Task)
  | _, [], st => .ok (st, [])
  | 0, _ :: _, _ => .error .fileNotFound
  | fuel + 1, t :: rest, st =>
    match stepTask p spec t st with
    | .error e => .error e
    | .ok (st', nts, stop) =>
      if stop then .ok (st', rest)
      else bfsLoopF p spec fuel (rest ++ nts) st'

theorem bfsLoopF_eq (p : Params) (spec : Option Matcher) :
    ∀ (fuel : Nat) (q : List Task) (st : ScanSt), queueWeight q < fuel →
    bfsLoopF p spec fuel q st = bfsLoop p spec q st := by
  intro fuel
  induction fuel with
  | zero => intro q st h; exact absurd h (Nat.not_lt_zero _)
  | succ n ih =>
    intro q st h
    match q with
    | [] => rw [bfsLoopF, bfsLoop]
    | t :: rest =>
      rw [bfsLoopF, bfsLoop]
      rcases hs : stepTask p spec t st with e | ⟨st', nts, stop⟩
      · rfl
      · have hw := stepTask_weight hs
        by_cases hstop : stop = true
        · subst hstop; simp
        · have : stop = false := by cases stop; rfl; exact absurd rfl hstop
          subst this
          simp only [Bool.false_eq_true, if_false]
          refine ih (rest ++ nts) st' ?_
          have h1 : queueWeight (t :: rest) = taskWeight t + queueWeight rest := by
            simp [queueWeight]
          rw [queueWeight_append]
          simp only [taskWeight] at h1
          omega

/-! ### Deferred comments for never-dequeued directories -/

/-- The `_TreeEntry` built for a hidden entry inside
`_create_folder_unprocessed_comment` (its `entry.stat()` call is
unguarded, so a vanished entry raises).  These entries are temporary — they
are only counted — so they carry identity serial `0`. -/
def mkHiddenTE (folderNode : TE) (e : FSNode) (ty : ItemType) : Except Err TE :=
  if e.statOk then
    .ok { name := e.name, level := folderNode.level + 1, itemType := ty,
          created := e.created, modified := e.modified,
          relPath := pyJoin folderNode.relPath e.name,
          isLast := false, text := "", uid := 0 }
  else .error .fileNotFound

def mkHiddenTEs (folderNode : TE) (es : List FSNode) (ty : ItemType) :
    Except Err (List TE) :=
  match es with
  | [] => .ok []
  | e :: rest =>
    match mkHiddenTE folderNode e ty with
    | .error er => .error er
    | .ok te =>
      match mkHiddenTEs folderNode rest ty with
      | .error er => .error er
      | .ok tes => .ok (te :: tes)

/-- `_create_folder_unprocessed_comment`: one level of look-ahead under a
never-processed folder, with a fresh visibility cache; returns `none` when
nothing would have been shown. -/
def createFolderUnprocessedComment (spec : Option Matcher) (t : Task)
    (uid : Nat) : Except Err (Option TE) :=
  let (fds, fls, _) :=
    listDirectoryChildren spec t.dir t.te.relPath (-1) []
  match mkHiddenTEs t.te fds .folder with
  | .error er => .error er
  | .ok hiddenF =>
    match mkHiddenTEs t.te fls .file with
    | .error er => .error er
    | .ok hiddenFl =>
      let hidden := hiddenF ++ hiddenFl
      if hidden = [] then .ok none
      else .ok (some (createGlobalLimitComment t.te hidden uid))

/-- The `for folder_node, folder_path, _ in remaining_queue` loop. -/
def tailPhase (spec : Option Matcher) (rem : List Task) (st : ScanSt) :
    Except Err ScanSt :=
  match rem with
  | [] => .ok st
  | t :: rest =>
    match createFolderUnprocessedComment spec t st.uidCtr with
    | .error er => .error er
    | .ok none => tailPhase spec rest st
    | .ok (some s) =>
      tailPhase spec rest
        { st with tree := attachAppend st.tree t.te.uid [teToLeaf s],
                  nio := st.nio ++ [s], uidCtr := st.uidCtr + 1 }

/-! ### Assembling the scan -/

/-- The root `_TreeEntry`. -/
def rootTE (rootName : String) (created modified : Nat) : TE :=
  { name := rootName, level := 0, itemType := .folder,
    created := created, modified := modified, relPath := "",
    isLast := false, text := "", uid := 0 }

/-- Everything from seeding the queue to the deferred comments: returns the
final builder state and the remaining queue. -/
def buildScan (p : Params) (spec : Option Matcher) (rootName : String)
    (created modified : Nat) (rootDir : FSDir) :
    Except Err (ScanSt × List Task) :=
  let rte := rootTE rootName created modified
  let st0 : ScanSt :=
    { tree := .node rte (some []), nio := [], rc := 0, uidCtr := 1,
      cache := [], limitReached := false }
  match bfsLoop p spec [⟨rte, rootDir, 1⟩] st0 with
  | .error e => .error e
  | .ok (st, rem) =>
    let remQ := if st.limitReached then rem else []
    if st.limitReached ∧ ¬ remQ.isEmpty then
      match tailPhase spec remQ st with
      | .error e => .error e
      | .ok st' => .ok (st', remQ)
    else .ok (st, remQ)

/-- The identity set `visible_ids` and the finalisation passes
(prune, `is_last` marking, text computation). -/
def finalizeTree (st : ScanSt) : TreeN :=
  let vis := st.nio.map TE.uid
  let t1 := if vis = [] then st.tree else pruneVis st.tree vis
  refreshRoot (markLastRoot t1)

/-- The `display_name` of the root banner line. -/
def displayName (relativePath rootName : String) : String :=
  let dn := if pyStrip relativePath = "" then rootName else pyStrip relativePath
  rstripSlash dn ++ "/"

/-- The three output modes. -/
inductive FTResult where
  | str (s : String)
  | flat (items : List FlatItem)
  | nested (items : List NestedItem)

/-- Rendering after the scan (`output_mode` dispatch at the bottom of
`file_tree`). -/
def renderOutput (p : Params) (relativePath rootName : String) (st : ScanSt) :
    FTResult :=
  let vis := st.nio.map TE.uid
  let final := finalizeTree st
  if p.outputMode = OUTPUT_MODE_STRING then
    .str (String.intercalate "\n"
      (displayName relativePath rootName ::
        (iterVisible final vis).map TE.text))
  else if p.outputMode = OUTPUT_MODE_FLAT then
    .flat ((iterVisible final vis).map toFlatItem)
  else
    .nested (toNestedL ((final.items).getD []))

/-- `file_tree`.  `root = none` models a non-existent root path; a `file`
root models a non-directory root.  `fromLines`/`readFile`/`rootAbs` are the
abstract collaborators of the ignore resolution. -/
def fileTree (root : Option FSNode) (relativePath : String) (p : Params)
    (ignore : Option String) (fromLines : List String → Matcher)
    (readFile : String → Option String) (rootAbs : String) :
    Except Err FTResult :=
  match root with
  | none => .error .fileNotFound
  | some (.file _ _ _ _) => .error .notADirectory
  | some (.dir rname rcre rmod rstatOk rlistOk rchildren) =>
    match validateParams p with
    | .error e => .error e
    | .ok _ =>
      match resolveIgnorePatterns fromLines readFile ignore rootAbs with
      | .error e => .error e
      | .ok spec =>
        if rstatOk then
          match buildScan p spec rname rcre rmod ⟨rlistOk, rchildren⟩ with
          | .error e => .error e
          | .ok (st, _) => .ok (renderOutput p relativePath rname st)
        else .error .fileNotFound

/-- Executable mirror of `buildScan` (uses `bfsLoopF` with sufficient fuel). -/
def buildScanF (p : Params) (spec : Option Matcher) (rootName : String)
    (created modified : Nat) (rootDir : FSDir) :
    Except Err (ScanSt × List Task) :=
  let rte := rootTE rootName created modified
  let st0 : ScanSt :=
    { tree := .node rte (some []), nio := [], rc := 0, uidCtr := 1,
      cache := [], limitReached := false }
  match bfsLoopF p spec (queueWeight [⟨rte, rootDir, 1⟩] + 1)
      [⟨rte, rootDir, 1⟩] st0 with
  | .error e => .error e
  | .ok (st, rem) =>
    let remQ := if st.limitReached then rem else []
    if st.limitReached ∧ ¬ remQ.isEmpty then
      match tailPhase spec remQ st with
      | .error e => .error e
      | .ok st' => .ok (st', remQ)
    else .ok (st, remQ)

theorem buildScanF_eq (p : Params) (spec : Option Matcher) (rootName : String)
    (created modified : Nat) (rootDir : FSDir) :
    buildScanF p spec rootName created modified rootDir =
    buildScan p spec rootName created modified rootDir := by
  rw [buildScanF, buildScan, bfsLoopF_eq]
  exact Nat.lt_succ_self _

/-- Executable mirror of `fileTree`. -/
def fileTreeF (root : Option FSNode) (relativePath : String) (p : Params)
    (ignore : Option String) (fromLines : List String → Matcher)
    (readFile : String → Option String) (rootAbs : String) :
    Except Err FTResult :=
  match root with
  | none => .error .fileNotFound
  | some (.file _ _ _ _) => .error .notADirectory
  | some (.dir rname rcre rmod rstatOk rlistOk rchildren) =>
    match validateParams p with
    | .error e => .error e
    | .ok _ =>
      match resolveIgnorePatterns fromLines readFile ignore rootAbs with
      | .error e => .error e
      | .ok spec =>
        if rstatOk then
          match buildScanF p spec rname rcre rmod ⟨rlistOk, rchildren⟩ with
          | .error e => .error e
          | .ok (st, _) => .ok (renderOutput p relativePath rname st)
        else .error .fileNotFound

theorem fileTreeF_eq (root : Option FSNode) (relativePath : String)
    (p : Params) (ignore : Option String) (fromLines : List String → Matcher)
    (readFile : String → Option String) (rootAbs : String) :
    fileTreeF root relativePath p ignore fromLines readFile rootAbs =
    fileTree root relativePath p ignore fromLines readFile rootAbs := by
  rw [fileTreeF.eq_def, fileTree.eq_def]
  cases root with
  | none => rfl
  | some n =>
    cases n with
    | file a b c d => rfl
    | dir rname rcre rmod rstatOk rlistOk rchildren =>
      dsimp only
      rcases hv : validateParams p with e | u
      · rfl
      · rcases hr : resolveIgnorePatterns fromLines readFile ignore rootAbs with e | spec
        · rfl
        · dsimp only
          rw [buildScanF_eq]

/-! ### Tree lemmas: mutual induction, depth-first lists, attachment -/

mutual
def treeInd (P : TreeN → Prop) (Q : List TreeN → Prop)
    (hnone : ∀ te, P (.node te none))
    (hsome : ∀ te ts, Q ts → P (.node te (some ts)))
    (hnil : Q [])
    (hcons : ∀ t ts, P t → Q ts → Q (t :: ts)) : ∀ t, P t
  | .node te none => hnone te
  | .node te (some ts) => hsome te ts (treeIndL P Q hnone hsome hnil hcons ts)
def treeIndL (P : TreeN → Prop) (Q : List TreeN → Prop)
    (hnone : ∀ te, P (.node te none))
    (hsome : ∀ te ts, Q ts → P (.node te (some ts)))
    (hnil : Q [])
    (hcons : ∀ t ts, P t → Q ts → Q (t :: ts)) : ∀ ts, Q ts
  | [] => hnil
  | t :: ts => hcons t ts (treeInd P Q hnone hsome hnil hcons t)
      (treeIndL P Q hnone hsome hnil hcons ts)
end

theorem dfsL_append (ts₁ ts₂ : List TreeN) :
    dfsL (ts₁ ++ ts₂) = dfsL ts₁ ++ dfsL ts₂ := by
  induction ts₁ with
  | nil => simp [dfsL]
  | cons t ts ih => simp [dfsL, ih]

theorem dfsT_ne_nil (t : TreeN) : dfsT t ≠ [] := by
  match t with
  | .node te none => simp [dfsT]
  | .node te (some ts) => simp [dfsT]

theorem dfsT_head (t : TreeN) : ∃ rest, dfsT t = t.te :: rest := by
  match t with
  | .node te none => exact ⟨[], rfl⟩
  | .node te (some ts) => exact ⟨dfsL ts, rfl⟩

theorem dfsT_teToLeaf (te : TE) : dfsT (teToLeaf te) = [te] := by
  rw [teToLeaf]
  by_cases h : te.itemType = ItemType.folder
  · rw [if_pos h]
    simp only [dfsT, dfsL]
  · rw [if_neg h]
    simp only [dfsT]

theorem dfsL_map_teToLeaf (l : List TE) : dfsL (l.map teToLeaf) = l := by
  induction l with
  | nil => simp [dfsL]
  | cons te rest ih => simp [dfsL, dfsT_teToLeaf, ih]

/-- Depth-first entries of an optional children list. -/
def dfsO : Option (List TreeN) → List TE
  | none => []
  | some ts => dfsL ts

mutual
/-- Every node carrying identity `u` is the childless placeholder
`.node te0 (some [])` — the shape of a created-but-not-yet-processed
folder node. -/
def eLeafT (u : Nat) (te0 : TE) : TreeN → Prop
  | .node te none => te.uid = u → False
  | .node te (some ts) =>
    (te.uid = u → te = te0 ∧ ts = []) ∧ eLeafL u te0 ts
def eLeafL (u : Nat) (te0 : TE) : List TreeN → Prop
  | [] => True
  | t :: ts => eLeafT u te0 t ∧ eLeafL u te0 ts
end

theorem eLeafL_append {u : Nat} {te0 : TE} {ts₁ ts₂ : List TreeN} :
    eLeafL u te0 (ts₁ ++ ts₂) ↔ eLeafL u te0 ts₁ ∧ eLeafL u te0 ts₂ := by
  induction ts₁ with
  | nil => simp [eLeafL]
  | cons t ts ih => simp [eLeafL, ih, and_assoc]

/-! ### Claims about the per-directory caps (C5, C8) -/

theorem appendGroup_zero (dn : TE) (g : List TE) (noun : String) (u : Nat) :
    (appendGroup dn g 0 noun u).1 = g := by
  rw [appendGroup]
  by_cases hg : g = []
  · simp [hg]
  · simp [hg]

theorem appendGroup_pos (dn : TE) (g : List TE) (noun : String) (u : Nat)
    (k : Int) (hk : 0 < k) :
    (appendGroup dn g k noun u).1 =
      if g.drop k.toNat = [] then g.take k.toNat
      else g.take k.toNat ++
        [createSummaryComment dn noun (g.drop k.toNat).length u] := by
  rw [appendGroup]
  have hk0 : ¬ (k = 0) := by omega
  have hmax : max k 0 = k := by omega
  by_cases hg : g = []
  · subst hg
    simp
  · simp only [if_neg hg, if_neg hk0, hmax]
    try dsimp only
    by_cases hov : g.drop k.toNat = []
    · simp [hov]
    · simp [hov]

theorem createSummaryComment_shape (dn : TE) (noun : String) (cnt u : Nat)
    (hn : noun = "folder" ∨ noun = "file") (hc : 1 ≤ cnt) :
    (createSummaryComment dn noun cnt u).itemType = .comment ∧
    (createSummaryComment dn noun cnt u).name =
      Nat.repr cnt ++ " more " ++ (if cnt = 1 then noun else noun ++ "s") := by
  refine ⟨rfl, ?_⟩
  rw [createSummaryComment]
  have hends : pyEndsWith noun "s" = false := by
    rcases hn with h | h <;> subst h <;> decide
  by_cases h1 : cnt = 1
  · subst h1
    simp [hends]
  · have h2 : 1 < cnt := by omega
    simp [hends, h1, h2]

/-- C5: for each of the two per-directory groups, a cap of zero imposes no
limit; a positive cap `k` keeps exactly the first `k` post-sort entries and,
whenever at least one entry overflows (an overflow of exactly 1 included),
appends exactly one synthetic comment whose label uses the singular noun for
overflow count 1 and the plural noun otherwise.  The first conjunct anchors
the per-group assembly inside `_apply_sorting_and_limits`: each group is
sorted and capped independently, in `folders_first` order. -/
theorem claim_C5 (folders files : List TE) (sk sd : String)
    (mfo mfi : Int) (dn : TE) (u : Nat) :
    ((applySortingAndLimits folders files true sk sd mfo mfi dn u).1 =
      (appendGroup dn (pySortedTE sk sd folders) mfo "folder" u).1 ++
      (appendGroup dn (pySortedTE sk sd files) mfi "file"
        (appendGroup dn (pySortedTE sk sd folders) mfo "folder" u).2).1) ∧
    (∀ g noun u', (appendGroup dn g (0 : Int) noun u').1 = g) ∧
    (∀ g noun u' (k : Int), 0 < k →
      (appendGroup dn g k noun u').1 =
        if g.drop k.toNat = [] then g.take k.toNat
        else g.take k.toNat ++
          [createSummaryComment dn noun (g.drop k.toNat).length u']) ∧
    (∀ noun cnt u', (noun = "folder" ∨ noun = "file") → 1 ≤ cnt →
      (createSummaryComment dn noun cnt u').itemType = .comment ∧
      (createSummaryComment dn noun cnt u').name =
        Nat.repr cnt ++ " more " ++ (if cnt = 1 then noun else noun ++ "s")) := by
  refine ⟨?_, ?_, ?_, ?_⟩
  · rw [applySortingAndLimits]
    simp
  · intro g noun u'
    exact appendGroup_zero dn g noun u'
  · intro g noun u' k hk
    exact appendGroup_pos dn g noun u' k hk
  · intro noun cnt u' hn hc
    exact createSummaryComment_shape dn noun cnt u' hn hc

/-- Witness for C5 at a concrete directory: three folders, cap 1 → the first
post-sort folder plus one `2 more folders` comment. -/
theorem claim_C5_witness :
    ((applySortingAndLimits [] [] true "name" "asc" 1 0
        (rootTE "r" 0 0) 1).1 = [] ∧ True ∧ True ∧ True) ∧
    (createSummaryComment (rootTE "r" 0 0) "folder" 2 7).name =
      "2 more folders" ∧
    (createSummaryComment (rootTE "r" 0 0) "folder" 1 7).name =
      "1 more folder" := by
  have h := claim_C5 [] [] "name" "asc" 1 0 (rootTE "r" 0 0) 1
  obtain ⟨h1, h2, h3, h4⟩ := h
  refine ⟨⟨?_, trivial, trivial, trivial⟩, ?_, ?_⟩
  · rw [h1]
    rfl
  · have := (h4 "folder" 2 7 (Or.inl rfl) (by omega)).2
    rw [this]
    rfl
  · have := (h4 "folder" 1 7 (Or.inl rfl) (by omega)).2
    rw [this]
    rfl

/-- C8: negative `max_folders`/`max_files` raise no validation error
(validation is independent of the per-directory caps), and a negative cap is
clamped to zero and shows nothing: no entry of the capped group is kept, and
a single summary comment counts the entire (non-empty) group. -/
theorem claim_C8 (p : Params) (a b : Int) :
    (validateParams { p with maxFolders := a, maxFiles := b } =
      validateParams p) ∧
    (∀ (dn : TE) (g : List TE) (noun : String) (u : Nat) (k : Int), k < 0 →
      (appendGroup dn g k noun u).1 =
        (if g = [] then [] else [createSummaryComment dn noun g.length u]) ∧
      ∀ te ∈ (appendGroup dn g k noun u).1, te.itemType = .comment) := by
  constructor
  · rfl
  · intro dn g noun u k hk
    have hk0 : k ≠ 0 := by omega
    have hmax : (max k 0).toNat = 0 := by omega
    have hres : (appendGroup dn g k noun u).1 =
        (if g = [] then [] else [createSummaryComment dn noun g.length u]) := by
      rw [appendGroup]
      have hk0' : ¬ (k = 0) := hk0
      by_cases hg : g = []
      · simp [hg]
      · simp only [if_neg hg, if_neg hk0', hmax]
        try dsimp only
        simp only [List.take_zero, List.drop_zero, if_neg hg, List.nil_append]
    refine ⟨hres, ?_⟩
    intro te hte
    rw [hres] at hte
    by_cases hg : g = []
    · rw [if_pos hg] at hte
      exact absurd hte (List.not_mem_nil te)
    · rw [if_neg hg] at hte
      rcases List.mem_singleton.mp hte with h
      rw [h]
      rfl

/-- Witness for C8: cap `-1` on two files keeps none of them and emits the
single `2 more files` comment; validation is unaffected. -/
theorem claim_C8_witness :
    validateParams { maxFolders := -1, maxFiles := -1 } = .ok () ∧
    (appendGroup (rootTE "r" 0 0)
        [rootTE "u" 0 0, rootTE "v" 0 0] (-1) "file" 5).1 =
      [createSummaryComment (rootTE "r" 0 0) "file" 2 5] := by
  constructor
  · have h := (claim_C8 {} (-1) (-1)).1
    exact h.trans rfl
  · have h := ((claim_C8 {} (-1) (-1)).2 (rootTE "r" 0 0)
      [rootTE "u" 0 0, rootTE "v" 0 0] "file" 5 (-1) (by omega)).1
    rw [h]
    rfl

/-! ### Claim C2: parameter validation versus filesystem access order -/

theorem validateParams_invalid (p : Params)
    (h : (p.sortKey ≠ SORT_BY_NAME ∧ p.sortKey ≠ SORT_BY_CREATED ∧
          p.sortKey ≠ SORT_BY_MODIFIED) ∨
         (p.sortDir ≠ SORT_ASC ∧ p.sortDir ≠ SORT_DESC) ∨
         (p.outputMode ≠ OUTPUT_MODE_STRING ∧ p.outputMode ≠ OUTPUT_MODE_FLAT ∧
          p.outputMode ≠ OUTPUT_MODE_NESTED) ∨
         p.maxDepth < 0 ∨ p.maxLines < 0) :
    ∃ msg, validateParams p = .error (.valueError msg) := by
  rw [validateParams]
  by_cases h1 : p.sortKey ≠ SORT_BY_NAME ∧ p.sortKey ≠ SORT_BY_CREATED ∧
      p.sortKey ≠ SORT_BY_MODIFIED
  · exact ⟨_, by rw [if_pos h1]⟩
  rw [if_neg h1]
  by_cases h2 : p.sortDir ≠ SORT_ASC ∧ p.sortDir ≠ SORT_DESC
  · exact ⟨_, by rw [if_pos h2]⟩
  rw [if_neg h2]
  by_cases h3 : p.outputMode ≠ OUTPUT_MODE_STRING ∧ p.outputMode ≠ OUTPUT_MODE_FLAT ∧
      p.outputMode ≠ OUTPUT_MODE_NESTED
  · exact ⟨_, by rw [if_pos h3]⟩
  rw [if_neg h3]
  by_cases h4 : p.maxDepth < 0
  · exact ⟨_, by rw [if_pos h4]⟩
  rw [if_neg h4]
  by_cases h5 : p.maxLines < 0
  · exact ⟨_, by rw [if_pos h5]⟩
  rcases h with h | h | h | h | h
  · exact absurd h h1
  · exact absurd h h2
  · exact absurd h h3
  · exact absurd h h4
  · exact absurd h h5

/-- C2 (amended): parameter validation runs after the root existence and
directory checks — a missing root raises `FileNotFoundError` and a
non-directory root raises `NotADirectoryError` even when the parameters are
invalid — but before the ignore specification is resolved and before any
directory is read: with an existing directory root and any invalid
parameter, the result is the validation `ValueError` no matter what the
ignore spec, the ignore-file reader, or the directory contents are. -/
theorem claim_C2 (relPath : String) (p : Params) (ignore : Option String)
    (fl : List String → Matcher) (rf : String → Option String) (ra : String)
    (hbad : (p.sortKey ≠ SORT_BY_NAME ∧ p.sortKey ≠ SORT_BY_CREATED ∧
             p.sortKey ≠ SORT_BY_MODIFIED) ∨
            (p.sortDir ≠ SORT_ASC ∧ p.sortDir ≠ SORT_DESC) ∨
            (p.outputMode ≠ OUTPUT_MODE_STRING ∧ p.outputMode ≠ OUTPUT_MODE_FLAT ∧
             p.outputMode ≠ OUTPUT_MODE_NESTED) ∨
            p.maxDepth < 0 ∨ p.maxLines < 0) :
    (fileTree none relPath p ignore fl rf ra = .error .fileNotFound) ∧
    (∀ n c m s, fileTree (some (.file n c m s)) relPath p ignore fl rf ra =
      .error .notADirectory) ∧
    (∀ rname rc rm sOk lOk cs, ∃ msg,
      fileTree (some (.dir rname rc rm sOk lOk cs)) relPath p ignore fl rf ra =
        .error (.valueError msg)) := by
  refine ⟨rfl, fun n c m s => rfl, ?_⟩
  intro rname rc rm sOk lOk cs
  obtain ⟨msg, hv⟩ := validateParams_invalid p hbad
  refine ⟨msg, ?_⟩
  rw [fileTree.eq_def]
  dsimp only
  rw [hv]

/-- Witness for C2 (amended) at a concrete invalid parameter set. -/
theorem claim_C2_witness :
    fileTree none "x" { sortKey := "bogus" } none (fun _ _ => false)
      (fun _ => none) "/a" = .error .fileNotFound ∧
    (∃ msg, fileTree (some (.dir "r" 0 0 true true [])) "x"
      { sortKey := "bogus" } none (fun _ _ => false) (fun _ => none) "/a" =
        .error (.valueError msg)) := by
  have h := claim_C2 "x" { sortKey := "bogus" } none (fun _ _ => false)
    (fun _ => none) "/a" (Or.inl (by refine ⟨?_, ?_, ?_⟩ <;> decide))
  exact ⟨h.1, h.2.2 "r" 0 0 true true []⟩

/-- C2 counterexample: the claim says validation errors fire before any
filesystem access, in particular before the existence check on the root; but
with a missing root and an invalid sort key the call raises
`FileNotFoundError`, not the validation `ValueError` — so the existence
check ran first. -/
theorem claim_C2_counterexample :
    fileTree none "x" { sortKey := "bogus" } none (fun _ _ => false)
      (fun _ => none) "/a" = .error .fileNotFound ∧
    (∃ msg, validateParams { sortKey := "bogus" } = .error (.valueError msg)) ∧
    (∀ msg, (Err.fileNotFound) ≠ .valueError msg) := by
  refine ⟨rfl, ?_, ?_⟩
  · exact validateParams_invalid _ (Or.inl (by refine ⟨?_, ?_, ?_⟩ <;> decide))
  · intro msg h
    exact Err.noConfusion h

/-! ### Claim C9: comment-only ignore content compiles to no matcher -/

/-- C9: when every line of the resolved ignore content strips to blank or to
a `#` comment, the compiled matcher is absent (`None`), and the whole scan
behaves exactly as if no ignore specification had been given. -/
theorem claim_C9 (fl : List String → Matcher) (rf : String → Option String)
    (ra : String) (ig content : String)
    (hres : resolveIgnoreContent rf ig ra = .ok content)
    (h : ∀ l ∈ pySplitlines content,
      pyStrip l = "" ∨ pyStartsWith (pyStrip l) "#" = true) :
    resolveIgnorePatterns fl rf (some ig) ra = .ok none ∧
    ∀ (root : Option FSNode) (relPath : String) (p : Params),
      fileTree root relPath p (some ig) fl rf ra =
      fileTree root relPath p none fl rf ra := by
  have hcompile : compileIgnoreLines fl content = none := by
    rw [compileIgnoreLines]
    have hnil : (pySplitlines content).filterMap (fun l =>
        let s := pyStrip l
        if s ≠ "" ∧ ¬ pyStartsWith s "#" then some s else none) = [] := by
      rw [List.filterMap_eq_nil]
      intro l hl
      rcases h l hl with hb | hc
      · simp [hb]
      · simp [hc]
    rw [hnil]
    rfl
  have hresolve : resolveIgnorePatterns fl rf (some ig) ra = .ok none := by
    rw [resolveIgnorePatterns, hres]
    dsimp only
    rw [hcompile]
  refine ⟨hresolve, ?_⟩
  intro root relPath p
  cases root with
  | none => rfl
  | some n =>
    cases n with
    | file a b c d => rfl
    | dir rname rc rm sOk lOk cs =>
      rw [fileTree.eq_def, fileTree.eq_def]
      dsimp only
      cases validateParams p with
      | error e => rfl
      | ok u =>
        rw [hresolve]
        rfl

/-- Witness for C9: a concrete two-line comment-only ignore string. -/
theorem claim_C9_witness :
    resolveIgnorePatterns (fun _ _ => true) (fun _ => none)
      (some "# build artefacts\n   \n#cache\n") "/a" = .ok none ∧
    fileTree (some (.dir "r" 0 0 true true [.file "u" 1 1 true])) "r" {}
      (some "# build artefacts\n   \n#cache\n") (fun _ _ => true)
      (fun _ => none) "/a" =
    fileTree (some (.dir "r" 0 0 true true [.file "u" 1 1 true])) "r" {}
      none (fun _ _ => true) (fun _ => none) "/a" := by
  have h := claim_C9 (fun _ _ => true) (fun _ => none) "/a"
    "# build artefacts\n   \n#cache\n" "# build artefacts\n   \n#cache\n"
    rfl (by decide)
  exact ⟨h.1, h.2 (some (.dir "r" 0 0 true true [.file "u" 1 1 true])) "r" {}⟩

/-! ### Claim C10: a root with no visible entries -/

theorem pySortedTE_nil (sk sd : String) : pySortedTE sk sd [] = [] := rfl

theorem applySorting_nil (ff : Bool) (sk sd : String) (a b : Int) (dn : TE)
    (u : Nat) : applySortingAndLimits [] [] ff sk sd a b dn u = ([], u) := by
  cases ff <;> rfl

/-- The scan of a root whose listing (after exclusion filtering) is empty:
one dequeued task, nothing emitted. -/
theorem buildScan_empty (p : Params) (spec : Option Matcher) (rname : String)
    (c m : Nat) (lOk : Bool) (cs : List FSNode)
    (hmd : 0 ≤ p.maxDepth) (hml : 0 ≤ p.maxLines)
    (hempty :
      (listDirectoryChildren spec ⟨lOk, cs⟩ ""
        (if p.maxDepth ≠ 0 then p.maxDepth - 1 else -1) []).1 = [] ∧
      (listDirectoryChildren spec ⟨lOk, cs⟩ ""
        (if p.maxDepth ≠ 0 then p.maxDepth - 1 else -1) []).2.1 = []) :
    ∃ cache', buildScan p spec rname c m ⟨lOk, cs⟩ =
      .ok ({ tree := .node (rootTE rname c m) none, nio := [], rc := 0,
             uidCtr := 1, cache := cache', limitReached := false }, []) := by
  rcases hld : listDirectoryChildren spec ⟨lOk, cs⟩ ""
      (if p.maxDepth ≠ 0 then p.maxDepth - 1 else -1) [] with ⟨fds, fls, cache'⟩
  rw [hld] at hempty
  obtain ⟨h1, h2⟩ := hempty
  simp only at h1 h2
  subst h1
  subst h2
  refine ⟨cache', ?_⟩
  have hstep : stepTask p spec ⟨rootTE rname c m, ⟨lOk, cs⟩, 1⟩
      { tree := .node (rootTE rname c m) (some []), nio := [], rc := 0,
        uidCtr := 1, cache := [], limitReached := false } =
      .ok ({ tree := .node (rootTE rname c m) none, nio := [], rc := 0,
             uidCtr := 1, cache := cache', limitReached := false }, [], false) := by
    rw [stepTask]
    have hnd : ¬ (p.maxDepth ≠ 0 ∧ (1 : Int) > p.maxDepth) := by
      intro ⟨hz, hgt⟩
      omega
    rw [if_neg hnd]
    dsimp only [rootTE]
    rw [hld]
    dsimp only
    rw [makeEntries]
    dsimp only
    rw [makeEntries]
    dsimp only
    rw [applySorting_nil]
    dsimp only
    have hpre : ¬ (p.maxLines ≠ 0 ∧ ((0 : Nat) : Int) ≥ p.maxLines) := by
      intro ⟨hz, hge⟩
      omega
    rw [if_neg hpre]
    rw [consumeChildren]
    dsimp only
    simp only [Bool.false_eq_true, if_false, false_and, List.append_nil]
    rfl
  rw [buildScan]
  dsimp only
  rw [← bfsLoopF_eq p spec
    (queueWeight [⟨rootTE rname c m, ⟨lOk, cs⟩, 1⟩] + 1) _ _ (Nat.lt_succ_self _)]
  rw [bfsLoopF]
  rw [hstep]
  dsimp only
  simp only [List.nil_append]
  rw [bfsLoopF]
  rfl

/-- C10: when the root directory has no visible entries (empty, or all
entries excluded with no visible descendants — i.e. the filtered listing is
empty), string mode returns exactly the single root banner line
`<display-name>/`, and flat and nested modes return the empty list. -/
theorem claim_C10 (relPath rname : String) (p : Params)
    (ignore : Option String) (fl : List String → Matcher)
    (rf : String → Option String) (ra : String) (spec : Option Matcher)
    (c m : Nat) (lOk : Bool) (cs : List FSNode)
    (hval : ∀ mode, mode = OUTPUT_MODE_STRING ∨ mode = OUTPUT_MODE_FLAT ∨
      mode = OUTPUT_MODE_NESTED →
      validateParams { p with outputMode := mode } = .ok ())
    (hres : resolveIgnorePatterns fl rf ignore ra = .ok spec)
    (hmd : 0 ≤ p.maxDepth) (hml : 0 ≤ p.maxLines)
    (hempty :
      (listDirectoryChildren spec ⟨lOk, cs⟩ ""
        (if p.maxDepth ≠ 0 then p.maxDepth - 1 else -1) []).1 = [] ∧
      (listDirectoryChildren spec ⟨lOk, cs⟩ ""
        (if p.maxDepth ≠ 0 then p.maxDepth - 1 else -1) []).2.1 = []) :
    fileTree (some (.dir rname c m true lOk cs)) relPath
      { p with outputMode := OUTPUT_MODE_STRING } ignore fl rf ra =
      .ok (.str (displayName relPath rname)) ∧
    fileTree (some (.dir rname c m true lOk cs)) relPath
      { p with outputMode := OUTPUT_MODE_FLAT } ignore fl rf ra =
      .ok (.flat []) ∧
    fileTree (some (.dir rname c m true lOk cs)) relPath
      { p with outputMode := OUTPUT_MODE_NESTED } ignore fl rf ra =
      .ok (.nested []) := by
  have hone : ∀ mode, mode = OUTPUT_MODE_STRING ∨ mode = OUTPUT_MODE_FLAT ∨
      mode = OUTPUT_MODE_NESTED → ∃ cache',
      fileTree (some (.dir rname c m true lOk cs)) relPath
        { p with outputMode := mode } ignore fl rf ra =
      .ok (renderOutput { p with outputMode := mode } relPath rname
        { tree := .node (rootTE rname c m) none, nio := [], rc := 0,
          uidCtr := 1, cache := cache', limitReached := false }) := by
    intro mode hm
    obtain ⟨cache', hscan⟩ := buildScan_empty { p with outputMode := mode }
      spec rname c m lOk cs hmd hml hempty
    refine ⟨cache', ?_⟩
    rw [fileTree.eq_def]
    dsimp only
    rw [hval mode hm]
    dsimp only
    rw [hres]
    dsimp only
    rw [if_pos rfl]
    rw [hscan]
  refine ⟨?_, ?_, ?_⟩
  · obtain ⟨cache', hft⟩ := hone OUTPUT_MODE_STRING (Or.inl rfl)
    rw [hft, renderOutput]
    rw [if_pos rfl]
    rfl
  · obtain ⟨cache', hft⟩ := hone OUTPUT_MODE_FLAT (Or.inr (Or.inl rfl))
    rw [hft, renderOutput]
    dsimp only
    rw [if_neg (by decide), if_pos rfl]
    rfl
  · obtain ⟨cache', hft⟩ := hone OUTPUT_MODE_NESTED (Or.inr (Or.inr rfl))
    rw [hft, renderOutput]
    dsimp only
    rw [if_neg (by decide), if_neg (by decide)]
    rfl

/-- Witness for C10: a concrete empty root directory, default parameters. -/
theorem claim_C10_witness :
    fileTree (some (.dir "root" 0 0 true true []))
      "  root/ " { outputMode := "string" } none (fun _ _ => false)
      (fun _ => none) "/a" = .ok (.str "root/") ∧
    fileTree (some (.dir "root" 0 0 true true []))
      "  root/ " { outputMode := "flat" } none (fun _ _ => false)
      (fun _ => none) "/a" = .ok (.flat []) := by
  have h := claim_C10 "  root/ " "root"
    ({ outputMode := "string" } : Params) none (fun _ _ => false)
    (fun _ => none) "/a" none 0 0 true []
    (by intro mode hm; rcases hm with h | h | h <;> subst h <;> rfl)
    rfl (by decide) (by decide) (by constructor <;> rfl)
  refine ⟨?_, ?_⟩
  · have h1 := h.1
    have : displayName "  root/ " "root" = "root/" := by rfl
    rw [this] at h1
    exact h1
  · exact h.2.1

/-! ### Claim C3: transient-race behaviour -/

mutual
/-- No entry in this subtree vanishes between listing and stat. -/
def allStatOk : FSNode → Bool
  | .file _ _ _ s => s
  | .dir _ _ _ s _ cs => s && allStatOkL cs
def allStatOkL : List FSNode → Bool
  | [] => true
  | c :: cs => allStatOk c && allStatOkL cs
end

theorem allStatOkL_mem {cs : List FSNode} (h : allStatOkL cs = true) :
    ∀ e ∈ cs, allStatOk e = true := by
  induction cs with
  | nil => intro e he; exact absurd he (List.not_mem_nil e)
  | cons c rest ih =>
    rw [allStatOkL] at h
    have hsplit : allStatOk c = true ∧ allStatOkL rest = true := by
      simpa using h
    obtain ⟨h1, h2⟩ := hsplit
    intro e he
    rcases List.mem_cons.mp he with hh | hh
    · subst hh; exact h1
    · exact ih h2 e hh

theorem allStatOk_statOk {e : FSNode} (h : allStatOk e = true) :
    e.statOk = true := by
  cases e with
  | file n c m s => exact h
  | dir n c m s l cs =>
    rw [allStatOk] at h
    have hsplit : s = true ∧ allStatOkL cs = true := by simpa using h
    exact hsplit.1

theorem allStatOk_dirData {e : FSNode} (h : allStatOk e = true) :
    allStatOkL e.dirData.children = true := by
  cases e with
  | file n c m s => rfl
  | dir n c m s l cs =>
    rw [allStatOk] at h
    have hsplit : s = true ∧ allStatOkL cs = true := by simpa using h
    exact hsplit.2

theorem getChildDir_allOk {b : Bool} {cs : List FSNode} {n : String}
    (h : allStatOkL cs = true) :
    allStatOkL (getChildDir ⟨b, cs⟩ n).children = true := by
  rw [getChildDir]
  dsimp only
  rcases hf : (dedupByName cs).find? (fun c => c.isDir && c.name = n) with _ | e
  · rw [hf]
    rfl
  · rw [hf]
    have hmem : e ∈ cs :=
      (dedupByName_sublist cs).subset (List.mem_of_find?_eq_some hf)
    exact allStatOk_dirData (allStatOkL_mem h e hmem)

theorem makeEntries_total {es : List FSNode} {pr : String} {lv : Int} {u : Nat}
    (h : ∀ e ∈ es, e.statOk = true) :
    ∃ tes u', makeEntries es pr lv u = .ok (tes, u') := by
  induction es generalizing u with
  | nil => exact ⟨[], u, rfl⟩
  | cons e rest ih =>
    obtain ⟨tes, u', hrest⟩ := ih (fun x hx => h x (List.mem_cons_of_mem _ hx))
      (u := u + 1)
    rw [makeEntries, makeEntry, if_pos (h e (List.mem_cons_self _ _)), hrest]
    exact ⟨_, u', rfl⟩

theorem mkHiddenTEs_total {fn : TE} {es : List FSNode} {ty : ItemType}
    (h : ∀ e ∈ es, e.statOk = true) :
    ∃ tes, mkHiddenTEs fn es ty = .ok tes := by
  induction es with
  | nil => exact ⟨[], rfl⟩
  | cons e rest ih =>
    obtain ⟨tes, hrest⟩ := ih (fun x hx => h x (List.mem_cons_of_mem _ hx))
    rw [mkHiddenTEs, mkHiddenTE, if_pos (h e (List.mem_cons_self _ _)), hrest]
    exact ⟨_, rfl⟩

/-- The tasks enqueued by a step are lookups of child names in the stepped
directory. -/
theorem stepTask_nts {p : Params} {spec : Option Matcher} {t : Task}
    {st st' : ScanSt} {nts : List Task} {stop : Bool}
    (h : stepTask p spec t st = .ok (st', nts, stop)) :
    ∀ t' ∈ nts, ∃ n, t'.dir = getChildDir t.dir n := by
  rw [stepTask] at h
  by_cases hd : p.maxDepth ≠ 0 ∧ t.level > p.maxDepth
  · rw [if_pos hd] at h
    injection h with h
    injection h with h1 h2
    injection h2 with h2 h3
    subst h2
    intro t' ht'
    exact absurd ht' (List.not_mem_nil t')
  · rw [if_neg hd] at h
    rcases hld : listDirectoryChildren spec t.dir t.te.relPath
        (if p.maxDepth ≠ 0 then p.maxDepth - t.level else -1) st.cache
      with ⟨fds, fls, cache1⟩
    rw [hld] at h
    dsimp only at h
    rcases hm1 : makeEntries fds t.te.relPath t.level st.uidCtr with e1 | ⟨folderTEs, c1⟩
    · rw [hm1] at h; exact absurd h (by simp)
    rw [hm1] at h
    dsimp only at h
    rcases hm2 : makeEntries fls t.te.relPath t.level c1 with e2 | ⟨fileTEs, c2⟩
    · rw [hm2] at h; exact absurd h (by simp)
    rw [hm2] at h
    dsimp only at h
    by_cases hpre : p.maxLines ≠ 0 ∧ (st.rc : Int) ≥ p.maxLines
    · rw [if_pos hpre] at h
      injection h with h
      injection h with h1 h2
      injection h2 with h2 h3
      subst h2
      intro t' ht'
      exact absurd ht' (List.not_mem_nil t')
    · rw [if_neg hpre] at h
      rcases hcon : consumeChildren p.maxLines st.rc
          (applySortingAndLimits folderTEs fileTEs p.foldersFirst p.sortKey
            p.sortDir p.maxFolders p.maxFiles t.te c2).1
        with ⟨trimmed, hidden, rc2, lim⟩
      rw [hcon] at h
      dsimp only at h
      by_cases hlim : lim = true
      · subst hlim
        simp only [if_pos rfl] at h
        injection h with h
        injection h with h1 h2
        injection h2 with h2 h3
        subst h2
        intro t' ht'
        exact absurd ht' (List.not_mem_nil t')
      · have hlf : lim = false := by
          cases lim
          · rfl
          · exact absurd rfl hlim
        subst hlf
        simp only [Bool.false_eq_true, if_false, false_and] at h
        injection h with h
        injection h with h1 h2
        injection h2 with h2 h3
        subst h2
        intro t' ht'
        rw [newTasksOf] at ht'
        obtain ⟨c, _, hc⟩ := List.mem_filterMap.mp ht'
        by_cases hcond : c.itemType = ItemType.folder ∧
            ¬ (p.maxDepth ≠ 0 ∧ t.level ≥ p.maxDepth)
        · rw [if_pos hcond] at hc
          injection hc with hc
          subst hc
          exact ⟨c.name, rfl⟩
        · rw [if_neg hcond] at hc
          exact absurd hc (by simp)

/-- A task over an all-`statOk` directory steps without an exception, and
all the tasks it enqueues are again over all-`statOk` directories. -/
theorem stepTask_total (p : Params) (spec : Option Matcher) (t : Task)
    (st : ScanSt) (h : allStatOkL t.dir.children = true) :
    ∃ st' nts stop, stepTask p spec t st = .ok (st', nts, stop) ∧
      ∀ t' ∈ nts, allStatOkL t'.dir.children = true := by
  rcases hstep : stepTask p spec t st with e | ⟨st', nts, stop⟩
  · exfalso
    rw [stepTask] at hstep
    by_cases hd : p.maxDepth ≠ 0 ∧ t.level > p.maxDepth
    · rw [if_pos hd] at hstep
      exact absurd hstep (by simp)
    · rw [if_neg hd] at hstep
      rcases hld : listDirectoryChildren spec t.dir t.te.relPath
          (if p.maxDepth ≠ 0 then p.maxDepth - t.level else -1) st.cache
        with ⟨fds, fls, cache1⟩
      obtain ⟨hsubf, _, hsubfl, _⟩ := listDirectoryChildren_shape spec t.dir
        t.te.relPath (if p.maxDepth ≠ 0 then p.maxDepth - t.level else -1) st.cache
      rw [hld] at hsubf hsubfl
      simp only at hsubf hsubfl
      have hfds : ∀ e ∈ fds, e.statOk = true := fun e he =>
        allStatOk_statOk (allStatOkL_mem h e
          ((dedupByName_sublist _).subset (hsubf.subset he)))
      have hfls : ∀ e ∈ fls, e.statOk = true := fun e he =>
        allStatOk_statOk (allStatOkL_mem h e
          ((dedupByName_sublist _).subset (hsubfl.subset he)))
      rw [hld] at hstep
      dsimp only at hstep
      rcases hm1 : makeEntries fds t.te.relPath t.level st.uidCtr
        with e1 | ⟨folderTEs, c1⟩
      · obtain ⟨tes, u', htot⟩ := @makeEntries_total fds t.te.relPath
          t.level st.uidCtr hfds
        rw [hm1] at htot
        exact absurd htot (by simp)
      rw [hm1] at hstep
      dsimp only at hstep
      rcases hm2 : makeEntries fls t.te.relPath t.level c1
        with e2 | ⟨fileTEs, c2⟩
      · obtain ⟨tes, u', htot⟩ := @makeEntries_total fls t.te.relPath
          t.level c1 hfls
        rw [hm2] at htot
        exact absurd htot (by simp)
      rw [hm2] at hstep
      dsimp only at hstep
      by_cases hpre : p.maxLines ≠ 0 ∧ (st.rc : Int) ≥ p.maxLines
      · rw [if_pos hpre] at hstep
        exact absurd hstep (by simp)
      · rw [if_neg hpre] at hstep
        rcases hcon : consumeChildren p.maxLines st.rc
            (applySortingAndLimits folderTEs fileTEs p.foldersFirst p.sortKey
              p.sortDir p.maxFolders p.maxFiles t.te c2).1
          with ⟨trimmed, hidden, rc2, lim⟩
        rw [hcon] at hstep
        dsimp only at hstep
        by_cases hg : lim = true ∧ hidden ≠ []
        · rw [if_pos hg] at hstep
          dsimp only at hstep
          rw [if_pos hg.1] at hstep
          exact absurd hstep (by simp)
        · rw [if_neg hg] at hstep
          dsimp only at hstep
          by_cases hl : lim = true
          · rw [if_pos hl] at hstep
            exact absurd hstep (by simp)
          · rw [if_neg hl] at hstep
            exact absurd hstep (by simp)
  · refine ⟨st', nts, stop, rfl, ?_⟩
    intro t' ht'
    obtain ⟨n, hdir⟩ := stepTask_nts hstep t' ht'
    rw [hdir]
    exact getChildDir_allOk h

theorem bfsLoopF_total (p : Params) (spec : Option Matcher) :
    ∀ (fuel : Nat) (q : List Task) (st : ScanSt),
    (∀ t ∈ q, allStatOkL t.dir.children = true) → queueWeight q < fuel →
    ∃ st' rem, bfsLoopF p spec fuel q st = .ok (st', rem) ∧
      ∀ t ∈ rem, allStatOkL t.dir.children = true := by
  intro fuel
  induction fuel with
  | zero => intro q st _ hw; exact absurd hw (Nat.not_lt_zero _)
  | succ n ih =>
    intro q st hq hw
    match q with
    | [] => exact ⟨st, [], rfl, by simp⟩
    | t :: rest =>
      obtain ⟨st', nts, stop, hstep, hnts⟩ :=
        stepTask_total p spec t st (hq t (List.mem_cons_self _ _))
      rw [bfsLoopF, hstep]
      dsimp only
      by_cases hstop : stop = true
      · subst hstop
        rw [if_pos rfl]
        exact ⟨st', rest, rfl, fun t' ht' => hq t' (List.mem_cons_of_mem _ ht')⟩
      · have : stop = false := by
          cases stop
          · rfl
          · exact absurd rfl hstop
        subst this
        rw [if_neg (by simp)]
        have hq' : ∀ t' ∈ rest ++ nts, allStatOkL t'.dir.children = true := by
          intro t' ht'
          rcases List.mem_append.mp ht' with hh | hh
          · exact hq t' (List.mem_cons_of_mem _ hh)
          · exact hnts t' hh
        have hw' : queueWeight (rest ++ nts) < n := by
          have hws := stepTask_weight hstep
          rw [queueWeight_append]
          have h1 : queueWeight (t :: rest) = taskWeight t + queueWeight rest := by
            simp [queueWeight]
          simp only [taskWeight] at h1
          omega
        exact ih (rest ++ nts) st' hq' hw'

theorem createFolderUnprocessedComment_total (spec : Option Matcher) (t : Task)
    (u : Nat) (h : allStatOkL t.dir.children = true) :
    ∃ r, createFolderUnprocessedComment spec t u = .ok r := by
  rw [createFolderUnprocessedComment]
  rcases hld : listDirectoryChildren spec t.dir t.te.relPath (-1) []
    with ⟨fds, fls, cache'⟩
  obtain ⟨hsubf, _, hsubfl, _⟩ := listDirectoryChildren_shape spec t.dir
    t.te.relPath (-1) []
  rw [hld] at hsubf hsubfl
  simp only at hsubf hsubfl
  have hfds : ∀ e ∈ fds, e.statOk = true := fun e he =>
    allStatOk_statOk (allStatOkL_mem h e
      ((dedupByName_sublist _).subset (hsubf.subset he)))
  have hfls : ∀ e ∈ fls, e.statOk = true := fun e he =>
    allStatOk_statOk (allStatOkL_mem h e
      ((dedupByName_sublist _).subset (hsubfl.subset he)))
  obtain ⟨tesF, hmf⟩ := @mkHiddenTEs_total t.te fds ItemType.folder hfds
  obtain ⟨tesFl, hmfl⟩ := @mkHiddenTEs_total t.te fls ItemType.file hfls
  dsimp only
  rw [hmf]
  dsimp only
  rw [hmfl]
  dsimp only
  by_cases hh : tesF ++ tesFl = []
  · rw [if_pos hh]
    exact ⟨none, rfl⟩
  · rw [if_neg hh]
    exact ⟨_, rfl⟩

theorem tailPhase_total (spec : Option Matcher) :
    ∀ (rem : List Task) (st : ScanSt),
    (∀ t ∈ rem, allStatOkL t.dir.children = true) →
    ∃ st', tailPhase spec rem st = .ok st' := by
  intro rem
  induction rem with
  | nil => intro st _; exact ⟨st, rfl⟩
  | cons t rest ih =>
    intro st hq
    obtain ⟨r, hr⟩ := createFolderUnprocessedComment_total spec t st.uidCtr
      (hq t (List.mem_cons_self _ _))
    rw [tailPhase, hr]
    cases r with
    | none => exact ih st (fun t' ht' => hq t' (List.mem_cons_of_mem _ ht'))
    | some s => exact ih _ (fun t' ht' => hq t' (List.mem_cons_of_mem _ ht'))

/-- C3 (amended): a directory that vanishes before being listed is treated
as empty (`os.scandir`'s `FileNotFoundError` is swallowed both in the
listing and in the visibility check), and when no listed entry vanishes
before being stat-ed the scan never raises; but an entry that vanishes
between listing and stat propagates `FileNotFoundError` out of `file_tree`
(the unguarded `entry.stat()` calls in `make_entry` and in
`_create_folder_unprocessed_comment`). -/
theorem claim_C3 (p : Params) (spec : Option Matcher) :
    (∀ (cs : List FSNode) (base : String) (r : Int) (cache : Cache),
      listDirectoryChildren spec ⟨false, cs⟩ base r cache = ([], [], cache)) ∧
    (∀ (mch : Matcher) (d : Int) (rel : String) (cs : List FSNode)
        (cache : Cache), d ≠ 0 → cacheLookup cache rel = none →
      hasVisible mch d rel ⟨false, cs⟩ cache =
        (false, cacheInsert cache rel false)) ∧
    (∀ (rname : String) (c m : Nat) (lOk : Bool) (cs : List FSNode)
        (relPath : String) (ignore : Option String)
        (fl : List String → Matcher) (rf : String → Option String)
        (ra : String),
      validateParams p = .ok () →
      resolveIgnorePatterns fl rf ignore ra = .ok spec →
      allStatOkL cs = true →
      ∃ res, fileTree (some (.dir rname c m true lOk cs)) relPath p ignore
        fl rf ra = .ok res) := by
  refine ⟨?_, ?_, ?_⟩
  · intro cs base r cache
    rw [listDirectoryChildren]
    simp
  · intro mch d rel cs cache hd hc
    rw [hasVisible, if_neg hd, hc]
    simp
  · intro rname c m lOk cs relPath ignore fl rf ra hval hres hok
    obtain ⟨st, rem, hloop, hrem⟩ := bfsLoopF_total p spec
      (queueWeight [⟨rootTE rname c m, ⟨lOk, cs⟩, 1⟩] + 1)
      [⟨rootTE rname c m, ⟨lOk, cs⟩, 1⟩]
      { tree := .node (rootTE rname c m) (some []), nio := [], rc := 0,
        uidCtr := 1, cache := [], limitReached := false }
      (by intro t ht
          rcases List.mem_singleton.mp ht with h
          rw [h]
          exact hok)
      (Nat.lt_succ_self _)
    rw [bfsLoopF_eq p spec _ _ _ (Nat.lt_succ_self _)] at hloop
    have hscan : ∃ out, buildScan p spec rname c m ⟨lOk, cs⟩ = .ok out := by
      rw [buildScan]
      dsimp only
      rw [hloop]
      dsimp only
      by_cases htail : st.limitReached = true ∧
          ¬ (if st.limitReached = true then rem else []).isEmpty = true
      · rw [if_pos htail]
        obtain ⟨st', hst'⟩ := tailPhase_total spec
          (if st.limitReached = true then rem else []) st
          (by intro t ht
              by_cases hlr : st.limitReached = true
              · rw [if_pos hlr] at ht
                exact hrem t ht
              · rw [if_neg hlr] at ht
                exact absurd ht (List.not_mem_nil t))
        rw [hst']
        exact ⟨_, rfl⟩
      · rw [if_neg htail]
        exact ⟨_, rfl⟩
    obtain ⟨out, hout⟩ := hscan
    refine ⟨renderOutput p relPath rname out.1, ?_⟩
    rw [fileTree.eq_def]
    dsimp only
    rw [hval]
    dsimp only
    rw [hres]
    dsimp only
    rw [if_pos rfl]
    rcases out with ⟨st0, rem0⟩
    rw [hout]

/-- Witness for C3 (amended) at a concrete filesystem with one vanished
subdirectory: the scan still succeeds. -/
theorem claim_C3_witness :
    listDirectoryChildren none ⟨false, [.file "u" 1 1 true]⟩ "" (-1) [] =
      ([], [], []) ∧
    (∃ res, fileTree (some (.dir "r" 0 0 true true
        [.dir "gone" 1 1 true false [],
         .file "keep" 2 2 true])) "r" {} none (fun _ _ => false)
        (fun _ => none) "/a" = .ok res) := by
  have h := claim_C3 {} none
  refine ⟨h.1 [.file "u" 1 1 true] "" (-1) [], ?_⟩
  exact h.2.2 "r" 0 0 true
    [.dir "gone" 1 1 true false [], .file "keep" 2 2 true]
    "r" none (fun _ _ => false) (fun _ => none) "/a" rfl rfl (by decide)

/-- C3 counterexample: a file that vanishes between being listed and being
stat-ed makes `file_tree` raise `FileNotFoundError` instead of treating the
entry as absent. -/
theorem claim_C3_counterexample :
    fileTree (some (.dir "r" 0 0 true true [.file "gone" 1 1 false])) "r" {}
      none (fun _ _ => false) (fun _ => none) "/a" =
      .error .fileNotFound := by
  rw [← fileTreeF_eq]
  rfl

/-! ### C6: the deferred-comment pass over the remaining queue -/

theorem mkHiddenTEs_length {fn : TE} {es : List FSNode} {ty : ItemType} :
    ∀ {tes : List TE}, mkHiddenTEs fn es ty = .ok tes → tes.length = es.length := by
  induction es with
  | nil =>
    intro tes h
    rw [mkHiddenTEs.eq_def] at h
    dsimp only at h
    injection h with h
    subst h
    rfl
  | cons e rest ih =>
    intro tes h
    rw [mkHiddenTEs.eq_def] at h
    dsimp only at h
    rcases hm : mkHiddenTE fn e ty with er | te
    · rw [hm] at h
      exact absurd h (by simp)
    · rw [hm] at h
      dsimp only at h
      rcases hr : mkHiddenTEs fn rest ty with er | tes'
      · rw [hr] at h
        exact absurd h (by simp)
      · rw [hr] at h
        dsimp only at h
        injection h with h
        subst h
        simp [ih hr]

/-- Any comment produced by `_create_folder_unprocessed_comment` is a global
limit comment sitting directly under the queued folder. -/
theorem createFolderUnprocessedComment_some {spec : Option Matcher} {t : Task}
    {u : Nat} {c : TE}
    (h : createFolderUnprocessedComment spec t u = .ok (some c)) :
    c.itemType = .comment ∧ c.relPath = t.te.relPath ++ "#summary:limit" := by
  rw [createFolderUnprocessedComment] at h
  rcases hld : listDirectoryChildren spec t.dir t.te.relPath (-1) []
    with ⟨fds, fls, c'⟩
  rw [hld] at h
  dsimp only at h
  rcases hm1 : mkHiddenTEs t.te fds .folder with er | hf
  · rw [hm1] at h
    exact absurd h (by simp)
  rw [hm1] at h
  dsimp only at h
  rcases hm2 : mkHiddenTEs t.te fls .file with er | hfl
  · rw [hm2] at h
    exact absurd h (by simp)
  rw [hm2] at h
  dsimp only at h
  by_cases hh : hf ++ hfl = []
  · rw [if_pos hh] at h
    exact absurd h (by simp)
  · rw [if_neg hh] at h
    injection h with h
    injection h with h
    subst h
    exact ⟨rfl, rfl⟩

/-- On an all-`statOk` directory, the deferred comment is `None` exactly
when the one-level look-ahead listing is empty. -/
theorem createFolderUnprocessedComment_none_iff (spec : Option Matcher)
    (t : Task) (u : Nat) (h : allStatOkL t.dir.children = true) :
    createFolderUnprocessedComment spec t u = .ok none ↔
      ((listDirectoryChildren spec t.dir t.te.relPath (-1) []).1 = [] ∧
       (listDirectoryChildren spec t.dir t.te.relPath (-1) []).2.1 = []) := by
  rw [createFolderUnprocessedComment]
  obtain ⟨hsubf, _, hsubfl, _⟩ := listDirectoryChildren_shape spec t.dir
    t.te.relPath (-1) []
  rcases hld : listDirectoryChildren spec t.dir t.te.relPath (-1) []
    with ⟨fds, fls, c'⟩
  rw [hld] at hsubf hsubfl
  simp only at hsubf hsubfl
  dsimp only
  have hfds : ∀ e ∈ fds, e.statOk = true := fun e he =>
    allStatOk_statOk (allStatOkL_mem h e
      ((dedupByName_sublist _).subset (hsubf.subset he)))
  have hfls : ∀ e ∈ fls, e.statOk = true := fun e he =>
    allStatOk_statOk (allStatOkL_mem h e
      ((dedupByName_sublist _).subset (hsubfl.subset he)))
  obtain ⟨tesF, hmf⟩ := @mkHiddenTEs_total t.te fds ItemType.folder hfds
  obtain ⟨tesFl, hmfl⟩ := @mkHiddenTEs_total t.te fls ItemType.file hfls
  rw [hmf]
  dsimp only
  rw [hmfl]
  dsimp only
  have hlF := mkHiddenTEs_length hmf
  have hlFl := mkHiddenTEs_length hmfl
  by_cases hh : tesF ++ tesFl = []
  · rw [if_pos hh]
    obtain ⟨h1, h2⟩ := List.append_eq_nil.mp hh
    have hf0 : fds = [] := List.length_eq_zero.mp (by rw [← hlF, h1]; rfl)
    have hfl0 : fls = [] := List.length_eq_zero.mp (by rw [← hlFl, h2]; rfl)
    simp [hf0, hfl0]
  · rw [if_neg hh]
    have hne : ¬ (fds = [] ∧ fls = []) := by
      rintro ⟨rfl, rfl⟩
      apply hh
      have h1 : tesF = [] := List.length_eq_zero.mp (by rw [hlF]; rfl)
      have h2 : tesFl = [] := List.length_eq_zero.mp (by rw [hlFl]; rfl)
      rw [h1, h2]
      rfl
    constructor
    · intro hc
      exact absurd hc (by simp)
    · intro hc
      exact absurd hc hne

/-- C6 (amended): once the global line budget stops the scan, the
deferred pass gives each still-queued directory exactly one
`#summary:limit` comment attached directly under it *when its one-level
look-ahead listing is non-empty*; a queued directory whose look-ahead is
empty (for instance a genuinely empty directory, or one whose children are
all excluded) receives no comment at all and is left as a bare folder
line. -/
theorem claim_C6 (spec : Option Matcher) (rem : List Task) (st : ScanSt)
    (h : ∀ t ∈ rem, allStatOkL t.dir.children = true) :
    ∃ st' news, tailPhase spec rem st = .ok st' ∧
      st'.nio = st.nio ++ news ∧
      (∀ x ∈ news, x.itemType = .comment) ∧
      news.map (fun x => x.relPath) =
        (rem.filter (fun t =>
          !((listDirectoryChildren spec t.dir t.te.relPath (-1) []).1.isEmpty &&
            (listDirectoryChildren spec t.dir t.te.relPath (-1) []).2.1.isEmpty))).map
          (fun t => t.te.relPath ++ "#summary:limit") := by
  revert h
  induction rem generalizing st with
  | nil =>
    intro h
    exact ⟨st, [], rfl, by simp, by simp, rfl⟩
  | cons t rest ih =>
    intro h
    have ht := h t (List.mem_cons_self _ _)
    have hrest : ∀ t' ∈ rest, allStatOkL t'.dir.children = true :=
      fun t' ht' => h t' (List.mem_cons_of_mem _ ht')
    obtain ⟨r, hr⟩ := createFolderUnprocessedComment_total spec t st.uidCtr ht
    cases r with
    | none =>
      have hemp := (createFolderUnprocessedComment_none_iff spec t
        st.uidCtr ht).mp hr
      have hpred : (!((listDirectoryChildren spec t.dir t.te.relPath (-1)
            []).1.isEmpty &&
          (listDirectoryChildren spec t.dir t.te.relPath (-1)
            []).2.1.isEmpty)) = false := by
        rw [hemp.1, hemp.2]
        rfl
      have hstep : tailPhase spec (t :: rest) st = tailPhase spec rest st := by
        rw [tailPhase.eq_def]
        dsimp only
        rw [hr]
      obtain ⟨st', news, htp, hnio, hcomm, hmap⟩ := ih st hrest
      refine ⟨st', news, by rw [hstep]; exact htp, hnio, hcomm, ?_⟩
      rw [List.filter_cons]
      simp only [hpred, Bool.false_eq_true, if_false]
      exact hmap
    | some s =>
      obtain ⟨hcty, hcrel⟩ := createFolderUnprocessedComment_some hr
      have hne : ¬ ((listDirectoryChildren spec t.dir t.te.relPath (-1) []).1 = [] ∧
          (listDirectoryChildren spec t.dir t.te.relPath (-1) []).2.1 = []) := by
        intro hc
        have hnone := (createFolderUnprocessedComment_none_iff spec t
          st.uidCtr ht).mpr hc
        rw [hr] at hnone
        exact absurd hnone (by simp)
      have hpred : (!((listDirectoryChildren spec t.dir t.te.relPath (-1)
            []).1.isEmpty &&
          (listDirectoryChildren spec t.dir t.te.relPath (-1)
            []).2.1.isEmpty)) = true := by
        rcases hld : listDirectoryChildren spec t.dir t.te.relPath (-1) []
          with ⟨fds, fls, c'⟩
        rw [hld] at hne
        simp only at hne
        cases fds with
        | nil =>
          cases fls with
          | nil => exact absurd ⟨rfl, rfl⟩ hne
          | cons a l => rfl
        | cons a l => rfl
      have hstep : tailPhase spec (t :: rest) st = tailPhase spec rest
          { st with tree := attachAppend st.tree t.te.uid [teToLeaf s],
                    nio := st.nio ++ [s], uidCtr := st.uidCtr + 1 } := by
        rw [tailPhase.eq_def]
        dsimp only
        rw [hr]
      obtain ⟨st', news, htp, hnio, hcomm, hmap⟩ := ih _ hrest
      refine ⟨st', s :: news, by rw [hstep]; exact htp, ?_, ?_, ?_⟩
      · rw [hnio]
        simp
      · intro x hx
        rcases List.mem_cons.mp hx with h1 | h2
        · subst h1
          exact hcty
        · exact hcomm x h2
      · rw [List.filter_cons]
        simp only [hpred, if_true, List.map_cons]
        rw [hcrel, hmap]

def c6Rem : List Task :=
  [⟨{ name := "b", level := 1, itemType := .folder, created := 0,
      modified := 0, relPath := "b", isLast := false, text := "",
      uid := 2 }, ⟨true, []⟩, 1⟩,
   ⟨{ name := "c", level := 1, itemType := .folder, created := 0,
      modified := 0, relPath := "c", isLast := false, text := "",
      uid := 3 }, ⟨true, [.file "f" 1 1 true]⟩, 1⟩]

def c6St : ScanSt :=
  { tree := .node (rootTE "r" 0 0) (some []), nio := [], rc := 0,
    uidCtr := 7, cache := [], limitReached := true }

/-- Witness for C6 (amended): a remaining queue holding an empty directory
and a one-file directory satisfies the hypothesis, and the conclusion holds
there. -/
theorem claim_C6_witness :
    (∀ t ∈ c6Rem, allStatOkL t.dir.children = true) ∧
    (∃ st' news, tailPhase none c6Rem c6St = .ok st' ∧
      st'.nio = c6St.nio ++ news ∧
      (∀ x ∈ news, x.itemType = .comment) ∧
      news.map (fun x => x.relPath) =
        (c6Rem.filter (fun t =>
          !((listDirectoryChildren none t.dir t.te.relPath (-1) []).1.isEmpty &&
            (listDirectoryChildren none t.dir t.te.relPath (-1) []).2.1.isEmpty))).map
          (fun t => t.te.relPath ++ "#summary:limit")) :=
  ⟨by decide, claim_C6 none c6Rem c6St (by decide)⟩

/-- C6 counterexample: with `max_lines = 3` over `root/{a/{f,g}, b/}` (name
ascending), `b` is still in the work queue when the budget trips, yet the
final node list holds a `#summary:limit` comment only for `a` – the queued
empty directory `b` gets none, so the original claim fails. -/
theorem claim_C6_counterexample :
    Except.map
      (fun r => ((r.2.map fun t => t.te.relPath),
        ((r.1.nio.filter fun e => pyEndsWith e.relPath "#summary:limit").map
          fun e => e.relPath)))
      (buildScan { maxLines := 3, sortKey := "name", sortDir := "asc" } none
        "root" 0 0 ⟨true,
          [.dir "a" 1 1 true true [.file "f" 2 2 true, .file "g" 3 3 true],
           .dir "b" 4 4 true true []]⟩) =
      .ok (["b"], ["a#summary:limit"]) := by
  rw [← buildScanF_eq]
  rfl

/-! ### C7: agreement of the three output modes -/

theorem stepTask_mode (p : Params) (m : String) (spec : Option Matcher)
    (t : Task) (st : ScanSt) :
    stepTask { p with outputMode := m } spec t st = stepTask p spec t st := rfl

theorem bfsLoopF_mode (p : Params) (m : String) (spec : Option Matcher) :
    ∀ (fuel : Nat) (q : List Task) (st : ScanSt),
    bfsLoopF { p with outputMode := m } spec fuel q st =
      bfsLoopF p spec fuel q st := by
  intro fuel
  induction fuel with
  | zero =>
    intro q st
    cases q with
    | nil => rfl
    | cons t rest => rfl
  | succ n ih =>
    intro q st
    cases q with
    | nil => rfl
    | cons t rest =>
      rw [bfsLoopF, bfsLoopF, stepTask_mode]
      rcases hs : stepTask p spec t st with e | ⟨st', nts, stop⟩
      · rfl
      · dsimp only
        by_cases hstop : stop = true
        · rw [if_pos hstop, if_pos hstop]
        · rw [if_neg hstop, if_neg hstop, ih]

theorem buildScanF_mode (p : Params) (m : String) (spec : Option Matcher)
    (rootName : String) (created modified : Nat) (rootDir : FSDir) :
    buildScanF { p with outputMode := m } spec rootName created modified
      rootDir = buildScanF p spec rootName created modified rootDir := by
  rw [buildScanF, buildScanF]
  dsimp only
  rw [bfsLoopF_mode]

theorem flattenN_toNestedL : ∀ ts : List TreeN,
    flattenNL (toNestedL ts) = (dfsL ts).map toFlatItem := by
  apply treeIndL (fun t => flattenN (toNestedT t) = (dfsT t).map toFlatItem)
  · intro te
    rfl
  · intro te ts hQ
    simp [toNestedT, flattenN, dfsT, hQ, toFlatItem]
  · rfl
  · intro t ts hP hQ
    simp [toNestedL, flattenNL, dfsL, hP, hQ]

theorem dfsL_uid_markLastL : ∀ ts : List TreeN,
    (dfsL (markLastL ts)).map TE.uid = (dfsL ts).map TE.uid := by
  apply treeIndL
    (fun t => ∀ b, (dfsT (markLast t b)).map TE.uid = (dfsT t).map TE.uid)
  · intro te b
    rfl
  · intro te ts hQ b
    simp [markLast, dfsT, hQ]
  · rfl
  · intro t ts hP hQ
    cases ts with
    | nil => simp [markLastL, dfsL, hP true]
    | cons r rs =>
      rw [markLastL]
      · simp [dfsL, hP false, hQ]
      · intro h
        cases h

theorem dfsL_uid_refreshChildL : ∀ ts : List TreeN, ∀ pref : List Bool,
    (dfsL (refreshChildL pref ts)).map TE.uid = (dfsL ts).map TE.uid := by
  apply treeIndL (fun t => ∀ pref,
    (dfsT (refreshChild pref t)).map TE.uid = (dfsT t).map TE.uid)
  · intro te pref
    rfl
  · intro te ts hQ pref
    simp [refreshChild, dfsT, hQ]
  · intro pref
    rfl
  · intro t ts hP hQ pref
    rw [refreshChildL]
    simp [dfsL, hP pref, hQ pref]

theorem pruneVisL_pass (vis : List Nat) : ∀ ts : List TreeN,
    ∀ u ∈ (dfsL (pruneVisL ts vis)).map TE.uid, vis = [] ∨ u ∈ vis := by
  apply treeIndL (fun t => (vis = [] ∨ t.te.uid ∈ vis) →
    ∀ u ∈ (dfsT (pruneVis t vis)).map TE.uid, vis = [] ∨ u ∈ vis)
  · intro te hp u hu
    rw [pruneVis] at hu
    simp [dfsT] at hu
    subst hu
    exact hp
  · intro te ts hQ hp u hu
    rw [pruneVis] at hu
    rcases hm : pruneVisL ts vis with _ | ⟨a, l⟩
    · rw [hm] at hu
      simp [dfsT] at hu
      subst hu
      exact hp
    · rw [hm] at hu
      simp only [dfsT, List.map_cons, List.mem_cons] at hu
      rcases hu with h1 | h2
      · subst h1
        exact hp
      · apply hQ
        rw [hm]
        simpa using h2
  · intro u hu
    simp [pruneVisL, dfsL] at hu
  · intro t ts hP hQ u hu
    rw [pruneVisL] at hu
    by_cases hc : vis = [] ∨ t.te.uid ∈ vis
    · rw [if_pos hc] at hu
      simp only [dfsL, List.map_append, List.mem_append] at hu
      rcases hu with h1 | h2
      · exact hP hc u h1
      · exact hQ u h2
    · rw [if_neg hc] at hu
      exact hQ u hu

theorem pruneVis_items_pass (vis : List Nat) (t : TreeN) :
    ∀ u ∈ (dfsItems (pruneVis t vis)).map TE.uid, vis = [] ∨ u ∈ vis := by
  intro u hu
  cases t with
  | node te items =>
    cases items with
    | none =>
      rw [pruneVis] at hu
      simp [dfsItems, TreeN.items, dfsL] at hu
    | some ts =>
      rw [pruneVis] at hu
      rcases hm : pruneVisL ts vis with _ | ⟨a, l⟩
      · rw [hm] at hu
        simp [dfsItems, TreeN.items, dfsL] at hu
      · rw [hm] at hu
        apply pruneVisL_pass vis ts
        rw [hm]
        simpa [dfsItems, TreeN.items] using hu

theorem dfsItems_uid_markLastRoot (t : TreeN) :
    (dfsItems (markLastRoot t)).map TE.uid = (dfsItems t).map TE.uid := by
  cases t with
  | node te items =>
    cases items with
    | none => rfl
    | some ts =>
      rw [markLastRoot]
      simp [dfsItems, TreeN.items, dfsL_uid_markLastL]

theorem dfsItems_uid_refreshRoot (t : TreeN) :
    (dfsItems (refreshRoot t)).map TE.uid = (dfsItems t).map TE.uid := by
  cases t with
  | node te items =>
    cases items with
    | none => rfl
    | some ts =>
      rw [refreshRoot]
      simp [dfsItems, TreeN.items, dfsL_uid_refreshChildL]

/-- Every entry surviving finalisation carries an identity in `visible_ids`
(or the set is empty), so the post-prune visibility filter is a no-op. -/
theorem dfsItems_finalize_pass (st : ScanSt) :
    ∀ te ∈ dfsItems (finalizeTree st),
      st.nio.map TE.uid = [] ∨ te.uid ∈ st.nio.map TE.uid := by
  intro te hte
  by_cases hv : st.nio.map TE.uid = []
  · exact Or.inl hv
  · have h1 : te.uid ∈ (dfsItems (finalizeTree st)).map TE.uid :=
      List.mem_map_of_mem _ hte
    rw [finalizeTree] at h1
    rw [if_neg hv] at h1
    rw [dfsItems_uid_refreshRoot, dfsItems_uid_markLastRoot] at h1
    exact pruneVis_items_pass _ _ te.uid h1

theorem iterVisible_finalize (st : ScanSt) :
    iterVisible (finalizeTree st) (st.nio.map TE.uid) =
      dfsItems (finalizeTree st) := by
  rw [iterVisible]
  apply List.filter_eq_self.mpr
  intro te hte
  exact decide_eq_true (dfsItems_finalize_pass st te hte)

/-- C7: the string output is the banner followed by exactly the texts of
the flat items, joined by newlines, and depth-first flattening of the
nested output is exactly the flat list, in order. -/
theorem claim_C7 (root : Option FSNode) (relativePath : String) (p : Params)
    (ignore : Option String) (fromLines : List String → Matcher)
    (readFile : String → Option String) (rootAbs : String)
    (s : String) (fl : List FlatItem) (ns : List NestedItem)
    (hs : fileTree root relativePath { p with outputMode := OUTPUT_MODE_STRING }
        ignore fromLines readFile rootAbs = .ok (.str s))
    (hf : fileTree root relativePath { p with outputMode := OUTPUT_MODE_FLAT }
        ignore fromLines readFile rootAbs = .ok (.flat fl))
    (hn : fileTree root relativePath { p with outputMode := OUTPUT_MODE_NESTED }
        ignore fromLines readFile rootAbs = .ok (.nested ns)) :
    (∃ rname, s = String.intercalate "\n"
        (displayName relativePath rname :: fl.map (fun i => i.text))) ∧
    flattenNL ns = fl := by
  rw [← fileTreeF_eq] at hs hf hn
  rw [fileTreeF.eq_def] at hs hf hn
  cases root with
  | none => exact absurd hs (by simp)
  | some n =>
    cases n with
    | file a b c d => exact absurd hs (by simp)
    | dir rname rcre rmod rstatOk rlistOk rchildren =>
      dsimp only at hs hf hn
      rcases hv1 : validateParams { p with outputMode := OUTPUT_MODE_STRING }
        with e | u1
      · rw [hv1] at hs
        exact absurd hs (by simp)
      rcases hv2 : validateParams { p with outputMode := OUTPUT_MODE_FLAT }
        with e | u2
      · rw [hv2] at hf
        exact absurd hf (by simp)
      rcases hv3 : validateParams { p with outputMode := OUTPUT_MODE_NESTED }
        with e | u3
      · rw [hv3] at hn
        exact absurd hn (by simp)
      rw [hv1] at hs
      rw [hv2] at hf
      rw [hv3] at hn
      dsimp only at hs hf hn
      rcases hri : resolveIgnorePatterns fromLines readFile ignore rootAbs
        with e | spec
      · rw [hri] at hs
        exact absurd hs (by simp)
      rw [hri] at hs hf hn
      dsimp only at hs hf hn
      by_cases hst : rstatOk = true
      · rw [if_pos hst] at hs hf hn
        rw [buildScanF_mode] at hs hf hn
        rcases hb : buildScanF p spec rname rcre rmod ⟨rlistOk, rchildren⟩
          with e | ⟨st, rem⟩
        · rw [hb] at hs
          exact absurd hs (by simp)
        rw [hb] at hs hf hn
        dsimp only at hs hf hn
        rw [renderOutput] at hs hf hn
        dsimp only at hs hf hn
        rw [if_pos rfl] at hs
        rw [if_neg (by decide), if_pos rfl] at hf
        rw [if_neg (by decide), if_neg (by decide)] at hn
        injection hs with hs
        injection hf with hf
        injection hn with hn
        injection hs with hs
        injection hf with hf
        injection hn with hn
        subst hs
        subst hf
        subst hn
        constructor
        · refine ⟨rname, ?_⟩
          rw [List.map_map]
          rfl
        · rw [flattenN_toNestedL, iterVisible_finalize]
          rfl
      · rw [if_neg hst] at hs
        exact absurd hs (by simp)

/-- Witness for C7 at a one-file root, all three modes computed. -/
theorem claim_C7_witness :
    (fileTree (some (.dir "r" 0 0 true true [.file "f" 1 1 true])) ""
        { ({} : Params) with outputMode := OUTPUT_MODE_STRING } none
        (fun _ _ => false) (fun _ => none) "/a" =
      .ok (.str "r/\n└── f")) ∧
    (fileTree (some (.dir "r" 0 0 true true [.file "f" 1 1 true])) ""
        { ({} : Params) with outputMode := OUTPUT_MODE_FLAT } none
        (fun _ _ => false) (fun _ => none) "/a" =
      .ok (.flat [⟨"f", 1, .file, 1, 1, "└── f"⟩])) ∧
    (fileTree (some (.dir "r" 0 0 true true [.file "f" 1 1 true])) ""
        { ({} : Params) with outputMode := OUTPUT_MODE_NESTED } none
        (fun _ _ => false) (fun _ => none) "/a" =
      .ok (.nested [.mk "f" 1 .file 1 1 "└── f" none])) ∧
    ((∃ rname, "r/\n└── f" = String.intercalate "\n"
        (displayName "" rname ::
          ([⟨"f", 1, .file, 1, 1, "└── f"⟩] : List FlatItem).map
            (fun i => i.text))) ∧
     flattenNL [.mk "f" 1 .file 1 1 "└── f" none] =
       [⟨"f", 1, .file, 1, 1, "└── f"⟩]) := by
  have h1 : fileTree (some (.dir "r" 0 0 true true [.file "f" 1 1 true])) ""
      { ({} : Params) with outputMode := OUTPUT_MODE_STRING } none
      (fun _ _ => false) (fun _ => none) "/a" = .ok (.str "r/\n└── f") := by
    rw [← fileTreeF_eq]
    rfl
  have h2 : fileTree (some (.dir "r" 0 0 true true [.file "f" 1 1 true])) ""
      { ({} : Params) with outputMode := OUTPUT_MODE_FLAT } none
      (fun _ _ => false) (fun _ => none) "/a" =
      .ok (.flat [⟨"f", 1, .file, 1, 1, "└── f"⟩]) := by
    rw [← fileTreeF_eq]
    rfl
  have h3 : fileTree (some (.dir "r" 0 0 true true [.file "f" 1 1 true])) ""
      { ({} : Params) with outputMode := OUTPUT_MODE_NESTED } none
      (fun _ _ => false) (fun _ => none) "/a" =
      .ok (.nested [.mk "f" 1 .file 1 1 "└── f" none]) := by
    rw [← fileTreeF_eq]
    rfl
  exact ⟨h1, h2, h3,
    claim_C7 (some (.dir "r" 0 0 true true [.file "f" 1 1 true])) ""
      ({} : Params) none (fun _ _ => false) (fun _ => none) "/a"
      "r/\n└── f" [⟨"f", 1, .file, 1, 1, "└── f"⟩]
      [.mk "f" 1 .file 1 1 "└── f" none] h1 h2 h3⟩

/-! ### C4: the visibility look-ahead for excluded directories -/

mutual
/-- Cache-free twin of `hvScan` (the scanning loop of
`_directory_has_visible_entries` with the memo dictionary erased). -/
def hvPure (spec : Matcher) (d : Int) (rel : String) (seen : List String) :
    List FSNode → Bool
  | [] => false
  | e :: rest =>
    if e.name ∈ seen then hvPure spec d rel seen rest
    else
      let seen' := e.name :: seen
      let relc := relJoin rel e.name
      match e with
      | .dir _ _ _ _ _ _ =>
        if spec relc || spec (relc ++ "/") then
          let nd : Int := if d > 0 then d - 1 else -1
          if nd = 0 then hvPure spec d rel seen' rest
          else
            if hvSubPure spec nd relc e then true
            else hvPure spec d rel seen' rest
        else true
      | .file _ _ _ _ =>
        if spec relc then hvPure spec d rel seen' rest else true
/-- Cache-free twin of `hvSub`. -/
def hvSubPure (spec : Matcher) (nd : Int) (relc : String) (e : FSNode) :
    Bool :=
  match e with
  | .file _ _ _ _ => false
  | .dir _ _ _ _ lOk ch => if lOk then hvPure spec nd relc [] ch else false
end

mutual
/-- The relative paths of all directories in a subtree (raw listing order,
duplicates included). -/
def dirPathsE (rel : String) : FSNode → List String
  | .file _ _ _ _ => []
  | .dir n _ _ _ _ ch => relJoin rel n :: dirPathsL (relJoin rel n) ch
def dirPathsL (rel : String) : List FSNode → List String
  | [] => []
  | e :: es => dirPathsE rel e ++ dirPathsL rel es
end

/-- The specification's reading of the look-ahead: the scanned entry list
holds a non-excluded entry, either directly or below a chain of excluded,
listable subdirectories, with the budget decreasing by one per level, a
zero budget cutting the search and a negative budget unlimited.  (A chain
through excluded directories suffices for the spec's \"has a non-excluded
descendant\": a non-excluded intermediate directory is itself a witness.) -/
inductive VisPath (spec : Matcher) : Int → String → List FSNode → Prop where
  | file (d : Int) (rel : String) (es : List FSNode) (e : FSNode)
      (hm : e ∈ es) (hd : e.isDir = false)
      (hs : spec (relJoin rel e.name) = false) : VisPath spec d rel es
  | dir (d : Int) (rel : String) (es : List FSNode) (e : FSNode)
      (hm : e ∈ es) (hd : e.isDir = true)
      (hs : (spec (relJoin rel e.name) || spec (relJoin rel e.name ++ "/")) =
        false) : VisPath spec d rel es
  | deeper (d : Int) (rel : String) (es : List FSNode) (e : FSNode)
      (hm : e ∈ es) (hd : e.isDir = true)
      (hs : (spec (relJoin rel e.name) || spec (relJoin rel e.name ++ "/")) =
        true)
      (hl : e.dirData.listOk = true)
      (hnd : (if d > 0 then d - 1 else -1) ≠ 0)
      (hrec : VisPath spec (if d > 0 then d - 1 else -1) (relJoin rel e.name)
        (dedupByName e.dirData.children)) : VisPath spec d rel es

theorem VisPath_cons {spec : Matcher} {d : Int} {rel : String}
    {es : List FSNode} (x : FSNode) (h : VisPath spec d rel es) :
    VisPath spec d rel (x :: es) := by
  cases h with
  | file d rel es e hm hd hs =>
    exact .file d rel _ e (List.mem_cons_of_mem x hm) hd hs
  | dir d rel es e hm hd hs =>
    exact .dir d rel _ e (List.mem_cons_of_mem x hm) hd hs
  | deeper d rel es e hm hd hs hl hnd hrec =>
    exact .deeper d rel _ e (List.mem_cons_of_mem x hm) hd hs hl hnd hrec

theorem VisPath_nil {spec : Matcher} {d : Int} {rel : String}
    (h : VisPath spec d rel []) : False := by
  cases h with
  | file d rel es e hm => exact absurd hm (List.not_mem_nil e)
  | dir d rel es e hm => exact absurd hm (List.not_mem_nil e)
  | deeper d rel es e hm => exact absurd hm (List.not_mem_nil e)

/-- The cache-free scan finds a visible entry exactly when the spec-level
descendant relation holds on the not-yet-seen part of the listing. -/
theorem hvPure_iff (spec : Matcher) : ∀ (N : Nat) (es : List FSNode) (d : Int)
    (rel : String) (seen : List String), fsSizeL es ≤ N →
    (hvPure spec d rel seen es = true ↔
      VisPath spec d rel (dedupSeen seen es)) := by
  intro N
  induction N with
  | zero =>
    intro es d rel seen hN
    cases es with
    | nil =>
      rw [hvPure]
      simp only [dedupSeen]
      exact ⟨fun h => absurd h (by simp), fun h => absurd (VisPath_nil h) id⟩
    | cons e rest =>
      exfalso
      have := fsSize_pos e
      rw [fsSizeL_cons] at hN
      omega
  | succ n ih =>
    intro es d rel seen hN
    cases es with
    | nil =>
      rw [hvPure]
      simp only [dedupSeen]
      exact ⟨fun h => absurd h (by simp), fun h => absurd (VisPath_nil h) id⟩
    | cons e rest =>
      have hrest : fsSizeL rest ≤ n := by
        have := fsSize_pos e
        rw [fsSizeL_cons] at hN
        omega
      rw [hvPure.eq_def]
      dsimp only
      by_cases hseen : e.name ∈ seen
      · rw [if_pos hseen]
        have hded : dedupSeen seen (e :: rest) = dedupSeen seen rest := by
          rw [dedupSeen]
          rw [if_pos hseen]
        rw [hded]
        exact ih rest d rel seen hrest
      · rw [if_neg hseen]
        have hded : dedupSeen seen (e :: rest) =
            e :: dedupSeen (e.name :: seen) rest := by
          rw [dedupSeen]
          rw [if_neg hseen]
        rw [hded]
        cases e with
        | file fn fc fm fs =>
          dsimp only
          by_cases hsp : spec (relJoin rel (FSNode.file fn fc fm fs).name) = true
          · rw [if_pos hsp]
            constructor
            · intro h
              exact VisPath_cons _
                ((ih rest d rel _ hrest).mp h)
            · intro h
              apply (ih rest d rel _ hrest).mpr
              cases h with
              | file d rel es e' hm hd hs =>
                rcases List.mem_cons.mp hm with h1 | h2
                · subst h1
                  rw [hs] at hsp
                  exact absurd hsp (by simp)
                · exact .file d rel _ e' h2 hd hs
              | dir d rel es e' hm hd hs =>
                rcases List.mem_cons.mp hm with h1 | h2
                · subst h1
                  exact absurd hd (by simp [FSNode.isDir])
                · exact .dir d rel _ e' h2 hd hs
              | deeper d rel es e' hm hd hs hl hnd hrec =>
                rcases List.mem_cons.mp hm with h1 | h2
                · subst h1
                  exact absurd hd (by simp [FSNode.isDir])
                · exact .deeper d rel _ e' h2 hd hs hl hnd hrec
          · rw [if_neg hsp]
            constructor
            · intro _
              exact .file d rel _ (FSNode.file fn fc fm fs)
                (List.mem_cons_self _ _) rfl (by
                  cases hv : spec (relJoin rel (FSNode.file fn fc fm fs).name)
                  · rfl
                  · exact absurd hv hsp)
            · intro _
              rfl
        | dir dn dc dm ds dl dch =>
          dsimp only
          by_cases hex : (spec (relJoin rel (FSNode.dir dn dc dm ds dl dch).name) ||
              spec (relJoin rel (FSNode.dir dn dc dm ds dl dch).name ++ "/")) = true
          · rw [if_pos hex]
            by_cases hnd : (if d > 0 then d - 1 else -1) = 0
            · rw [if_pos hnd]
              constructor
              · intro h
                exact VisPath_cons _ ((ih rest d rel _ hrest).mp h)
              · intro h
                apply (ih rest d rel _ hrest).mpr
                cases h with
                | file d rel es e' hm hd hs =>
                  rcases List.mem_cons.mp hm with h1 | h2
                  · subst h1
                    exact absurd hd (by simp [FSNode.isDir])
                  · exact .file d rel _ e' h2 hd hs
                | dir d rel es e' hm hd hs =>
                  rcases List.mem_cons.mp hm with h1 | h2
                  · subst h1
                    rw [hs] at hex
                    exact absurd hex (by simp)
                  · exact .dir d rel _ e' h2 hd hs
                | deeper d rel es e' hm hd hs hl hnd' hrec =>
                  rcases List.mem_cons.mp hm with h1 | h2
                  · subst h1
                    exact absurd hnd hnd'
                  · exact .deeper d rel _ e' h2 hd hs hl hnd' hrec
            · rw [if_neg hnd]
              have hch : fsSizeL dch ≤ n := by
                rw [fsSizeL_cons] at hN
                simp only [fsSize] at hN
                omega
              have hin := ih dch (if d > 0 then d - 1 else -1)
                (relJoin rel (FSNode.dir dn dc dm ds dl dch).name) [] hch
              by_cases hl : dl = true
              · rw [hvSubPure]
                rw [if_pos hl]
                by_cases hsub : hvPure spec (if d > 0 then d - 1 else -1)
                    (relJoin rel (FSNode.dir dn dc dm ds dl dch).name) [] dch = true
                · rw [if_pos hsub]
                  constructor
                  · intro _
                    exact .deeper d rel _ (FSNode.dir dn dc dm ds dl dch)
                      (List.mem_cons_self _ _) rfl hex (by simp [FSNode.dirData, hl])
                      hnd (hin.mp hsub)
                  · intro _
                    rfl
                · rw [if_neg hsub]
                  constructor
                  · intro h
                    exact VisPath_cons _ ((ih rest d rel _ hrest).mp h)
                  · intro h
                    apply (ih rest d rel _ hrest).mpr
                    cases h with
                    | file d rel es e' hm hd hs =>
                      rcases List.mem_cons.mp hm with h1 | h2
                      · subst h1
                        exact absurd hd (by simp [FSNode.isDir])
                      · exact .file d rel _ e' h2 hd hs
                    | dir d rel es e' hm hd hs =>
                      rcases List.mem_cons.mp hm with h1 | h2
                      · subst h1
                        rw [hs] at hex
                        exact absurd hex (by simp)
                      · exact .dir d rel _ e' h2 hd hs
                    | deeper d rel es e' hm hd hs hl' hnd' hrec =>
                      rcases List.mem_cons.mp hm with h1 | h2
                      · subst h1
                        exact absurd (hin.mpr hrec) hsub
                      · exact .deeper d rel _ e' h2 hd hs hl' hnd' hrec
              · rw [hvSubPure]
                rw [if_neg hl]
                rw [if_neg (by simp)]
                constructor
                · intro h
                  exact VisPath_cons _ ((ih rest d rel _ hrest).mp h)
                · intro h
                  apply (ih rest d rel _ hrest).mpr
                  cases h with
                  | file d rel es e' hm hd hs =>
                    rcases List.mem_cons.mp hm with h1 | h2
                    · subst h1
                      exact absurd hd (by simp [FSNode.isDir])
                    · exact .file d rel _ e' h2 hd hs
                  | dir d rel es e' hm hd hs =>
                    rcases List.mem_cons.mp hm with h1 | h2
                    · subst h1
                      rw [hs] at hex
                      exact absurd hex (by simp)
                    · exact .dir d rel _ e' h2 hd hs
                  | deeper d rel es e' hm hd hs hl' hnd' hrec =>
                    rcases List.mem_cons.mp hm with h1 | h2
                    · subst h1
                      simp [FSNode.dirData, hl] at hl'
                    · exact .deeper d rel _ e' h2 hd hs hl' hnd' hrec
          · rw [if_neg hex]
            constructor
            · intro _
              exact .dir d rel _ (FSNode.dir dn dc dm ds dl dch)
                (List.mem_cons_self _ _) rfl (by
                  cases hv : (spec (relJoin rel (FSNode.dir dn dc dm ds dl dch).name) ||
                      spec (relJoin rel (FSNode.dir dn dc dm ds dl dch).name ++ "/"))
                  · rfl
                  · exact absurd hv hex)
            · intro _
              rfl

instance : Membership (String × Bool) Cache :=
  ⟨fun c e => List.Mem e (c : List (String × Bool))⟩

theorem cacheLookup_none {c : Cache} {k : String}
    (h : ∀ v, ¬ (k, v) ∈ c) : cacheLookup c k = none := by
  rw [cacheLookup]
  rcases hf : List.find? (fun e => e.1 = k) c with _ | e0
  · rw [hf]
  · exfalso
    have hm := List.mem_of_find?_eq_some hf
    have hp := List.find?_some hf
    cases e0 with
    | mk k0 v0 =>
      have he : k0 = k := by simpa using hp
      subst he
      exact h v0 hm

theorem dirPathsL_sublist (rel : String) {l₁ l₂ : List FSNode}
    (h : List.Sublist l₁ l₂) :
    List.Sublist (dirPathsL rel l₁) (dirPathsL rel l₂) := by
  induction h with
  | slnil => exact List.Sublist.refl _
  | cons e h ih =>
    rw [dirPathsL]
    exact ih.trans (List.sublist_append_right _ _)
  | cons₂ e h ih =>
    rw [dirPathsL, dirPathsL]
    exact List.Sublist.append (List.Sublist.refl _) ih

/-- With a cache holding no key of the region about to be scanned, the
memoizing scan computes exactly the cache-free scan, and only adds keys
from that region. -/
theorem hvScan_pure (spec : Matcher) : ∀ (N : Nat) (es : List FSNode) (d : Int)
    (rel : String) (seen : List String) (cache : Cache), fsSizeL es ≤ N →
    (dirPathsL rel (dedupSeen seen es)).Nodup →
    (∀ k v, (k, v) ∈ cache → k ∉ dirPathsL rel (dedupSeen seen es)) →
    (hvScan spec d rel seen es cache).1 = hvPure spec d rel seen es ∧
    (∀ k v, (k, v) ∈ (hvScan spec d rel seen es cache).2 →
      (k, v) ∈ cache ∨ k ∈ dirPathsL rel (dedupSeen seen es)) := by
  intro N
  induction N with
  | zero =>
    intro es d rel seen cache hN hnodup havoid
    cases es with
    | nil => exact ⟨rfl, fun k v h => Or.inl h⟩
    | cons e rest =>
      exfalso
      have := fsSize_pos e
      rw [fsSizeL_cons] at hN
      omega
  | succ n ih =>
    intro es d rel seen cache hN hnodup havoid
    cases es with
    | nil => exact ⟨rfl, fun k v h => Or.inl h⟩
    | cons e rest =>
      have hrest : fsSizeL rest ≤ n := by
        have := fsSize_pos e
        rw [fsSizeL_cons] at hN
        omega
      by_cases hseen : e.name ∈ seen
      · have hded : dedupSeen seen (e :: rest) = dedupSeen seen rest := by
          rw [dedupSeen, if_pos hseen]
        have hstep : hvScan spec d rel seen (e :: rest) cache =
            hvScan spec d rel seen rest cache := by
          rw [hvScan.eq_def]
          dsimp only
          rw [if_pos hseen]
        have hp : hvPure spec d rel seen (e :: rest) =
            hvPure spec d rel seen rest := by
          rw [hvPure.eq_def]
          dsimp only
          rw [if_pos hseen]
        rw [hded] at hnodup havoid
        rw [hstep, hp, hded]
        exact ih rest d rel seen cache hrest hnodup havoid
      · have hded : dedupSeen seen (e :: rest) =
            e :: dedupSeen (e.name :: seen) rest := by
          rw [dedupSeen, if_neg hseen]
        rw [hded] at hnodup havoid
        rw [hded]
        rw [dirPathsL] at hnodup havoid ⊢
        cases e with
        | file fn fc fm fs =>
          simp only [dirPathsE, List.nil_append] at hnodup havoid ⊢
          have hstep : hvScan spec d rel seen (FSNode.file fn fc fm fs :: rest)
              cache =
              (if spec (relJoin rel (FSNode.file fn fc fm fs).name) then
                hvScan spec d rel ((FSNode.file fn fc fm fs).name :: seen) rest
                  cache
              else (true, cache)) := by
            rw [hvScan.eq_def]
            dsimp only
            rw [if_neg hseen]
          have hpstep : hvPure spec d rel seen (FSNode.file fn fc fm fs :: rest) =
              (if spec (relJoin rel (FSNode.file fn fc fm fs).name) then
                hvPure spec d rel ((FSNode.file fn fc fm fs).name :: seen) rest
              else true) := by
            rw [hvPure.eq_def]
            dsimp only
            rw [if_neg hseen]
          rw [hstep, hpstep]
          by_cases hsp : spec (relJoin rel (FSNode.file fn fc fm fs).name) = true
          · rw [if_pos hsp, if_pos hsp]
            exact ih rest d rel _ cache hrest hnodup havoid
          · rw [if_neg hsp, if_neg hsp]
            exact ⟨rfl, fun k v h => Or.inl h⟩
        | dir dn dc dm ds dl dch =>
          have hdpE : dirPathsE rel (FSNode.dir dn dc dm ds dl dch) =
              relJoin rel (FSNode.dir dn dc dm ds dl dch).name ::
                dirPathsL (relJoin rel (FSNode.dir dn dc dm ds dl dch).name)
                  dch := by
            rw [dirPathsE]
            rfl
          rw [hdpE] at hnodup havoid ⊢
          obtain ⟨hnd1, hnd2, hdisj⟩ := List.nodup_append.mp hnodup
          have hstep : hvScan spec d rel seen
              (FSNode.dir dn dc dm ds dl dch :: rest) cache =
              (if spec (relJoin rel (FSNode.dir dn dc dm ds dl dch).name) ||
                  spec (relJoin rel (FSNode.dir dn dc dm ds dl dch).name ++ "/")
                then
                if (if d > 0 then d - 1 else -1) = 0 then
                  hvScan spec d rel
                    ((FSNode.dir dn dc dm ds dl dch).name :: seen) rest cache
                else
                  (fun fc => if fc.1 then (true, fc.2)
                    else hvScan spec d rel
                      ((FSNode.dir dn dc dm ds dl dch).name :: seen) rest fc.2)
                  (hvSub spec (if d > 0 then d - 1 else -1)
                    (relJoin rel (FSNode.dir dn dc dm ds dl dch).name)
                    (FSNode.dir dn dc dm ds dl dch) cache)
              else (true, cache)) := by
            rw [hvScan.eq_def]
            dsimp only
            rw [if_neg hseen]
          have hpstep : hvPure spec d rel seen
              (FSNode.dir dn dc dm ds dl dch :: rest) =
              (if spec (relJoin rel (FSNode.dir dn dc dm ds dl dch).name) ||
                  spec (relJoin rel (FSNode.dir dn dc dm ds dl dch).name ++ "/")
                then
                if (if d > 0 then d - 1 else -1) = 0 then
                  hvPure spec d rel
                    ((FSNode.dir dn dc dm ds dl dch).name :: seen) rest
                else
                  if hvSubPure spec (if d > 0 then d - 1 else -1)
                      (relJoin rel (FSNode.dir dn dc dm ds dl dch).name)
                      (FSNode.dir dn dc dm ds dl dch) then true
                  else hvPure spec d rel
                    ((FSNode.dir dn dc dm ds dl dch).name :: seen) rest
              else true) := by
            rw [hvPure.eq_def]
            dsimp only
            rw [if_neg hseen]
          rw [hstep, hpstep]
          by_cases hex : (spec (relJoin rel (FSNode.dir dn dc dm ds dl dch).name) ||
              spec (relJoin rel (FSNode.dir dn dc dm ds dl dch).name ++ "/")) =
              true
          · rw [if_pos hex, if_pos hex]
            by_cases hnd0 : (if d > 0 then d - 1 else -1) = 0
            · rw [if_pos hnd0, if_pos hnd0]
              have havoid' : ∀ k v, (k, v) ∈ cache →
                  k ∉ dirPathsL rel
                    (dedupSeen ((FSNode.dir dn dc dm ds dl dch).name :: seen)
                      rest) :=
                fun k v hkv hk =>
                  havoid k v hkv (List.mem_append_right _ hk)
              obtain ⟨h1, h2⟩ := ih rest d rel _ cache hrest hnd2 havoid'
              exact ⟨h1, fun k v hk => (h2 k v hk).imp id
                (fun hkk => List.mem_append_right _ hkk)⟩
            · rw [if_neg hnd0, if_neg hnd0]
              have hlook : cacheLookup cache
                  (relJoin rel (FSNode.dir dn dc dm ds dl dch).name) = none := by
                apply cacheLookup_none
                intro v hv
                exact havoid _ v hv (List.mem_append_left _
                  (List.mem_cons_self _ _))
              have hchsize : fsSizeL dch ≤ n := by
                rw [fsSizeL_cons] at hN
                simp only [fsSize] at hN
                omega
              have hndInner : (dirPathsL
                  (relJoin rel (FSNode.dir dn dc dm ds dl dch).name)
                  (dedupSeen [] dch)).Nodup :=
                (List.Nodup.of_cons hnd1).sublist
                  (dirPathsL_sublist _ (dedupSeen_sublist dch []))
              have hsubInner : List.Sublist
                  (dirPathsL (relJoin rel (FSNode.dir dn dc dm ds dl dch).name)
                    (dedupSeen [] dch))
                  (dirPathsL (relJoin rel (FSNode.dir dn dc dm ds dl dch).name)
                    dch) :=
                dirPathsL_sublist _ (dedupSeen_sublist dch [])
              have havoidInner : ∀ k v, (k, v) ∈ cache →
                  k ∉ dirPathsL (relJoin rel
                    (FSNode.dir dn dc dm ds dl dch).name) (dedupSeen [] dch) :=
                fun k v hkv hk =>
                  havoid k v hkv (List.mem_append_left _
                    (List.mem_cons_of_mem _ (hsubInner.subset hk)))
              rw [hvSub]
              try dsimp only
              rw [hlook]
              dsimp only
              by_cases hdl : dl = true
              · rw [if_pos hdl]
                rcases hin : hvScan spec (if d > 0 then d - 1 else -1)
                    (relJoin rel (FSNode.dir dn dc dm ds dl dch).name) [] dch
                    cache with ⟨found, c1⟩
                obtain ⟨ihc1, ihc2⟩ := ih dch (if d > 0 then d - 1 else -1)
                  (relJoin rel (FSNode.dir dn dc dm ds dl dch).name) [] cache
                  hchsize hndInner havoidInner
                rw [hin] at ihc1 ihc2
                dsimp only at ihc1 ihc2
                have hsubp : hvSubPure spec (if d > 0 then d - 1 else -1)
                    (relJoin rel (FSNode.dir dn dc dm ds dl dch).name)
                    (FSNode.dir dn dc dm ds dl dch) = found := by
                  rw [hvSubPure]
                  rw [if_pos hdl]
                  rw [← ihc1]
                dsimp only
                rw [hsubp]
                by_cases hfound : found = true
                · subst hfound
                  rw [if_pos rfl, if_pos rfl]
                  refine ⟨rfl, ?_⟩
                  intro k v hk
                  rcases List.mem_cons.mp hk with h1 | h2
                  · right
                    apply List.mem_append_left
                    rw [(Prod.mk.injEq _ _ _ _).mp h1 |>.1]
                    exact List.mem_cons_self _ _
                  · rcases ihc2 k v h2 with hc | hr
                    · exact Or.inl hc
                    · exact Or.inr (List.mem_append_left _
                        (List.mem_cons_of_mem _ (hsubInner.subset hr)))
                · have hff : found = false := by
                    cases found
                    · rfl
                    · exact absurd rfl hfound
                  subst hff
                  rw [if_neg (by simp), if_neg (by simp)]
                  have havoid2 : ∀ k v,
                      (k, v) ∈ cacheInsert c1
                        (relJoin rel (FSNode.dir dn dc dm ds dl dch).name)
                        false →
                      k ∉ dirPathsL rel
                        (dedupSeen ((FSNode.dir dn dc dm ds dl dch).name :: seen)
                          rest) := by
                    intro k v hk hkk
                    rcases List.mem_cons.mp hk with h1 | h2
                    · have hkrel := (Prod.mk.injEq _ _ _ _).mp h1 |>.1
                      subst hkrel
                      exact hdisj (List.mem_cons_self _ _) hkk
                    · rcases ihc2 k v h2 with hc | hr
                      · exact havoid k v hc (List.mem_append_right _ hkk)
                      · exact hdisj
                          (List.mem_cons_of_mem _ (hsubInner.subset hr)) hkk
                  obtain ⟨ihr1, ihr2⟩ := ih rest d rel _
                    (cacheInsert c1
                      (relJoin rel (FSNode.dir dn dc dm ds dl dch).name) false)
                    hrest hnd2 havoid2
                  refine ⟨ihr1, ?_⟩
                  intro k v hk
                  rcases ihr2 k v hk with hc | hr
                  · rcases List.mem_cons.mp hc with h1 | h2
                    · right
                      apply List.mem_append_left
                      rw [(Prod.mk.injEq _ _ _ _).mp h1 |>.1]
                      exact List.mem_cons_self _ _
                    · rcases ihc2 k v h2 with hc2 | hr2
                      · exact Or.inl hc2
                      · exact Or.inr (List.mem_append_left _
                          (List.mem_cons_of_mem _ (hsubInner.subset hr2)))
                  · exact Or.inr (List.mem_append_right _ hr)
              · rw [if_neg hdl]
                have hsubp : hvSubPure spec (if d > 0 then d - 1 else -1)
                    (relJoin rel (FSNode.dir dn dc dm ds dl dch).name)
                    (FSNode.dir dn dc dm ds dl dch) = false := by
                  rw [hvSubPure]
                  rw [if_neg hdl]
                dsimp only
                rw [hsubp]
                rw [if_neg (by simp), if_neg (by simp)]
                have havoid2 : ∀ k v,
                    (k, v) ∈ cacheInsert cache
                      (relJoin rel (FSNode.dir dn dc dm ds dl dch).name) false →
                    k ∉ dirPathsL rel
                      (dedupSeen ((FSNode.dir dn dc dm ds dl dch).name :: seen)
                        rest) := by
                  intro k v hk hkk
                  rcases List.mem_cons.mp hk with h1 | h2
                  · have hkrel := (Prod.mk.injEq _ _ _ _).mp h1 |>.1
                    subst hkrel
                    exact hdisj (List.mem_cons_self _ _) hkk
                  · exact havoid k v h2 (List.mem_append_right _ hkk)
                obtain ⟨ihr1, ihr2⟩ := ih rest d rel _
                  (cacheInsert cache
                    (relJoin rel (FSNode.dir dn dc dm ds dl dch).name) false)
                  hrest hnd2 havoid2
                refine ⟨ihr1, ?_⟩
                intro k v hk
                rcases ihr2 k v hk with hc | hr
                · rcases List.mem_cons.mp hc with h1 | h2
                  · right
                    apply List.mem_append_left
                    rw [(Prod.mk.injEq _ _ _ _).mp h1 |>.1]
                    exact List.mem_cons_self _ _
                  · exact Or.inl h2
                · exact Or.inr (List.mem_append_right _ hr)
          · rw [if_neg hex, if_neg hex]
            exact ⟨rfl, fun k v h => Or.inl h⟩

/-- `_directory_has_visible_entries` with a fresh cache equals the
cache-free scan. -/
theorem hasVisible_pure (spec : Matcher) (d : Int) (rel : String)
    (dir : FSDir) (h : (dirPathsL rel (dedupByName dir.children)).Nodup) :
    (hasVisible spec d rel dir []).1 =
      (if d = 0 then false
       else if dir.listOk then hvPure spec d rel [] dir.children
       else false) := by
  rw [hasVisible]
  by_cases hd : d = 0
  · rw [if_pos hd, if_pos hd]
  · rw [if_neg hd, if_neg hd]
    have hlook : cacheLookup ([] : Cache) rel = none := rfl
    rw [hlook]
    dsimp only
    by_cases hl : dir.listOk = true
    · rw [if_pos hl, if_pos hl]
      rcases hs : hvScan spec d rel [] dir.children [] with ⟨found, c1⟩
      obtain ⟨h1, _⟩ := hvScan_pure spec (fsSizeL dir.children) dir.children d
        rel [] [] (Nat.le_refl _) h
        (by intro k v hkv
            exact absurd hkv (List.not_mem_nil _))
      rw [hs] at h1
      dsimp only at h1
      exact h1
    · rw [if_neg hl, if_neg hl]

/-- C4 (amended): with unambiguous directory paths, the look-ahead that
decides whether an excluded directory is kept returns true exactly when a
chain of excluded listable subdirectories (possibly empty) leads to a
non-excluded entry, where the budget `d` decreases by one per level, `0`
cuts the search and any negative budget is unlimited.  The caller passes
`d = remaining_depth − 1`, so the search reaches one level less than the
rendered tree would (and at `remaining_depth = 0`, where the claim expects
nothing visible, the `0 → −1` wrap makes it unlimited instead). -/
theorem claim_C4 (spec : Matcher) (d : Int) (rel : String) (dir : FSDir)
    (h : (dirPathsL rel (dedupByName dir.children)).Nodup) :
    (hasVisible spec d rel dir []).1 = true ↔
      (d ≠ 0 ∧ dir.listOk = true ∧
        VisPath spec d rel (dedupByName dir.children)) := by
  rw [hasVisible_pure spec d rel dir h]
  by_cases hd : d = 0
  · rw [if_pos hd]
    constructor
    · intro hfalse
      exact absurd hfalse (by simp)
    · intro ⟨hne, _, _⟩
      exact absurd hd hne
  · rw [if_neg hd]
    by_cases hl : dir.listOk = true
    · rw [if_pos hl]
      constructor
      · intro hv
        exact ⟨hd, hl, (hvPure_iff spec (fsSizeL dir.children) dir.children d
          rel [] (Nat.le_refl _)).mp hv⟩
      · intro ⟨_, _, hv⟩
        exact (hvPure_iff spec (fsSizeL dir.children) dir.children d rel []
          (Nat.le_refl _)).mpr hv
    · rw [if_neg hl]
      constructor
      · intro hfalse
        exact absurd hfalse (by simp)
      · intro ⟨_, hl', _⟩
        exact absurd hl' hl

/-- Witness for C4 (amended) on `{x/{f}}` with `x` excluded and budget 2. -/
theorem claim_C4_witness :
    ((dirPathsL ""
        (dedupByName [FSNode.dir "x" 1 1 true true [.file "f" 2 2 true]])).Nodup) ∧
    ((hasVisible (fun s => s == "x" || s == "x/") 2 ""
        ⟨true, [FSNode.dir "x" 1 1 true true [.file "f" 2 2 true]]⟩ []).1 = true ↔
      ((2 : Int) ≠ 0 ∧
        (⟨true, [FSNode.dir "x" 1 1 true true [.file "f" 2 2 true]]⟩ :
          FSDir).listOk = true ∧
        VisPath (fun s => s == "x" || s == "x/") 2 ""
          (dedupByName [FSNode.dir "x" 1 1 true true [.file "f" 2 2 true]]))) :=
  ⟨by decide,
   claim_C4 (fun s => s == "x" || s == "x/") 2 ""
     ⟨true, [FSNode.dir "x" 1 1 true true [.file "f" 2 2 true]]⟩ (by decide)⟩

/-- C4 counterexample, both directions of the off-by-one at the depth
boundary, end to end over `root/{x/{f}}` with `x` excluded (`f` is not):
with `max_depth = 1` the excluded `x` is rendered although it has no
non-excluded descendant within the remaining depth (nothing below `x` can
be rendered); with `max_depth = 2` the excluded `x` is dropped although
its non-excluded child `f` is within the depth limit (at `max_depth = 3`
`x/f` is indeed rendered). -/
theorem claim_C4_counterexample :
    (fileTree (some (.dir "root" 0 0 true true
        [.dir "x" 1 1 true true [.file "f" 2 2 true]])) ""
        { maxDepth := 1 } (some "x")
        (fun _ => fun s => s == "x" || s == "x/") (fun _ => none) "/a" =
      .ok (.str "root/\n└── x/")) ∧
    (fileTree (some (.dir "root" 0 0 true true
        [.dir "x" 1 1 true true [.file "f" 2 2 true]])) ""
        { maxDepth := 2 } (some "x")
        (fun _ => fun s => s == "x" || s == "x/") (fun _ => none) "/a" =
      .ok (.str "root/")) ∧
    (fileTree (some (.dir "root" 0 0 true true
        [.dir "x" 1 1 true true [.file "f" 2 2 true]])) ""
        { maxDepth := 3 } (some "x")
        (fun _ => fun s => s == "x" || s == "x/") (fun _ => none) "/a" =
      .ok (.str "root/\n└── x/\n    └── f")) := by
  refine ⟨?_, ?_, ?_⟩
  · rw [← fileTreeF_eq]
    rfl
  · rw [← fileTreeF_eq]
    rfl
  · rw [← fileTreeF_eq]
    rfl

/-! ### C1: the global line budget bounds the rendered entries -/

theorem pyEndsWith_append (a b : String) : pyEndsWith (a ++ b) b = true := by
  rw [pyEndsWith]
  have hd : (a ++ b).data = a.data ++ b.data := rfl
  rw [hd]
  rw [List.isSuffixOf_iff_suffix]
  exact List.suffix_append a.data b.data

theorem isGlobalSummary_global (parent : TE) (hidden : List TE) (u : Nat) :
    isGlobalSummary (createGlobalLimitComment parent hidden u) = true := by
  rw [isGlobalSummary]
  have h1 : (createGlobalLimitComment parent hidden u).itemType =
      ItemType.comment := rfl
  have h2 : (createGlobalLimitComment parent hidden u).relPath =
      parent.relPath ++ "#summary:limit" := rfl
  rw [h1, h2]
  simp [pyEndsWith_append]

/-- The budget loop increments the counter by exactly the number of kept
non-global entries, and never lets it pass the cap. -/
theorem consumeChildren_rc (ml : Int) : ∀ (cs : List TE) (rc : Nat),
    (consumeChildren ml rc cs).2.2.1 =
      rc + ((consumeChildren ml rc cs).1.filter
        (fun te => !(isGlobalSummary te))).length ∧
    (ml ≠ 0 → (rc : Int) ≤ ml → ((consumeChildren ml rc cs).2.2.1 : Int) ≤ ml) := by
  intro cs
  induction cs with
  | nil =>
    intro rc
    exact ⟨by simp [consumeChildren], fun _ h => h⟩
  | cons c rest ih =>
    intro rc
    rw [consumeChildren]
    by_cases h : ml ≠ 0 ∧ (rc : Int) ≥ ml
    · rw [if_pos h]
      exact ⟨by simp, fun _ hle => hle⟩
    · rw [if_neg h]
      dsimp only
      constructor
      · rw [List.filter_cons]
        by_cases hg : isGlobalSummary c = true
        · simp only [hg, eq_self_iff_true, if_true, Bool.not_true,
            Bool.false_eq_true, if_false]
          exact (ih rc).1
        · have hgf : isGlobalSummary c = false := by
            cases hgv : isGlobalSummary c
            · rfl
            · exact absurd hgv hg
          simp only [hgf, Bool.false_eq_true, if_false, Bool.not_false,
            if_true, List.length_cons]
          rw [(ih (rc + 1)).1]
          omega
      · intro hml hle
        by_cases hg : isGlobalSummary c = true
        · simp only [hg, eq_self_iff_true, if_true]
          exact (ih rc).2 hml hle
        · have hgf : isGlobalSummary c = false := by
            cases hgv : isGlobalSummary c
            · rfl
            · exact absurd hgv hg
          simp only [hgf, Bool.false_eq_true, if_false]
          apply (ih (rc + 1)).2 hml
          have hlt : (rc : Int) < ml := by
            rcases not_and_or.mp h with h0 | h1
            · exact absurd hml (by simpa using h0)
            · omega
          push_cast
          omega

/-- `make_entry` hands out consecutive fresh identities. -/
theorem makeEntries_uid {es : List FSNode} {pr : String} {lv : Int}
    {u u' : Nat} {tes : List TE} (h : makeEntries es pr lv u = .ok (tes, u')) :
    u ≤ u' ∧ (∀ te ∈ tes, u ≤ te.uid ∧ te.uid < u') ∧
    (tes.map TE.uid).Nodup := by
  induction es generalizing u u' tes with
  | nil =>
    rw [makeEntries] at h
    injection h with h
    injection h with h1 h2
    subst h1
    subst h2
    exact ⟨Nat.le_refl _, by simp, by simp⟩
  | cons e rest ih =>
    rw [makeEntries] at h
    rcases hme : makeEntry e pr lv u with her | te₀
    · rw [hme] at h
      exact absurd h (by simp)
    · rw [hme] at h
      rcases hms : makeEntries rest pr lv (u + 1) with her | ⟨tes₀, u₀⟩
      · rw [hms] at h
        exact absurd h (by simp)
      · rw [hms] at h
        injection h with h
        injection h with h1 h2
        subst h1
        subst h2
        obtain ⟨ihl, ihm, ihn⟩ := ih hms
        have hu0 : te₀.uid = u := by
          rw [makeEntry] at hme
          by_cases hs : e.statOk = true
          · rw [if_pos hs] at hme
            injection hme with hme
            subst hme
            rfl
          · simp only [Bool.not_eq_true] at hs
            rw [hs] at hme
            exact absurd hme (by simp)
        refine ⟨by omega, ?_, ?_⟩
        · intro te hte
          rcases List.mem_cons.mp hte with h1 | h2
          · subst h1
            omega
          · obtain ⟨ha, hb⟩ := ihm te h2
            omega
        · simp only [List.map_cons, List.nodup_cons]
          refine ⟨?_, ihn⟩
          intro hmem
          obtain ⟨te, hte, hteq⟩ := List.mem_map.mp hmem
          obtain ⟨ha, _⟩ := ihm te hte
          omega

/-- `append_group` keeps group members and mints at most one fresh identity
for its summary comment. -/
theorem appendGroup_uid (dn : TE) (g : List TE) (lim : Int) (noun : String)
    (u : Nat) :
    u ≤ (appendGroup dn g lim noun u).2 ∧
    (∀ te ∈ (appendGroup dn g lim noun u).1,
      te ∈ g ∨ (u ≤ te.uid ∧ te.uid < (appendGroup dn g lim noun u).2)) ∧
    ((∀ te ∈ g, te.uid < u) → (g.map TE.uid).Nodup →
      (((appendGroup dn g lim noun u).1).map TE.uid).Nodup) := by
  rw [appendGroup]
  by_cases hg : g = []
  · subst hg
    simp
  · simp only [if_neg hg]
    by_cases hl : lim = 0
    · simp only [hl, if_pos rfl]
      exact ⟨Nat.le_refl _, fun te hte => Or.inl hte, fun _ hn => hn⟩
    · simp only [if_neg hl]
      try dsimp only
      by_cases ho : g.drop (max lim 0).toNat = []
      · simp only [ho, if_pos rfl]
        exact ⟨Nat.le_refl _,
          fun te hte => Or.inl (List.mem_of_mem_take hte),
          fun _ hn => hn.sublist ((List.take_sublist _ _).map _)⟩
      · simp only [ho, if_false]
        refine ⟨Nat.le_succ _, ?_, ?_⟩
        · intro te hte
          rcases List.mem_append.mp hte with h1 | h2
          · exact Or.inl (List.mem_of_mem_take h1)
          · rcases List.mem_singleton.mp h2 with rfl
            exact Or.inr ⟨Nat.le_refl _, Nat.lt_succ_self _⟩
        · intro hlt hn
          rw [List.map_append]
          rw [List.nodup_append]
          refine ⟨hn.sublist ((List.take_sublist _ _).map _), by simp, ?_⟩
          intro a ha hb
          simp only [List.map_cons, List.map_nil, List.mem_singleton] at hb
          obtain ⟨te, hte, hteq⟩ := List.mem_map.mp ha
          have := hlt te (List.mem_of_mem_take hte)
          have hcu : (createSummaryComment dn noun
              (g.drop (max lim 0).toNat).length u).uid = u := rfl
          rw [hcu] at hb
          omega

/-- `_apply_sorting_and_limits` keeps the given entries plus at most two
fresh-identity comments, and preserves identity distinctness. -/
theorem applySorting_uid (folders files : List TE) (ff : Bool) (sk sd : String)
    (mfo mfi : Int) (dn : TE) (u : Nat)
    (hlt : ∀ te ∈ folders ++ files, te.uid < u)
    (hn : ((folders ++ files).map TE.uid).Nodup) :
    u ≤ (applySortingAndLimits folders files ff sk sd mfo mfi dn u).2 ∧
    (∀ te ∈ (applySortingAndLimits folders files ff sk sd mfo mfi dn u).1,
      te ∈ folders ++ files ∨
      (u ≤ te.uid ∧
        te.uid < (applySortingAndLimits folders files ff sk sd mfo mfi dn u).2)) ∧
    (((applySortingAndLimits folders files ff sk sd mfo mfi dn u).1).map
      TE.uid).Nodup := by
  rw [List.map_append, List.nodup_append] at hn
  obtain ⟨hnf, hnl, hdisj⟩ := hn
  have hpF : List.Perm (pySortedTE sk sd folders) folders :=
    List.perm_insertionSort _ _
  have hpL : List.Perm (pySortedTE sk sd files) files :=
    List.perm_insertionSort _ _
  have hnF : ((pySortedTE sk sd folders).map TE.uid).Nodup :=
    ((hpF.map TE.uid).nodup_iff).mpr hnf
  have hnL : ((pySortedTE sk sd files).map TE.uid).Nodup :=
    ((hpL.map TE.uid).nodup_iff).mpr hnl
  have hltF : ∀ te ∈ pySortedTE sk sd folders, te.uid < u := fun te h =>
    hlt te (List.mem_append_left _ (hpF.subset h))
  have hltL : ∀ te ∈ pySortedTE sk sd files, te.uid < u := fun te h =>
    hlt te (List.mem_append_right _ (hpL.subset h))
  rw [applySortingAndLimits]
  cases ff
  · simp only [Bool.false_eq_true, if_false]
    obtain ⟨hle1, hmem1, hnod1⟩ :=
      appendGroup_uid dn (pySortedTE sk sd files) mfi "file" u
    obtain ⟨hle2, hmem2, hnod2⟩ :=
      appendGroup_uid dn (pySortedTE sk sd folders) mfo "folder"
        (appendGroup dn (pySortedTE sk sd files) mfi "file" u).2
    refine ⟨Nat.le_trans hle1 hle2, ?_, ?_⟩
    · intro te hte
      rcases List.mem_append.mp hte with h1 | h2
      · rcases hmem1 te h1 with hin | ⟨ha, hb⟩
        · exact Or.inl (List.mem_append_right _ (hpL.subset hin))
        · exact Or.inr ⟨ha, Nat.lt_of_lt_of_le hb hle2⟩
      · rcases hmem2 te h2 with hin | ⟨ha, hb⟩
        · exact Or.inl (List.mem_append_left _ (hpF.subset hin))
        · exact Or.inr ⟨Nat.le_trans hle1 ha, hb⟩
    · rw [List.map_append, List.nodup_append]
      refine ⟨hnod1 hltL hnL, hnod2 (fun te h =>
        Nat.lt_of_lt_of_le (hltF te h) hle1) hnF, ?_⟩
      intro a ha hb
      obtain ⟨t1, ht1, he1⟩ := List.mem_map.mp ha
      obtain ⟨t2, ht2, he2⟩ := List.mem_map.mp hb
      subst he1
      rcases hmem1 t1 ht1 with hin1 | ⟨ha1, hb1⟩ <;>
        rcases hmem2 t2 ht2 with hin2 | ⟨ha2, hb2⟩
      · exact hdisj (List.mem_map_of_mem TE.uid (hpF.subset hin2))
          (by rw [he2]; exact List.mem_map_of_mem TE.uid (hpL.subset hin1))
      · have h1 := hltL t1 hin1
        omega
      · have h2 := hltF t2 hin2
        have := Nat.lt_of_lt_of_le h2 hle1
        omega
      · omega
  · simp only [if_true]
    obtain ⟨hle1, hmem1, hnod1⟩ :=
      appendGroup_uid dn (pySortedTE sk sd folders) mfo "folder" u
    obtain ⟨hle2, hmem2, hnod2⟩ :=
      appendGroup_uid dn (pySortedTE sk sd files) mfi "file"
        (appendGroup dn (pySortedTE sk sd folders) mfo "folder" u).2
    refine ⟨Nat.le_trans hle1 hle2, ?_, ?_⟩
    · intro te hte
      rcases List.mem_append.mp hte with h1 | h2
      · rcases hmem1 te h1 with hin | ⟨ha, hb⟩
        · exact Or.inl (List.mem_append_left _ (hpF.subset hin))
        · exact Or.inr ⟨ha, Nat.lt_of_lt_of_le hb hle2⟩
      · rcases hmem2 te h2 with hin | ⟨ha, hb⟩
        · exact Or.inl (List.mem_append_right _ (hpL.subset hin))
        · exact Or.inr ⟨Nat.le_trans hle1 ha, hb⟩
    · rw [List.map_append, List.nodup_append]
      refine ⟨hnod1 hltF hnF, hnod2 (fun te h =>
        Nat.lt_of_lt_of_le (hltL te h) hle1) hnL, ?_⟩
      intro a ha hb
      obtain ⟨t1, ht1, he1⟩ := List.mem_map.mp ha
      obtain ⟨t2, ht2, he2⟩ := List.mem_map.mp hb
      subst he1
      rcases hmem1 t1 ht1 with hin1 | ⟨ha1, hb1⟩ <;>
        rcases hmem2 t2 ht2 with hin2 | ⟨ha2, hb2⟩
      · exact hdisj (List.mem_map_of_mem TE.uid (hpF.subset hin1))
          (by rw [← he2]; exact List.mem_map_of_mem TE.uid (hpL.subset hin2))
      · have h1 := hltF t1 hin1
        omega
      · have h2 := hltL t2 hin2
        have := Nat.lt_of_lt_of_le h2 hle1
        omega
      · omega

/-- Entries of an optional children list, as the `eLeaf` condition. -/
def eLeafO (u : Nat) (te0 : TE) : Option (List TreeN) → Prop
  | none => True
  | some ts => eLeafL u te0 ts

theorem eLeafT_of_not_mem {u : Nat} {te0 : TE} : ∀ t : TreeN,
    u ∉ (dfsT t).map TE.uid → eLeafT u te0 t := by
  apply treeInd (fun t => u ∉ (dfsT t).map TE.uid → eLeafT u te0 t)
    (fun ts => u ∉ (dfsL ts).map TE.uid → eLeafL u te0 ts)
  · intro te h
    rw [eLeafT]
    intro he
    exact h (by simp [dfsT, he])
  · intro te ts hQ h
    rw [eLeafT]
    simp only [dfsT, List.map_cons, List.mem_cons] at h
    push_neg at h
    exact ⟨fun he => absurd he.symm h.1, hQ h.2⟩
  · intro _
    rw [eLeafL]
    trivial
  · intro t ts hP hQ h
    simp only [dfsL, List.map_append, List.mem_append] at h
    push_neg at h
    rw [eLeafL]
    exact ⟨hP h.1, hQ h.2⟩

theorem attachSet_not_mem {u : Nat} {X : Option (List TreeN)} : ∀ t : TreeN,
    u ∉ (dfsT t).map TE.uid → attachSet t u X = t := by
  apply treeInd (fun t => u ∉ (dfsT t).map TE.uid → attachSet t u X = t)
    (fun ts => u ∉ (dfsL ts).map TE.uid → attachSetL ts u X = ts)
  · intro te h
    rw [attachSet]
    rw [if_neg (fun he => h (by simp [dfsT, he]))]
  · intro te ts hQ h
    simp only [dfsT, List.map_cons, List.mem_cons] at h
    push_neg at h
    rw [attachSet]
    rw [if_neg (fun he => h.1 he.symm)]
    rw [hQ h.2]
  · intro _
    rfl
  · intro t ts hP hQ h
    simp only [dfsL, List.map_append, List.mem_append] at h
    push_neg at h
    rw [attachSetL]
    rw [hP h.1, hQ h.2]

theorem attachSetL_not_mem {u : Nat} {X : Option (List TreeN)}
    (ts : List TreeN) (h : u ∉ (dfsL ts).map TE.uid) :
    attachSetL ts u X = ts := by
  induction ts with
  | nil => rfl
  | cons t rest ih =>
    simp only [dfsL, List.map_append, List.mem_append] at h
    push_neg at h
    rw [attachSetL]
    rw [attachSet_not_mem t h.1, ih h.2]

/-- Replacing the items of the unique childless node carrying `u` adds
exactly the new entries to the depth-first listing. -/
theorem attachSet_perm {u : Nat} {te0 : TE} {X : Option (List TreeN)} :
    ∀ t : TreeN, eLeafT u te0 t → ((dfsT t).map TE.uid).Nodup →
    u ∈ (dfsT t).map TE.uid →
    List.Perm (dfsT (attachSet t u X)) (dfsT t ++ dfsO X) := by
  apply treeInd (fun t => eLeafT u te0 t → ((dfsT t).map TE.uid).Nodup →
      u ∈ (dfsT t).map TE.uid →
      List.Perm (dfsT (attachSet t u X)) (dfsT t ++ dfsO X))
    (fun ts => eLeafL u te0 ts → ((dfsL ts).map TE.uid).Nodup →
      u ∈ (dfsL ts).map TE.uid →
      List.Perm (dfsL (attachSetL ts u X)) (dfsL ts ++ dfsO X))
  · intro te hE _ hmem
    rw [eLeafT] at hE
    simp only [dfsT, List.map_cons, List.map_nil, List.mem_singleton] at hmem
    exact absurd hmem.symm hE
  · intro te ts hQ hE hnd hmem
    rw [eLeafT] at hE
    obtain ⟨hcond, hL⟩ := hE
    simp only [dfsT, List.map_cons, List.mem_cons] at hmem
    by_cases hu : te.uid = u
    · obtain ⟨hte, hts⟩ := hcond hu
      subst hts
      rw [attachSet]
      rw [if_pos hu]
      cases X with
      | none => simp [dfsT, dfsO, dfsL]
      | some ys => simp [dfsT, dfsO, dfsL]
    · rcases hmem with h1 | h2
      · exact absurd h1.symm hu
      · rw [attachSet]
        rw [if_neg hu]
        simp only [dfsT]
        simp only [dfsT, List.map_cons, List.nodup_cons] at hnd
        exact List.Perm.cons te (hQ hL hnd.2 h2)
  · intro _ _ hmem
    simp [dfsL] at hmem
  · intro t ts hP hQ hE hnd hmem
    obtain ⟨hEt, hEts⟩ := hE
    simp only [dfsL, List.map_append, List.mem_append] at hmem
    simp only [dfsL, List.map_append] at hnd
    obtain ⟨hnd1, hnd2, hdj⟩ := List.nodup_append.mp hnd
    rw [attachSetL]
    rcases hmem with h1 | h2
    · have hnot2 : u ∉ (dfsL ts).map TE.uid := fun hc => hdj h1 hc
      rw [attachSetL_not_mem ts hnot2]
      simp only [dfsL]
      refine ((hP hEt hnd1 h1).append_right _).trans ?_
      rw [List.append_assoc, List.append_assoc]
      exact List.Perm.append_left _ List.perm_append_comm
    · have hnot1 : u ∉ (dfsT t).map TE.uid := fun hc => hdj hc h2
      rw [attachSet_not_mem t hnot1]
      simp only [dfsL]
      refine (List.Perm.append_left _ (hQ hEts hnd2 h2)).trans ?_
      rw [List.append_assoc]

/-- Attaching under one identity keeps the childless-placeholder property
of a different identity, provided the new entries keep it too. -/
theorem attachSet_eLeaf {u u' : Nat} {te' : TE} {X : Option (List TreeN)}
    (hne : u' ≠ u) (hX : eLeafO u' te' X) : ∀ t : TreeN,
    eLeafT u' te' t → eLeafT u' te' (attachSet t u X) := by
  apply treeInd (fun t => eLeafT u' te' t → eLeafT u' te' (attachSet t u X))
    (fun ts => eLeafL u' te' ts → eLeafL u' te' (attachSetL ts u X))
  · intro te hE
    rw [attachSet]
    by_cases hu : te.uid = u
    · rw [if_pos hu]
      cases X with
      | none => exact hE
      | some ys =>
        rw [eLeafT]
        exact ⟨fun he => absurd (he ▸ hu) hne, hX⟩
    · rw [if_neg hu]
      exact hE
  · intro te ts hQ hE
    obtain ⟨hcond, hL⟩ := hE
    rw [attachSet]
    by_cases hu : te.uid = u
    · rw [if_pos hu]
      cases X with
      | none =>
        rw [eLeafT]
        intro he
        exact absurd (he ▸ hu) hne
      | some ys =>
        rw [eLeafT]
        exact ⟨fun he => absurd (he ▸ hu) hne, hX⟩
    · rw [if_neg hu]
      rw [eLeafT]
      refine ⟨?_, hQ hL⟩
      intro he
      refine ⟨(hcond he).1, ?_⟩
      rw [(hcond he).2]
      rfl
  · intro _
    exact trivial
  · intro t ts hP hQ hE
    obtain ⟨hE1, hE2⟩ := hE
    rw [attachSetL]
    exact ⟨hP hE1, hQ hE2⟩

/-- A fresh identity's placeholder property holds after attaching, as long
as the new entries provide it. -/
theorem attachSet_eLeaf_fresh {u u' : Nat} {te' : TE}
    {X : Option (List TreeN)} (hX : eLeafO u' te' X) : ∀ t : TreeN,
    u' ∉ (dfsT t).map TE.uid → eLeafT u' te' (attachSet t u X) := by
  apply treeInd
    (fun t => u' ∉ (dfsT t).map TE.uid → eLeafT u' te' (attachSet t u X))
    (fun ts => u' ∉ (dfsL ts).map TE.uid → eLeafL u' te' (attachSetL ts u X))
  · intro te h
    have hne : te.uid ≠ u' := fun he => h (by simp [dfsT, he])
    rw [attachSet]
    by_cases hu : te.uid = u
    · rw [if_pos hu]
      cases X with
      | none =>
        rw [eLeafT]
        intro he
        exact hne he
      | some ys =>
        rw [eLeafT]
        exact ⟨fun he => absurd he hne, hX⟩
    · rw [if_neg hu]
      rw [eLeafT]
      intro he
      exact hne he
  · intro te ts hQ h
    simp only [dfsT, List.map_cons, List.mem_cons] at h
    push_neg at h
    have hne : te.uid ≠ u' := fun he => h.1 he.symm
    rw [attachSet]
    by_cases hu : te.uid = u
    · rw [if_pos hu]
      cases X with
      | none =>
        rw [eLeafT]
        intro he
        exact hne he
      | some ys =>
        rw [eLeafT]
        exact ⟨fun he => absurd he hne, hX⟩
    · rw [if_neg hu]
      rw [eLeafT]
      exact ⟨fun he => absurd he hne, hQ h.2⟩
  · intro _
    exact trivial
  · intro t ts hP hQ h
    simp only [dfsL, List.map_append, List.mem_append] at h
    push_neg at h
    rw [attachSetL]
    exact ⟨hP h.1, hQ h.2⟩

/-- Fresh leaves satisfy the placeholder property for the identity of the
unique folder entry among them. -/
theorem eLeafL_teToLeaf {u : Nat} {te0 : TE} {l : List TE}
    (h : ∀ c ∈ l, c.uid = u → c = te0 ∧ c.itemType = ItemType.folder) :
    eLeafL u te0 (l.map teToLeaf) := by
  induction l with
  | nil => exact trivial
  | cons c rest ih =>
    simp only [List.map_cons]
    constructor
    · rw [teToLeaf]
      by_cases hf : c.itemType = ItemType.folder
      · rw [if_pos hf]
        rw [eLeafT]
        exact ⟨fun he => ⟨(h c (List.mem_cons_self _ _) he).1, rfl⟩, trivial⟩
      · rw [if_neg hf]
        rw [eLeafT]
        intro he
        exact hf (h c (List.mem_cons_self _ _) he).2
    · exact ih (fun c' hc' => h c' (List.mem_cons_of_mem _ hc'))

theorem attachAppend_not_mem {u : Nat} {ex : List TreeN} : ∀ t : TreeN,
    u ∉ (dfsT t).map TE.uid → attachAppend t u ex = t := by
  apply treeInd (fun t => u ∉ (dfsT t).map TE.uid → attachAppend t u ex = t)
    (fun ts => u ∉ (dfsL ts).map TE.uid → attachAppendL ts u ex = ts)
  · intro te h
    rw [attachAppend]
    rw [if_neg (fun he => h (by simp [dfsT, he]))]
  · intro te ts hQ h
    simp only [dfsT, List.map_cons, List.mem_cons] at h
    push_neg at h
    rw [attachAppend]
    rw [if_neg (fun he => h.1 he.symm)]
    rw [hQ h.2]
  · intro _
    rfl
  · intro t ts hP hQ h
    simp only [dfsL, List.map_append, List.mem_append] at h
    push_neg at h
    rw [attachAppendL]
    rw [hP h.1, hQ h.2]

theorem attachAppendL_not_mem {u : Nat} {ex : List TreeN} (ts : List TreeN)
    (h : u ∉ (dfsL ts).map TE.uid) : attachAppendL ts u ex = ts := by
  induction ts with
  | nil => rfl
  | cons t rest ih =>
    simp only [dfsL, List.map_append, List.mem_append] at h
    push_neg at h
    rw [attachAppendL]
    rw [attachAppend_not_mem t h.1, ih h.2]

/-- Appending under the unique node carrying `u` adds exactly the new
entries to the depth-first listing. -/
theorem attachAppend_perm {u : Nat} {ex : List TreeN} : ∀ t : TreeN,
    ((dfsT t).map TE.uid).Nodup → u ∈ (dfsT t).map TE.uid →
    List.Perm (dfsT (attachAppend t u ex)) (dfsT t ++ dfsL ex) := by
  apply treeInd (fun t => ((dfsT t).map TE.uid).Nodup →
      u ∈ (dfsT t).map TE.uid →
      List.Perm (dfsT (attachAppend t u ex)) (dfsT t ++ dfsL ex))
    (fun ts => ((dfsL ts).map TE.uid).Nodup → u ∈ (dfsL ts).map TE.uid →
      List.Perm (dfsL (attachAppendL ts u ex)) (dfsL ts ++ dfsL ex))
  · intro te _ hmem
    simp only [dfsT, List.map_cons, List.map_nil, List.mem_singleton] at hmem
    rw [attachAppend]
    rw [if_pos hmem.symm]
    simp [dfsT, dfsL_append, dfsL]
  · intro te ts hQ hnd hmem
    simp only [dfsT, List.map_cons, List.mem_cons] at hmem
    by_cases hu : te.uid = u
    · rw [attachAppend]
      rw [if_pos hu]
      simp [dfsT, dfsL_append, dfsL]
    · rcases hmem with h1 | h2
      · exact absurd h1.symm hu
      · rw [attachAppend]
        rw [if_neg hu]
        simp only [dfsT]
        simp only [dfsT, List.map_cons, List.nodup_cons] at hnd
        exact List.Perm.cons te (hQ hnd.2 h2)
  · intro _ hmem
    simp [dfsL] at hmem
  · intro t ts hP hQ hnd hmem
    simp only [dfsL, List.map_append, List.mem_append] at hmem
    simp only [dfsL, List.map_append] at hnd
    obtain ⟨hnd1, hnd2, hdj⟩ := List.nodup_append.mp hnd
    rw [attachAppendL]
    rcases hmem with h1 | h2
    · have hnot2 : u ∉ (dfsL ts).map TE.uid := fun hc => hdj h1 hc
      rw [attachAppendL_not_mem ts hnot2]
      simp only [dfsL]
      refine ((hP hnd1 h1).append_right _).trans ?_
      rw [List.append_assoc, List.append_assoc]
      exact List.Perm.append_left _ List.perm_append_comm
    · have hnot1 : u ∉ (dfsT t).map TE.uid := fun hc => hdj hc h2
      rw [attachAppend_not_mem t hnot1]
      simp only [dfsL]
      refine (List.Perm.append_left _ (hQ hnd2 h2)).trans ?_
      rw [List.append_assoc]

/-- Appending under one identity keeps the placeholder property of a
different identity when the appended entries keep it. -/
theorem attachAppend_eLeaf {u u' : Nat} {te' : TE} {ex : List TreeN}
    (hne : u' ≠ u) (hex : eLeafL u' te' ex) : ∀ t : TreeN,
    eLeafT u' te' t → eLeafT u' te' (attachAppend t u ex) := by
  apply treeInd (fun t => eLeafT u' te' t → eLeafT u' te' (attachAppend t u ex))
    (fun ts => eLeafL u' te' ts → eLeafL u' te' (attachAppendL ts u ex))
  · intro te hE
    rw [attachAppend]
    by_cases hu : te.uid = u
    · rw [if_pos hu]
      rw [eLeafT]
      refine ⟨fun he => absurd (he ▸ hu) hne, ?_⟩
      exact eLeafL_append.mpr ⟨trivial, hex⟩
    · rw [if_neg hu]
      exact hE
  · intro te ts hQ hE
    obtain ⟨hcond, hL⟩ := hE
    rw [attachAppend]
    by_cases hu : te.uid = u
    · rw [if_pos hu]
      rw [eLeafT]
      refine ⟨fun he => absurd (he ▸ hu) hne, ?_⟩
      exact eLeafL_append.mpr ⟨hL, hex⟩
    · rw [if_neg hu]
      rw [eLeafT]
      refine ⟨?_, hQ hL⟩
      intro he
      refine ⟨(hcond he).1, ?_⟩
      rw [(hcond he).2]
      rfl
  · intro _
    exact trivial
  · intro t ts hP hQ hE
    obtain ⟨hE1, hE2⟩ := hE
    rw [attachAppendL]
    exact ⟨hP hE1, hQ hE2⟩

/-- Pruning only removes entries from the depth-first listing. -/
theorem pruneVisL_dfs_sublist (vis : List Nat) : ∀ ts : List TreeN,
    List.Sublist (dfsL (pruneVisL ts vis)) (dfsL ts) := by
  apply treeIndL (fun t => List.Sublist (dfsT (pruneVis t vis)) (dfsT t))
  · intro te
    rw [pruneVis]
  · intro te ts hQ
    rw [pruneVis]
    rcases hm : pruneVisL ts vis with _ | ⟨a, l⟩
    · simp only [dfsT]
      exact (List.nil_sublist _).cons₂ te
    · simp only [dfsT]
      refine List.Sublist.cons₂ te ?_
      rw [← hm]
      exact hQ
  · exact List.Sublist.refl _
  · intro t ts hP hQ
    rw [pruneVisL]
    by_cases hc : vis = [] ∨ t.te.uid ∈ vis
    · rw [if_pos hc]
      simp only [dfsL]
      exact List.Sublist.append hP hQ
    · rw [if_neg hc]
      simp only [dfsL]
      exact hQ.trans (List.sublist_append_right _ _)

theorem dfsL_type_markLastL : ∀ ts : List TreeN,
    (dfsL (markLastL ts)).map TE.itemType = (dfsL ts).map TE.itemType := by
  apply treeIndL (fun t => ∀ b,
    (dfsT (markLast t b)).map TE.itemType = (dfsT t).map TE.itemType)
  · intro te b
    rfl
  · intro te ts hQ b
    simp [markLast, dfsT, hQ]
  · rfl
  · intro t ts hP hQ
    cases ts with
    | nil => simp [markLastL, dfsL, hP true]
    | cons r rs =>
      rw [markLastL]
      · simp [dfsL, hP false, hQ]
      · intro h
        cases h

theorem dfsL_type_refreshChildL : ∀ ts : List TreeN, ∀ pref : List Bool,
    (dfsL (refreshChildL pref ts)).map TE.itemType =
      (dfsL ts).map TE.itemType := by
  apply treeIndL (fun t => ∀ pref,
    (dfsT (refreshChild pref t)).map TE.itemType = (dfsT t).map TE.itemType)
  · intro te pref
    rfl
  · intro te ts hQ pref
    simp [refreshChild, dfsT, hQ]
  · intro pref
    rfl
  · intro t ts hP hQ pref
    rw [refreshChildL]
    simp [dfsL, hP pref, hQ pref]

theorem dfsItems_type_markLastRoot (t : TreeN) :
    (dfsItems (markLastRoot t)).map TE.itemType =
      (dfsItems t).map TE.itemType := by
  cases t with
  | node te items =>
    cases items with
    | none => rfl
    | some ts =>
      rw [markLastRoot]
      simp [dfsItems, TreeN.items, dfsL_type_markLastL]

theorem dfsItems_type_refreshRoot (t : TreeN) :
    (dfsItems (refreshRoot t)).map TE.itemType =
      (dfsItems t).map TE.itemType := by
  cases t with
  | node te items =>
    cases items with
    | none => rfl
    | some ts =>
      rw [refreshRoot]
      simp [dfsItems, TreeN.items, dfsL_type_refreshChildL]

/-- The loop invariant of the breadth-first scan: the tree's depth-first
entries are the root plus `nodes_in_order`; identities are distinct and
below the counter; every queued node is a childless placeholder in the
tree; the rendered counter counts the non-global entries and respects the
budget. -/
def ScanInv (ml : Int) (rte : TE) (st : ScanSt) (q : List Task) : Prop :=
  st.tree.te = rte ∧
  List.Perm (dfsT st.tree) (rte :: st.nio) ∧
  (∀ te ∈ dfsT st.tree, te.uid < st.uidCtr) ∧
  ((dfsT st.tree).map TE.uid).Nodup ∧
  (∀ t ∈ q, eLeafT t.te.uid t.te st.tree) ∧
  (∀ t ∈ q, t.te.uid ∈ (dfsT st.tree).map TE.uid) ∧
  ((q.map (fun t => t.te.uid)).Nodup) ∧
  (∀ t ∈ q, t.te.uid < st.uidCtr) ∧
  st.rc = (st.nio.filter (fun te => !(isGlobalSummary te))).length ∧
  (ml = 0 ∨ (st.rc : Int) ≤ ml)

theorem ScanInv_sub {ml : Int} {rte : TE} {st : ScanSt} {q q' : List Task}
    (hs : List.Sublist q' q) (h : ScanInv ml rte st q) :
    ScanInv ml rte st q' := by
  obtain ⟨h1, h2, h3, h4, h5, h6, h7, h8, h9, h10⟩ := h
  exact ⟨h1, h2, h3, h4, fun t ht => h5 t (hs.subset ht),
    fun t ht => h6 t (hs.subset ht), h7.sublist (hs.map _),
    fun t ht => h8 t (hs.subset ht), h9, h10⟩

theorem attachSet_te (t : TreeN) (u : Nat) (X : Option (List TreeN)) :
    (attachSet t u X).te = t.te := by
  cases t with
  | node te items =>
    cases items with
    | none =>
      rw [attachSet]
      by_cases h : te.uid = u
      · rw [if_pos h]
        rfl
      · rw [if_neg h]
    | some ts =>
      rw [attachSet]
      by_cases h : te.uid = u
      · rw [if_pos h]
        rfl
      · rw [if_neg h]
        rfl

theorem attachAppend_te (t : TreeN) (u : Nat) (ex : List TreeN) :
    (attachAppend t u ex).te = t.te := by
  cases t with
  | node te items =>
    cases items with
    | none =>
      rw [attachAppend]
      by_cases h : te.uid = u
      · rw [if_pos h]
        rfl
      · rw [if_neg h]
    | some ts =>
      rw [attachAppend]
      by_cases h : te.uid = u
      · rw [if_pos h]
        rfl
      · rw [if_neg h]
        rfl

/-- One attachment step of the scan preserves the invariant: the node of
the dequeued task receives the freshly created entries `Δ`, which also go
to `nodes_in_order`; the surviving queue is the old tail plus tasks for
some of the fresh folder entries. -/
theorem attach_step_inv {ml : Int} {rte : TE} {st : ScanSt} {t : Task}
    {rest : List Task} (hinv : ScanInv ml rte st (t :: rest))
    (M : Option (List TreeN)) (Δ : List TE) (nts : List Task)
    (rc' c4 : Nat) (cache1 : Cache) (b : Bool)
    (hO : dfsO M = Δ)
    (hEO : ∀ u' te',
      (∀ c ∈ Δ, c.uid = u' → c = te' ∧ c.itemType = ItemType.folder) →
      eLeafO u' te' M)
    (hΔlo : ∀ c ∈ Δ, st.uidCtr ≤ c.uid)
    (hΔhi : ∀ c ∈ Δ, c.uid < c4)
    (hΔnd : (Δ.map TE.uid).Nodup)
    (hctr : st.uidCtr ≤ c4)
    (hrc : rc' = st.rc + (Δ.filter (fun te => !(isGlobalSummary te))).length)
    (hbound : ml = 0 ∨ (rc' : Int) ≤ ml)
    (hnts : ∀ t' ∈ nts, t'.te ∈ Δ ∧ t'.te.itemType = ItemType.folder)
    (hntsnd : (nts.map (fun t' => t'.te.uid)).Nodup) :
    ScanInv ml rte
      { tree := attachSet st.tree t.te.uid M, nio := st.nio ++ Δ,
        rc := rc', uidCtr := c4, cache := cache1, limitReached := b }
      (rest ++ nts) := by
  obtain ⟨hte, hperm, hbnd, hnd, hEq, hMq, hQnd, hQbnd, hrcInv, _⟩ := hinv
  have hEt := hEq t (List.mem_cons_self _ _)
  have hmem := hMq t (List.mem_cons_self _ _)
  have hp := attachSet_perm (X := M) st.tree hEt hnd hmem
  rw [hO] at hp
  have hpn : List.Perm (dfsT (attachSet st.tree t.te.uid M))
      (rte :: (st.nio ++ Δ)) := by
    refine hp.trans ?_
    have := hperm.append_right Δ
    exact this
  have hmemnew : ∀ u', u' ∈ (dfsT (attachSet st.tree t.te.uid M)).map TE.uid ↔
      u' ∈ (dfsT st.tree).map TE.uid ∨ u' ∈ Δ.map TE.uid := by
    intro u'
    rw [(hp.map TE.uid).mem_iff]
    rw [List.map_append, List.mem_append]
  have huq : t.te.uid ∉ rest.map (fun t' => t'.te.uid) := by
    have := hQnd
    simp only [List.map_cons, List.nodup_cons] at this
    exact this.1
  have hQnd' : (rest.map (fun t' => t'.te.uid)).Nodup := by
    have := hQnd
    simp only [List.map_cons, List.nodup_cons] at this
    exact this.2
  refine ⟨?_, hpn, ?_, ?_, ?_, ?_, ?_, ?_, ?_, hbound⟩
  · show (attachSet st.tree t.te.uid M).te = rte
    rw [attachSet_te]
    exact hte
  · intro te hte'
    have h0 := (hp.mem_iff).mp hte'
    rcases List.mem_append.mp h0 with ha | hb
    · exact Nat.lt_of_lt_of_le (hbnd te ha) hctr
    · exact hΔhi te hb
  · refine ((hp.map TE.uid).nodup_iff).mpr ?_
    rw [List.map_append, List.nodup_append]
    refine ⟨hnd, hΔnd, ?_⟩
    intro a ha hb
    obtain ⟨te1, hte1, he1⟩ := List.mem_map.mp ha
    obtain ⟨te2, hte2, he2⟩ := List.mem_map.mp hb
    have h1 := hbnd te1 hte1
    have h2 := hΔlo te2 hte2
    omega
  · intro t' ht'
    rcases List.mem_append.mp ht' with h1 | h2
    · have hne : t'.te.uid ≠ t.te.uid := by
        intro he
        exact huq (he ▸ List.mem_map_of_mem _ h1)
      have hXe : eLeafO t'.te.uid t'.te M := by
        apply hEO
        intro c hc hcu
        have := hΔlo c hc
        have := hQbnd t' (List.mem_cons_of_mem _ h1)
        omega
      exact attachSet_eLeaf hne hXe st.tree (hEq t' (List.mem_cons_of_mem _ h1))
    · obtain ⟨hin, hfo⟩ := hnts t' h2
      have hfresh : t'.te.uid ∉ (dfsT st.tree).map TE.uid := by
        intro hc
        obtain ⟨te1, hte1, he1⟩ := List.mem_map.mp hc
        have := hbnd te1 hte1
        have := hΔlo t'.te hin
        omega
      have hXe : eLeafO t'.te.uid t'.te M := by
        apply hEO
        intro c hc hcu
        have hceq : c = t'.te :=
          List.inj_on_of_nodup_map hΔnd hc hin hcu
        exact ⟨hceq, hceq ▸ hfo⟩
      exact attachSet_eLeaf_fresh hXe st.tree hfresh
  · intro t' ht'
    rw [hmemnew]
    rcases List.mem_append.mp ht' with h1 | h2
    · exact Or.inl (hMq t' (List.mem_cons_of_mem _ h1))
    · exact Or.inr (List.mem_map_of_mem _ (hnts t' h2).1)
  · rw [List.map_append, List.nodup_append]
    refine ⟨hQnd', hntsnd, ?_⟩
    intro a ha hb
    obtain ⟨t1, ht1, he1⟩ := List.mem_map.mp ha
    obtain ⟨t2, ht2, he2⟩ := List.mem_map.mp hb
    have h1 := hQbnd t1 (List.mem_cons_of_mem _ ht1)
    have h2 := hΔlo t2.te (hnts t2 ht2).1
    omega
  · intro t' ht'
    rcases List.mem_append.mp ht' with h1 | h2
    · exact Nat.lt_of_lt_of_le (hQbnd t' (List.mem_cons_of_mem _ h1)) hctr
    · exact hΔhi t'.te (hnts t' h2).1
  · show rc' = ((st.nio ++ Δ).filter (fun te => !(isGlobalSummary te))).length
    rw [List.filter_append, List.length_append]
    omega

/-- One loop iteration preserves the scan invariant. -/
theorem stepTask_inv {p : Params} {spec : Option Matcher} {rte : TE}
    {t : Task} {rest : List Task} {st st' : ScanSt} {nts : List Task}
    {stop : Bool} (hstep : stepTask p spec t st = .ok (st', nts, stop))
    (hinv : ScanInv p.maxLines rte st (t :: rest)) :
    ScanInv p.maxLines rte st' (rest ++ nts) := by
  have hbd10 : p.maxLines = 0 ∨ (st.rc : Int) ≤ p.maxLines :=
    hinv.2.2.2.2.2.2.2.2.2
  rw [stepTask] at hstep
  by_cases hd : p.maxDepth ≠ 0 ∧ t.level > p.maxDepth
  · rw [if_pos hd] at hstep
    injection hstep with hstep
    injection hstep with h1 h2
    injection h2 with h2 h3
    subst h1
    subst h2
    rw [List.append_nil]
    exact ScanInv_sub (List.sublist_cons_self t rest) hinv
  · rw [if_neg hd] at hstep
    rcases hld : listDirectoryChildren spec t.dir t.te.relPath
        (if p.maxDepth ≠ 0 then p.maxDepth - t.level else -1) st.cache
      with ⟨fds, fls, cache1⟩
    rw [hld] at hstep
    dsimp only at hstep
    rcases hm1 : makeEntries fds t.te.relPath t.level st.uidCtr
      with e1 | ⟨folderTEs, c1⟩
    · rw [hm1] at hstep
      exact absurd hstep (by simp)
    rw [hm1] at hstep
    dsimp only at hstep
    rcases hm2 : makeEntries fls t.te.relPath t.level c1 with e2 | ⟨fileTEs, c2⟩
    · rw [hm2] at hstep
      exact absurd hstep (by simp)
    rw [hm2] at hstep
    dsimp only at hstep
    rcases hap : applySortingAndLimits folderTEs fileTEs p.foldersFirst
      p.sortKey p.sortDir p.maxFolders p.maxFiles t.te c2 with ⟨children, c3⟩
    rw [hap] at hstep
    dsimp only at hstep
    obtain ⟨hmle1, hmem1, hmnd1⟩ := makeEntries_uid hm1
    obtain ⟨hmle2, hmem2, hmnd2⟩ := makeEntries_uid hm2
    have hltc : ∀ te ∈ folderTEs ++ fileTEs, te.uid < c2 := by
      intro te hte
      rcases List.mem_append.mp hte with h1 | h2
      · have := (hmem1 te h1).2
        omega
      · exact (hmem2 te h2).2
    have hndc : ((folderTEs ++ fileTEs).map TE.uid).Nodup := by
      rw [List.map_append, List.nodup_append]
      refine ⟨hmnd1, hmnd2, ?_⟩
      intro a ha hb
      obtain ⟨t1, ht1, he1⟩ := List.mem_map.mp ha
      obtain ⟨t2, ht2, he2⟩ := List.mem_map.mp hb
      have h1 := (hmem1 t1 ht1).2
      have h2 := (hmem2 t2 ht2).1
      omega
    have hasu := applySorting_uid folderTEs fileTEs p.foldersFirst p.sortKey
      p.sortDir p.maxFolders p.maxFiles t.te c2 hltc hndc
    rw [hap] at hasu
    dsimp only at hasu
    obtain ⟨hc2c3, hmemc, hndch⟩ := hasu
    have hctr3 : st.uidCtr ≤ c3 := by omega
    have hchlo : ∀ te ∈ children, st.uidCtr ≤ te.uid := by
      intro te hte
      rcases hmemc te hte with hin | ⟨ha, _⟩
      · rcases List.mem_append.mp hin with h1 | h2
        · exact (hmem1 te h1).1
        · have := (hmem2 te h2).1
          omega
      · omega
    have hchhi : ∀ te ∈ children, te.uid < c3 := by
      intro te hte
      rcases hmemc te hte with hin | ⟨_, hb⟩
      · have := hltc te hin
        omega
      · exact hb
    by_cases hpre : p.maxLines ≠ 0 ∧ (st.rc : Int) ≥ p.maxLines
    · rw [if_pos hpre] at hstep
      injection hstep with hstep
      injection hstep with h1 h2
      injection h2 with h2 h3
      subst h1
      subst h2
      have h := attach_step_inv hinv none [] [] st.rc c3 cache1 true rfl
        (fun u' te' _ => trivial)
        (by intro c hc; exact absurd hc (List.not_mem_nil c))
        (by intro c hc; exact absurd hc (List.not_mem_nil c))
        (by simp)
        hctr3
        (by simp)
        hbd10
        (by intro t' ht'; exact absurd ht' (List.not_mem_nil t'))
        (by simp)
      simp only [List.append_nil] at h
      rw [List.append_nil]
      exact h
    · rw [if_neg hpre] at hstep
      rcases hcon : consumeChildren p.maxLines st.rc children
        with ⟨trimmed, hidden, rc2, lim⟩
      rw [hcon] at hstep
      dsimp only at hstep
      have hca := consumeChildren_append p.maxLines st.rc children
      rw [hcon] at hca
      dsimp only at hca
      have hcr := consumeChildren_rc p.maxLines children st.rc
      rw [hcon] at hcr
      dsimp only at hcr
      obtain ⟨hrc2, hrcb⟩ := hcr
      have htr_sub : List.Sublist trimmed children := by
        have h := List.sublist_append_left trimmed hidden
        rw [hca] at h
        exact h
      have htrlo : ∀ c ∈ trimmed, st.uidCtr ≤ c.uid :=
        fun c hc => hchlo c (htr_sub.subset hc)
      have htrhi : ∀ c ∈ trimmed, c.uid < c3 :=
        fun c hc => hchhi c (htr_sub.subset hc)
      have htrnd : (trimmed.map TE.uid).Nodup :=
        hndch.sublist (htr_sub.map _)
      have hbound2 : p.maxLines = 0 ∨ (rc2 : Int) ≤ p.maxLines := by
        by_cases hml : p.maxLines = 0
        · exact Or.inl hml
        · rcases hbd10 with h0 | hle
          · exact Or.inl h0
          · exact Or.inr (hrcb hml hle)
      by_cases hgl : lim = true ∧ hidden ≠ []
      · rw [if_pos hgl] at hstep
        dsimp only at hstep
        rw [if_pos hgl.1] at hstep
        injection hstep with hstep
        injection hstep with h1 h2
        injection h2 with h2 h3
        subst h1
        subst h2
        apply attach_step_inv hinv
        · cases trimmed with
          | nil =>
            show dfsL (List.map teToLeaf
              ([] ++ [createGlobalLimitComment t.te hidden c3])) =
              [] ++ [createGlobalLimitComment t.te hidden c3]
            exact dfsL_map_teToLeaf _
          | cons a l =>
            show dfsL (List.map teToLeaf
              ((a :: l) ++ [createGlobalLimitComment t.te hidden c3])) =
              (a :: l) ++ [createGlobalLimitComment t.te hidden c3]
            exact dfsL_map_teToLeaf _
        · intro u' te' hcond
          cases trimmed with
          | nil => exact eLeafL_teToLeaf hcond
          | cons a l => exact eLeafL_teToLeaf hcond
        · intro c hc
          rcases List.mem_append.mp hc with h1 | h2
          · exact htrlo c h1
          · rcases List.mem_singleton.mp h2 with rfl
            have : (createGlobalLimitComment t.te hidden c3).uid = c3 := rfl
            omega
        · intro c hc
          rcases List.mem_append.mp hc with h1 | h2
          · have := htrhi c h1
            omega
          · rcases List.mem_singleton.mp h2 with rfl
            have : (createGlobalLimitComment t.te hidden c3).uid = c3 := rfl
            omega
        · rw [List.map_append, List.nodup_append]
          refine ⟨htrnd, by simp, ?_⟩
          intro a ha hb
          simp only [List.map_cons, List.map_nil, List.mem_singleton] at hb
          obtain ⟨t1, ht1, he1⟩ := List.mem_map.mp ha
          have h1 := htrhi t1 ht1
          have h2 : (createGlobalLimitComment t.te hidden c3).uid = c3 := rfl
          omega
        · omega
        · rw [List.filter_append, List.length_append]
          have hz : (List.filter (fun te => !(isGlobalSummary te))
              [createGlobalLimitComment t.te hidden c3]).length = 0 := by
            simp [isGlobalSummary_global]
          omega
        · exact hbound2
        · intro t' ht'
          exact absurd ht' (List.not_mem_nil t')
        · simp
      · rw [if_neg hgl] at hstep
        dsimp only at hstep
        by_cases hlim : lim = true
        · rw [if_pos hlim] at hstep
          injection hstep with hstep
          injection hstep with h1 h2
          injection h2 with h2 h3
          subst h1
          subst h2
          apply attach_step_inv hinv
          · cases trimmed with
            | nil => rfl
            | cons a l =>
              show dfsL (List.map teToLeaf (a :: l)) = a :: l
              exact dfsL_map_teToLeaf _
          · intro u' te' hcond
            cases trimmed with
            | nil => exact trivial
            | cons a l => exact eLeafL_teToLeaf hcond
          · exact htrlo
          · exact htrhi
          · exact htrnd
          · exact hctr3
          · exact hrc2
          · exact hbound2
          · intro t' ht'
            exact absurd ht' (List.not_mem_nil t')
          · simp
        · rw [if_neg hlim] at hstep
          injection hstep with hstep
          injection hstep with h1 h2
          injection h2 with h2 h3
          subst h1
          subst h2
          apply attach_step_inv hinv
          · cases trimmed with
            | nil => rfl
            | cons a l =>
              show dfsL (List.map teToLeaf (a :: l)) = a :: l
              exact dfsL_map_teToLeaf _
          · intro u' te' hcond
            cases trimmed with
            | nil => exact trivial
            | cons a l => exact eLeafL_teToLeaf hcond
          · exact htrlo
          · exact htrhi
          · exact htrnd
          · exact hctr3
          · exact hrc2
          · exact hbound2
          · intro t' ht'
            rw [newTasksOf_eq] at ht'
            by_cases hdd : p.maxDepth ≠ 0 ∧ t.level ≥ p.maxDepth
            · rw [if_pos hdd] at ht'
              exact absurd ht' (List.not_mem_nil t')
            · rw [if_neg hdd] at ht'
              obtain ⟨c, hc, hceq⟩ := List.mem_map.mp ht'
              obtain ⟨hcm, hcf⟩ := List.mem_filter.mp hc
              subst hceq
              exact ⟨hcm, by simpa using hcf⟩
          · rw [newTasksOf_eq]
            by_cases hdd : p.maxDepth ≠ 0 ∧ t.level ≥ p.maxDepth
            · rw [if_pos hdd]
              simp
            · rw [if_neg hdd]
              rw [List.map_map]
              have : (trimmed.filter
                  (fun c => c.itemType = ItemType.folder)).map
                  ((fun t' : Task => t'.te.uid) ∘
                    (fun c => (⟨c, getChildDir t.dir c.name, t.level + 1⟩ :
                      Task))) =
                  (trimmed.filter
                    (fun c => c.itemType = ItemType.folder)).map TE.uid := rfl
              rw [this]
              exact htrnd.sublist ((List.filter_sublist _).map _)

theorem bfsLoopF_inv (p : Params) (spec : Option Matcher) (rte : TE) :
    ∀ (fuel : Nat) (q : List Task) (st st' : ScanSt) (rem : List Task),
    ScanInv p.maxLines rte st q →
    bfsLoopF p spec fuel q st = .ok (st', rem) →
    ScanInv p.maxLines rte st' rem := by
  intro fuel
  induction fuel with
  | zero =>
    intro q st st' rem hinv h
    cases q with
    | nil =>
      rw [bfsLoopF] at h
      injection h with h
      injection h with h1 h2
      subst h1
      subst h2
      exact ScanInv_sub (List.nil_sublist _) hinv
    | cons t rest =>
      rw [bfsLoopF] at h
      exact absurd h (by simp)
  | succ n ih =>
    intro q st st' rem hinv h
    cases q with
    | nil =>
      rw [bfsLoopF] at h
      injection h with h
      injection h with h1 h2
      subst h1
      subst h2
      exact ScanInv_sub (List.nil_sublist _) hinv
    | cons t rest =>
      rw [bfsLoopF] at h
      rcases hs : stepTask p spec t st with e | ⟨st2, nts, stop⟩
      · rw [hs] at h
        exact absurd h (by simp)
      · rw [hs] at h
        dsimp only at h
        have hinv2 := stepTask_inv hs hinv
        by_cases hstop : stop = true
        · rw [if_pos hstop] at h
          injection h with h
          injection h with h1 h2
          subst h1
          subst h2
          exact ScanInv_sub (List.sublist_append_left rest nts) hinv2
        · rw [if_neg hstop] at h
          exact ih _ _ _ _ hinv2 h

theorem createFolderUnprocessedComment_uid {spec : Option Matcher} {t : Task}
    {u : Nat} {c : TE}
    (h : createFolderUnprocessedComment spec t u = .ok (some c)) :
    c.uid = u := by
  rw [createFolderUnprocessedComment] at h
  rcases hld : listDirectoryChildren spec t.dir t.te.relPath (-1) []
    with ⟨fds, fls, c'⟩
  rw [hld] at h
  dsimp only at h
  rcases hm1 : mkHiddenTEs t.te fds .folder with er | hf
  · rw [hm1] at h
    exact absurd h (by simp)
  rw [hm1] at h
  dsimp only at h
  rcases hm2 : mkHiddenTEs t.te fls .file with er | hfl
  · rw [hm2] at h
    exact absurd h (by simp)
  rw [hm2] at h
  dsimp only at h
  by_cases hh : hf ++ hfl = []
  · rw [if_pos hh] at h
    exact absurd h (by simp)
  · rw [if_neg hh] at h
    injection h with h
    injection h with h
    subst h
    rfl

/-- The deferred-comment pass preserves the invariant (the queue is fully
consumed; every appended comment is global and uncounted). -/
theorem tailPhase_inv (spec : Option Matcher) (ml : Int) (rte : TE) :
    ∀ (rem : List Task) (st st' : ScanSt), ScanInv ml rte st rem →
    tailPhase spec rem st = .ok st' →
    ScanInv ml rte st' [] ∧ st'.rc = st.rc := by
  intro rem
  induction rem with
  | nil =>
    intro st st' hinv h
    rw [tailPhase] at h
    injection h with h
    subst h
    exact ⟨ScanInv_sub (List.nil_sublist _) hinv, rfl⟩
  | cons t rest ih =>
    intro st st' hinv h
    rw [tailPhase] at h
    rcases hc : createFolderUnprocessedComment spec t st.uidCtr
      with er | ⟨_ | s⟩
    · rw [hc] at h
      exact absurd h (by simp)
    · rw [hc] at h
      exact ih st st' (ScanInv_sub (List.sublist_cons_self t rest) hinv) h
    · rw [hc] at h
      dsimp only at h
      obtain ⟨hcty, hcrel⟩ := createFolderUnprocessedComment_some hc
      have hcuid := createFolderUnprocessedComment_uid hc
      have hglob : isGlobalSummary s = true := by
        rw [isGlobalSummary, hcty, hcrel]
        simp [pyEndsWith_append]
      obtain ⟨hte, hperm, hbnd, hnd, hEq, hMq, hQnd, hQbnd, hrcInv, hbd⟩ := hinv
      have hEt := hEq t (List.mem_cons_self _ _)
      have hmem := hMq t (List.mem_cons_self _ _)
      have hp := @attachAppend_perm t.te.uid [teToLeaf s] st.tree hnd hmem
      have hdfs1 : dfsL [teToLeaf s] = [s] := by
        simp [dfsL, dfsT_teToLeaf]
      rw [hdfs1] at hp
      have huq : t.te.uid ∉ rest.map (fun t' => t'.te.uid) := by
        have := hQnd
        simp only [List.map_cons, List.nodup_cons] at this
        exact this.1
      have hQnd' : (rest.map (fun t' => t'.te.uid)).Nodup := by
        have := hQnd
        simp only [List.map_cons, List.nodup_cons] at this
        exact this.2
      have hinv2 : ScanInv ml rte
          { st with tree := attachAppend st.tree t.te.uid [teToLeaf s],
                    nio := st.nio ++ [s], uidCtr := st.uidCtr + 1 } rest := by
        refine ⟨?_, ?_, ?_, ?_, ?_, ?_, hQnd', ?_, ?_, ?_⟩
        · show (attachAppend st.tree t.te.uid [teToLeaf s]).te = rte
          rw [attachAppend_te]
          exact hte
        · refine hp.trans ?_
          exact hperm.append_right [s]
        · intro te hte'
          have h0 := (hp.mem_iff).mp hte'
          rcases List.mem_append.mp h0 with ha | hb
          · have := hbnd te ha
            show te.uid < st.uidCtr + 1
            omega
          · rw [List.mem_singleton.mp hb, hcuid]
            exact Nat.lt_succ_self _
        · refine ((hp.map TE.uid).nodup_iff).mpr ?_
          rw [List.map_append, List.nodup_append]
          refine ⟨hnd, by simp, ?_⟩
          intro a ha hb
          simp only [List.map_cons, List.map_nil, List.mem_singleton] at hb
          obtain ⟨t1, ht1, he1⟩ := List.mem_map.mp ha
          have := hbnd t1 ht1
          omega
        · intro t' ht'
          have hne : t'.te.uid ≠ t.te.uid := by
            intro he
            exact huq (he ▸ List.mem_map_of_mem _ ht')
          have hex : eLeafL t'.te.uid t'.te [teToLeaf s] := by
            exact eLeafL_teToLeaf (l := [s]) (by
              intro c hc hcu
              exfalso
              have hcs := List.mem_singleton.mp hc
              have := hQbnd t' (List.mem_cons_of_mem _ ht')
              rw [hcs, hcuid] at hcu
              omega)
          exact attachAppend_eLeaf hne hex st.tree
            (hEq t' (List.mem_cons_of_mem _ ht'))
        · intro t' ht'
          rw [(hp.map TE.uid).mem_iff]
          rw [List.map_append, List.mem_append]
          exact Or.inl (hMq t' (List.mem_cons_of_mem _ ht'))
        · intro t' ht'
          have := hQbnd t' (List.mem_cons_of_mem _ ht')
          show t'.te.uid < st.uidCtr + 1
          omega
        · show st.rc = ((st.nio ++ [s]).filter
            (fun te => !(isGlobalSummary te))).length
          rw [List.filter_append, List.length_append]
          have hz : (List.filter (fun te => !(isGlobalSummary te)) [s]).length
              = 0 := by
            simp [hglob]
          omega
        · exact hbd
      exact ih
        { st with
          tree := attachAppend st.tree t.te.uid [teToLeaf s],
          nio := st.nio ++ [s],
          uidCtr := st.uidCtr + 1 }
        st' hinv2 h

theorem dfsT_eq_cons (t : TreeN) : dfsT t = t.te :: dfsItems t := by
  cases t with
  | node te items =>
    cases items with
    | none => rfl
    | some ts => rfl

theorem pruneVis_items_sublist (vis : List Nat) (t : TreeN) :
    List.Sublist (dfsItems (pruneVis t vis)) (dfsItems t) := by
  cases t with
  | node te items =>
    cases items with
    | none =>
      rw [pruneVis]
    | some ts =>
      rw [pruneVis]
      rcases hm : pruneVisL ts vis with _ | ⟨a, l⟩
      · exact List.nil_sublist _
      · show List.Sublist (dfsL (a :: l)) (dfsL ts)
        rw [← hm]
        exact pruneVisL_dfs_sublist vis ts

/-- The whole scan (loop plus deferred comments) ends with the tree's
depth-first entries a permutation of root plus `nodes_in_order`, the
rendered counter equal to the non-global count, and the budget respected. -/
theorem buildScan_inv (p : Params) (spec : Option Matcher) (rootName : String)
    (c m : Nat) (rootDir : FSDir) (st : ScanSt) (rem : List Task)
    (hml : 0 ≤ p.maxLines)
    (hb : buildScan p spec rootName c m rootDir = .ok (st, rem)) :
    st.tree.te = rootTE rootName c m ∧
    List.Perm (dfsT st.tree) (rootTE rootName c m :: st.nio) ∧
    st.rc = (st.nio.filter (fun te => !(isGlobalSummary te))).length ∧
    (p.maxLines = 0 ∨ (st.rc : Int) ≤ p.maxLines) := by
  rw [← buildScanF_eq] at hb
  rw [buildScanF] at hb
  dsimp only at hb
  have hinit : ScanInv p.maxLines (rootTE rootName c m)
      { tree := .node (rootTE rootName c m) (some []), nio := [], rc := 0,
        uidCtr := 1, cache := [], limitReached := false }
      [⟨rootTE rootName c m, rootDir, 1⟩] := by
    refine ⟨rfl, ?_, ?_, ?_, ?_, ?_, ?_, ?_, rfl, ?_⟩
    · exact List.Perm.refl _
    · intro te hte
      simp only [dfsT, dfsL, List.mem_singleton] at hte
      subst hte
      exact Nat.lt_succ_self 0
    · simp [dfsT, dfsL]
    · intro t ht
      rcases List.mem_singleton.mp ht with rfl
      exact ⟨fun _ => ⟨rfl, rfl⟩, trivial⟩
    · intro t ht
      rcases List.mem_singleton.mp ht with rfl
      simp [dfsT, dfsL]
    · simp
    · intro t ht
      rcases List.mem_singleton.mp ht with rfl
      exact Nat.lt_succ_self 0
    · by_cases h0 : p.maxLines = 0
      · exact Or.inl h0
      · exact Or.inr (by exact_mod_cast hml)
  rcases hloop : bfsLoopF p spec
      (queueWeight [⟨rootTE rootName c m, rootDir, 1⟩] + 1)
      [⟨rootTE rootName c m, rootDir, 1⟩]
      { tree := .node (rootTE rootName c m) (some []), nio := [], rc := 0,
        uidCtr := 1, cache := [], limitReached := false }
    with e | ⟨st1, rem1⟩
  · rw [hloop] at hb
    exact absurd hb (by simp)
  rw [hloop] at hb
  dsimp only at hb
  have hinv1 := bfsLoopF_inv p spec (rootTE rootName c m) _ _ _ _ _ hinit hloop
  have hinvQ : ScanInv p.maxLines (rootTE rootName c m) st1
      (if st1.limitReached then rem1 else []) := by
    by_cases hlr : st1.limitReached = true
    · rw [if_pos hlr]
      exact hinv1
    · rw [if_neg hlr]
      exact ScanInv_sub (List.nil_sublist _) hinv1
  by_cases htail : st1.limitReached = true ∧
      ¬ ((if st1.limitReached then rem1 else []).isEmpty = true)
  · rw [if_pos htail] at hb
    rcases htp : tailPhase spec (if st1.limitReached then rem1 else []) st1
      with e | st2
    · rw [htp] at hb
      exact absurd hb (by simp)
    · rw [htp] at hb
      injection hb with hb
      injection hb with h1 h2
      subst h1
      obtain ⟨hfin, _⟩ := tailPhase_inv spec p.maxLines (rootTE rootName c m)
        _ _ _ hinvQ htp
      obtain ⟨a, b2, _, _, _, _, _, _, i, j⟩ := hfin
      exact ⟨a, b2, i, j⟩
  · rw [if_neg htail] at hb
    injection hb with hb
    injection hb with h1 h2
    subst h1
    obtain ⟨a, b2, _, _, _, _, _, _, i, j⟩ := hinvQ
    exact ⟨a, b2, i, j⟩

theorem countP_imp_le {l : List TE} {p q : TE → Bool}
    (h : ∀ a ∈ l, p a = true → q a = true) : l.countP p ≤ l.countP q := by
  induction l with
  | nil => exact Nat.le_refl _
  | cons a rest ih =>
    rw [List.countP_cons, List.countP_cons]
    have hr := ih (fun a ha => h a (List.mem_cons_of_mem _ ha))
    by_cases hp : p a = true
    · rw [hp, h a (List.mem_cons_self _ _) hp]
      simp only [eq_self_iff_true, if_true]
      omega
    · have hp' : p a = false := by
        cases hpv : p a
        · rfl
        · exact absurd hpv hp
      rw [hp']
      simp only [Bool.false_eq_true, if_false]
      by_cases hq : q a = true
      · rw [hq]
        simp only [eq_self_iff_true, if_true]
        omega
      · have hq' : q a = false := by
          cases hqv : q a
          · rfl
          · exact absurd hqv hq
        rw [hq']
        simp only [Bool.false_eq_true, if_false]
        omega

/-- The non-comment entries of the rendered flat output are bounded by the
non-global count of `nodes_in_order`. -/
theorem renderFlat_count_le (st : ScanSt) (rte : TE)
    (hte : st.tree.te = rte)
    (hperm : List.Perm (dfsT st.tree) (rte :: st.nio)) :
    (((iterVisible (finalizeTree st) (st.nio.map TE.uid)).map
        toFlatItem).filter (fun i => ¬ i.type = ItemType.comment)).length ≤
    (st.nio.filter (fun te => !(isGlobalSummary te))).length := by
  rw [iterVisible_finalize]
  rw [← List.countP_eq_length_filter, ← List.countP_eq_length_filter]
  rw [List.countP_map]
  have hA : List.countP
      ((fun i => decide (¬ i.type = ItemType.comment)) ∘ toFlatItem)
      (dfsItems (finalizeTree st)) =
      List.countP (fun ty => decide (¬ ty = ItemType.comment))
        ((dfsItems (finalizeTree st)).map TE.itemType) := by
    rw [List.countP_map]
    rfl
  rw [hA]
  rw [finalizeTree]
  rw [dfsItems_type_refreshRoot, dfsItems_type_markLastRoot]
  have hsub : List.Sublist
      (dfsItems (if st.nio.map TE.uid = [] then st.tree
        else pruneVis st.tree (st.nio.map TE.uid)))
      (dfsItems st.tree) := by
    by_cases hv : st.nio.map TE.uid = []
    · rw [if_pos hv]
    · rw [if_neg hv]
      exact pruneVis_items_sublist _ _
  refine Nat.le_trans ((hsub.map TE.itemType).countP_le _) ?_
  have hB : List.countP (fun ty => decide (¬ ty = ItemType.comment))
      ((dfsItems st.tree).map TE.itemType) =
      List.countP (fun te => decide (¬ te.itemType = ItemType.comment))
        (dfsItems st.tree) := by
    rw [List.countP_map]
    rfl
  rw [hB]
  have hpn : List.Perm (dfsItems st.tree) st.nio := by
    have h1 : dfsT st.tree = rte :: dfsItems st.tree := by
      rw [dfsT_eq_cons, hte]
    rw [h1] at hperm
    exact hperm.cons_inv
  rw [hpn.countP_eq]
  exact countP_imp_le (by
    intro a _ hp
    rw [isGlobalSummary]
    simp only [decide_eq_true_eq] at hp
    simp [hp])

/-- C1: with `max_lines = N > 0`, the flat output holds at most `N`
folder/file entries (comments excluded — the flat list has no root
banner), and the final rendered counter is exactly the number of
`nodes_in_order` entries that are not global `#summary:limit` comments, so
global-limit comments never increment it while per-directory overflow
comments (type `comment` but a `#summary:<noun>:<n>` path) do. -/
theorem claim_C1 (root : Option FSNode) (relativePath : String) (p : Params)
    (ignore : Option String) (fromLines : List String → Matcher)
    (readFile : String → Option String) (rootAbs : String)
    (fl : List FlatItem) (hN : 0 < p.maxLines)
    (hf : fileTree root relativePath { p with outputMode := OUTPUT_MODE_FLAT }
        ignore fromLines readFile rootAbs = .ok (.flat fl)) :
    ((fl.filter (fun i => ¬ i.type = ItemType.comment)).length : Int) ≤
      p.maxLines ∧
    (∀ (spec : Option Matcher) (rname : String) (rcre rmod : Nat)
      (rlOk : Bool) (rch : List FSNode) (st : ScanSt) (rem : List Task),
      buildScan p spec rname rcre rmod ⟨rlOk, rch⟩ = .ok (st, rem) →
      st.rc = (st.nio.filter (fun te => !(isGlobalSummary te))).length) := by
  constructor
  · rw [← fileTreeF_eq] at hf
    rw [fileTreeF.eq_def] at hf
    cases root with
    | none => exact absurd hf (by simp)
    | some n =>
      cases n with
      | file a b c d => exact absurd hf (by simp)
      | dir rname rcre rmod rstatOk rlistOk rchildren =>
        dsimp only at hf
        rcases hv : validateParams { p with outputMode := OUTPUT_MODE_FLAT }
          with e | u
        · rw [hv] at hf
          exact absurd hf (by simp)
        rw [hv] at hf
        dsimp only at hf
        rcases hri : resolveIgnorePatterns fromLines readFile ignore rootAbs
          with e | spec
        · rw [hri] at hf
          exact absurd hf (by simp)
        rw [hri] at hf
        dsimp only at hf
        by_cases hst : rstatOk = true
        · rw [if_pos hst] at hf
          rw [buildScanF_mode] at hf
          rcases hb : buildScanF p spec rname rcre rmod ⟨rlistOk, rchildren⟩
            with e | ⟨st, rem⟩
          · rw [hb] at hf
            exact absurd hf (by simp)
          rw [hb] at hf
          dsimp only at hf
          rw [renderOutput] at hf
          dsimp only at hf
          rw [if_neg (by decide), if_pos rfl] at hf
          injection hf with hf
          injection hf with hf
          have hbs : buildScan p spec rname rcre rmod ⟨rlistOk, rchildren⟩ =
              .ok (st, rem) := by
            rw [← buildScanF_eq]
            exact hb
          obtain ⟨hte, hperm, hrc, hbd⟩ := buildScan_inv p spec rname rcre
            rmod ⟨rlistOk, rchildren⟩ st rem (Int.le_of_lt hN) hbs
          have hcount := renderFlat_count_le st (rootTE rname rcre rmod)
            hte hperm
          rw [hf] at hcount
          have hml : (st.rc : Int) ≤ p.maxLines := by
            rcases hbd with h0 | hle
            · exfalso
              omega
            · exact hle
          rw [← hrc] at hcount
          have : ((fl.filter
              (fun i => ¬ i.type = ItemType.comment)).length : Int) ≤
              (st.rc : Int) := by
            exact_mod_cast hcount
          omega
        · rw [if_neg hst] at hf
          exact absurd hf (by simp)
  · intro spec rname rcre rmod rlOk rch st rem hb
    exact (buildScan_inv p spec rname rcre rmod ⟨rlOk, rch⟩ st rem
      (Int.le_of_lt hN) hb).2.2.1

/-- Witness for C1 on `root/{a/{f,g}, b/}` with `max_lines = 3`
(name-ascending): exactly 3 non-comment entries are rendered. -/
theorem claim_C1_witness :
    ((0 : Int) < (3 : Int)) ∧
    (fileTree (some (.dir "root" 0 0 true true
        [.dir "a" 1 1 true true [.file "f" 2 2 true, .file "g" 3 3 true],
         .dir "b" 4 4 true true []])) ""
        { ({ maxLines := 3, sortKey := "name", sortDir := "asc" } : Params)
          with outputMode := OUTPUT_MODE_FLAT } none
        (fun _ _ => false) (fun _ => none) "/a" =
      .ok (.flat
        [⟨"a", 1, .folder, 1, 1, "├── a/"⟩,
         ⟨"f", 2, .file, 2, 2, "│   ├── f"⟩,
         ⟨"limit reached – hidden: 1 file", 2, .comment, 1, 1,
           "│   └── # limit reached – hidden: 1 file"⟩,
         ⟨"b", 1, .folder, 4, 4, "└── b/"⟩])) ∧
    (((([⟨"a", 1, .folder, 1, 1, "├── a/"⟩,
         ⟨"f", 2, .file, 2, 2, "│   ├── f"⟩,
         ⟨"limit reached – hidden: 1 file", 2, .comment, 1, 1,
           "│   └── # limit reached – hidden: 1 file"⟩,
         ⟨"b", 1, .folder, 4, 4, "└── b/"⟩] : List FlatItem).filter
        (fun i => ¬ i.type = ItemType.comment)).length : Int) ≤
      ({ maxLines := 3, sortKey := "name", sortDir := "asc" } :
        Params).maxLines ∧
     (∀ (spec : Option Matcher) (rname : String) (rcre rmod : Nat)
       (rlOk : Bool) (rch : List FSNode) (st : ScanSt) (rem : List Task),
       buildScan { maxLines := 3, sortKey := "name", sortDir := "asc" } spec
         rname rcre rmod ⟨rlOk, rch⟩ = .ok (st, rem) →
       st.rc =
         (st.nio.filter (fun te => !(isGlobalSummary te))).length)) := by
  have hflat : fileTree (some (.dir "root" 0 0 true true
      [.dir "a" 1 1 true true [.file "f" 2 2 true, .file "g" 3 3 true],
       .dir "b" 4 4 true true []])) ""
      { ({ maxLines := 3, sortKey := "name", sortDir := "asc" } : Params)
        with outputMode := OUTPUT_MODE_FLAT } none
      (fun _ _ => false) (fun _ => none) "/a" =
      .ok (.flat
        [⟨"a", 1, .folder, 1, 1, "├── a/"⟩,
         ⟨"f", 2, .file, 2, 2, "│   ├── f"⟩,
         ⟨"limit reached – hidden: 1 file", 2, .comment, 1, 1,
           "│   └── # limit reached – hidden: 1 file"⟩,
         ⟨"b", 1, .folder, 4, 4, "└── b/"⟩]) := by
    rw [← fileTreeF_eq]
    rfl
  exact ⟨by decide, hflat,
    claim_C1 (some (.dir "root" 0 0 true true
        [.dir "a" 1 1 true true [.file "f" 2 2 true, .file "g" 3 3 true],
         .dir "b" 4 4 true true []])) ""
      { maxLines := 3, sortKey := "name", sortDir := "asc" } none
      (fun _ _ => false) (fun _ => none) "/a"
      [⟨"a", 1, .folder, 1, 1, "├── a/"⟩,
       ⟨"f", 2, .file, 2, 2, "│   ├── f"⟩,
       ⟨"limit reached – hidden: 1 file", 2, .comment, 1, 1,
         "│   └── # limit reached – hidden: 1 file"⟩,
       ⟨"b", 1, .folder, 4, 4, "└── b/"⟩] (by decide) hflat⟩

end FileTreePy
